import Mathlib

/-!
# Path algebra of the FC command (`fc.c`)

A shallow embedding of the path functions of `fc.c` and the properties of them.

Conventions of the embedding.

* A C wide string is the list of its code units before the terminator; reading
  the string at the index of its length yields the terminator.
* Pointers into a string are indices (or the unread suffix of the list); every
  function is modelled for non-null arguments.
* A function whose C code can move a cursor outside the string it scans
  returns an `Option`: `none` stands for "reads memory outside the string", a
  run on which the C code has no defined result.
-/

namespace Fc

/-- Modelled from the spec: `MAX_PATH` is declared in the platform headers, not
in `fc.c`; the spec gives the platform path limit as 260 code units. -/
def MAX_PATH : Nat := 260

/-- The terminator of a C string. -/
def NUL : Char := Char.ofNat 0

/-- The code unit `s[i]`; the terminator when `i` is the length of `s`. -/
def rd (s : List Char) (i : Nat) : Char := s.getD i NUL

/-- The platform function `lstrcpynW(tmp, s, n)`, as `fc.c` uses it: the copy
holds at most `n - 1` code units of `s`, followed by the terminator. The other
platform string functions need no definition: `lstrlenW` is the length of the
list and `lstrcatW` is `++`. -/
def lstrcpynW (s : List Char) (n : Nat) : List Char := s.take (n - 1)

/-- The function `PathIsUNCW`: `path[0] == '\\' && path[1] == '\\'`. -/
def PathIsUNCW (path : List Char) : Bool :=
  rd path 0 == '\\' && rd path 1 == '\\'

/-- The function `PathIsRelativeW`. -/
def PathIsRelativeW (path : List Char) : Bool :=
  match path with
  | [] => true
  | c :: rest => !(c == '\\' || rd rest 0 == ':')

/-- The loop of `PathIsUNCServerShareW` over the text after the leading `\\`,
with the flag `seen_slash`. -/
def uncShareScan : Bool → List Char → Bool
  | seen, [] => seen
  | seen, c :: rest =>
    if c = '\\' then (if seen then false else uncShareScan true rest)
    else uncShareScan seen rest

/-- The function `PathIsUNCServerShareW`. -/
def PathIsUNCServerShareW (path : List Char) : Bool :=
  match path with
  | '\\' :: '\\' :: rest => uncShareScan false rest
  | _ => false

/-- The loop `while (dst > buffer && *dst != '\\') dst--;` of
`PathCanonicalizeW`, from the index `d` into the buffer `buf`. -/
def scanBack (buf : List Char) : Nat → Nat
  | 0 => 0
  | d + 1 => if rd buf (d + 1) ≠ '\\' then scanBack buf d else d + 1

/-- The first part of the `..` branch of `PathCanonicalizeW`: the `if` that
moves `dst` before the final backward scan. `buf` is the text written so far
(`dst` is its length, and `*dst = 0` has been stored). The result is the new
`dst`; `none` when the test reads `dst[-3]` with `dst == buffer + 2`, which is
the code unit before the buffer. -/
def backGuard (buf : List Char) : Option Nat :=
  let dst := buf.length
  if 1 < dst ∧ rd buf (dst - 1) = '\\' ∧ (rd buf (dst - 2) ≠ '\\' ∨ 2 < dst) then
    if rd buf (dst - 2) = ':' then
      if 3 < dst then
        let d := scanBack buf (dst - 2)
        some (if rd buf d = '\\' then d + 1 else 0)
      else if dst = 2 then none
      else if rd buf (dst - 3) = ':' then
        let d := scanBack buf (dst - 2)
        some (if rd buf d = '\\' then d + 1 else 0)
      else some dst
    else if PathIsUNCServerShareW buf = false then some (dst - 2)
    else some dst
  else some dst

/-- The `..` branch of `PathCanonicalizeW` on the buffer: the new `dst` after
the guard and the final backward scan. -/
def backtrack (buf : List Char) : Option Nat :=
  (backGuard buf).map (scanBack buf)

/-- The main loop of `PathCanonicalizeW`. The read cursor `src` is the unread
suffix of the path together with `prev`, the code unit `src[-1]` (`none` when
`src == path`); `out` is the text between `buffer` and `dst`. -/
def canonLoop : Option Char → List Char → List Char → Option (List Char)
  | _, [], out => some out
  | prev, c :: rest, out =>
    if c = '.' then
      match rest with
      | [] => canonLoop (some c) [] (out ++ [c])
      | c1 :: rest1 =>
        if c1 = '\\' ∧ (prev = none ∨ prev = some '\\' ∨ prev = some ':') then
          canonLoop (some c1) rest1 out
        else if c1 = '.' ∧ out ≠ [] ∧ out.getLast? = some '\\' then
          match backtrack out with
          | none => none
          | some d =>
            if d = 0 then
              match rest1 with
              | [] => none
              | e :: rest2 => canonLoop (some e) rest2 ['\\']
            else canonLoop (some c1) rest1 (out.take d)
        else canonLoop (some c) (c1 :: rest1) (out ++ [c])
    else canonLoop (some c) rest (out ++ [c])

/-- The end of `PathCanonicalizeW`: a backslash is appended to a naked drive
spec. -/
def nakedDrive (out : List Char) : List Char :=
  if out.length = 2 ∧ out.getLast? = some ':' then out ++ ['\\'] else out

/-- The function `PathCanonicalizeW(buffer, path)`: the text left in `buffer`. -/
def PathCanonicalizeW (path : List Char) : Option (List Char) :=
  match path with
  | [] => some ['\\']
  | c0 :: rest0 =>
    if c0 = '\\' then (canonLoop (some c0) rest0 [c0]).map nakedDrive
    else
      match rest0 with
      | ':' :: '\\' :: rest2 => (canonLoop (some '\\') rest2 [c0, ':', '\\']).map nakedDrive
      | ':' :: rest1 => (canonLoop (some ':') rest1 [c0, ':']).map nakedDrive
      | _ => (canonLoop none path []).map nakedDrive

/-- The function `PathAddBackslashW(path)`: `none` for the `NULL` result,
otherwise the text left in `path`. -/
def PathAddBackslashW (path : List Char) : Option (List Char) :=
  if MAX_PATH ≤ path.length then none
  else if path.length ≠ 0 then
    (if rd path (path.length - 1) ≠ '\\' then some (path ++ ['\\']) else some path)
  else some path

/-- The loop of `PathIsRootW` over the text after the leading `\\`, with the
flag `seen_slash`. -/
def uncRootScan : Bool → List Char → Bool
  | _, [] => true
  | seen, c :: rest =>
    if c = '\\' then (if seen then false else uncRootScan true rest)
    else uncRootScan seen rest

/-- The function `PathIsRootW`. -/
def PathIsRootW (path : List Char) : Bool :=
  match path with
  | [] => false
  | c :: rest =>
    if c = '\\' then
      match rest with
      | [] => true
      | c1 :: rest1 => if c1 = '\\' then uncRootScan false rest1 else false
    else
      match rest with
      | [':', '\\'] => true
      | _ => false

/-- The loop of `PathRemoveFileSpecW`: `filespec` and `path` are indices into
the string, `rest` is the text from `path` on. The result is the final
`filespec`; `none` when `path++` steps over the terminator, which happens when
a colon is the last code unit. -/
def fileSpecScan : Nat → Nat → List Char → Option Nat
  | filespec, _, [] => some filespec
  | filespec, i, c :: rest =>
    if c = '\\' then fileSpecScan i (i + 1) rest
    else if c = ':' then
      match rest with
      | [] => none
      | c1 :: rest1 => fileSpecScan (if c1 = '\\' then i + 2 else i + 1) (i + 2) rest1
    else fileSpecScan filespec (i + 1) rest

/-- The function `PathRemoveFileSpecW(path)`: the text left in `path` and the
returned flag `modified`. -/
def PathRemoveFileSpecW (path : List Char) : Option (List Char × Bool) :=
  let i1 := if rd path 0 = '\\' then 1 else 0
  let i2 := if rd path i1 = '\\' then i1 + 1 else i1
  (fileSpecScan i2 i2 (path.drop i2)).map fun filespec =>
    if rd path filespec ≠ NUL then (path.take filespec, true) else (path, false)

/-- The loop of `PathRemoveFileSpecW` behind the terminator of the string, where
`path++` takes it after a colon as last code unit. `mem` is the content of the
buffer from `path` on as far as it is known, terminators included; the loop
ends at the first terminator that its test meets. The result is the final
`filespec`; `none` when the loop reads beyond the known content. -/
def fileSpecScanPast : Nat → Nat → List Char → Option Nat
  | _, _, [] => none
  | filespec, i, c :: rest =>
    if c = NUL then some filespec
    else if c = '\\' then fileSpecScanPast i (i + 1) rest
    else if c = ':' then
      match rest with
      | [] => none
      | c1 :: rest1 => fileSpecScanPast (if c1 = '\\' then i + 2 else i + 1) (i + 2) rest1
    else fileSpecScanPast filespec (i + 1) rest

/-- The loop of `PathRemoveFileSpecW` on a string in a buffer of which the
content behind the terminator of the string is known to be `stale`. It is
`fileSpecScan`, but for a colon as last code unit: `++path` is then at the
terminator, `path++` steps over it and the loop goes on in `stale`. -/
def fileSpecScanBuf (stale : List Char) : Nat → Nat → List Char → Option Nat
  | filespec, _, [] => some filespec
  | filespec, i, c :: rest =>
    if c = '\\' then fileSpecScanBuf stale i (i + 1) rest
    else if c = ':' then
      match rest with
      | [] => fileSpecScanPast (i + 1) (i + 2) stale
      | c1 :: rest1 =>
        fileSpecScanBuf stale (if c1 = '\\' then i + 2 else i + 1) (i + 2) rest1
    else fileSpecScanBuf stale filespec (i + 1) rest

/-- The function `PathRemoveFileSpecW(path)` on a string in a buffer of which
the content behind the terminator of the string is known to be `stale`: the
text left in `path`, the content then known behind its terminator, and the
returned flag `modified`. The terminator is stored at `filespec`, which is in
the string or, when the loop has gone on behind its terminator, in `stale`. -/
def PathRemoveFileSpecBuf (path stale : List Char) : Option (List Char × List Char × Bool) :=
  let i1 := if rd path 0 = '\\' then 1 else 0
  let i2 := if rd path i1 = '\\' then i1 + 1 else i1
  (fileSpecScanBuf stale i2 i2 (path.drop i2)).map fun filespec =>
    if filespec ≤ path.length then
      if rd path filespec ≠ NUL then
        (path.take filespec, path.drop (filespec + 1) ++ NUL :: stale, true)
      else (path, stale, false)
    else if rd stale (filespec - (path.length + 1)) ≠ NUL then
      (path, stale.set (filespec - (path.length + 1)) NUL, true)
    else (path, stale, false)

/-- The loop of `PathStripToRootW`, bounded by `fuel` iterations: the text left
in `path` and the returned flag. `stale` is the content of the buffer behind
the terminator of `path`, as far as it is known: the earlier iterations have
left it there. -/
def stripLoop : Nat → List Char → List Char → Option (List Char × Bool)
  | 0, path, _ => some (path, false)
  | fuel + 1, path, stale =>
    if PathIsRootW path then some (path, true)
    else
      match PathRemoveFileSpecBuf path stale with
      | none => none
      | some (path1, stale1, modified) =>
        if modified then stripLoop fuel path1 stale1 else some (path1, false)

/-- The function `PathStripToRootW(path)`. Nothing is known of the buffer behind
the terminator of `path` at the call. Every iteration that goes on stores a
terminator over another code unit of the text, so `length + 1` iterations
are enough. -/
def PathStripToRootW (path : List Char) : Option (List Char × Bool) :=
  stripLoop (path.length + 1) path []

/-- The function `PathCombineW(dst, dir, file)` for non-null `dir` and `file`.
The outer `none` is a run that reads outside a string; the inner `none` is the
`NULL` result, which leaves `dst` empty; otherwise the text left in `dst`. The
local array `tmp` is a list here, its bound is not enforced by the model. -/
def PathCombineW (dir file : List Char) : Option (Option (List Char)) :=
  if file = [] then
    (PathCanonicalizeW (lstrcpynW dir MAX_PATH)).map some
  else if dir = [] ∨ PathIsRelativeW file = false then
    if dir = [] ∨ rd file 0 ≠ '\\' ∨ PathIsUNCW file = true then
      (PathCanonicalizeW (lstrcpynW file MAX_PATH)).map some
    else
      match PathStripToRootW (lstrcpynW dir MAX_PATH) with
      | none => none
      | some (tmp, _) =>
        match PathAddBackslashW tmp with
        | none => some none
        | some tmp1 =>
          if MAX_PATH ≤ tmp1.length + (file.drop 1).length then some none
          else (PathCanonicalizeW (tmp1 ++ file.drop 1)).map some
  else
    match PathAddBackslashW (lstrcpynW dir MAX_PATH) with
    | none => some none
    | some tmp1 =>
      if MAX_PATH ≤ tmp1.length + file.length then some none
      else (PathCanonicalizeW (tmp1 ++ file)).map some

/-! ## Segments, names and the reading of paths as segment lists -/

/-- A segment name that the scan copies unchanged: not empty, without
separator or colon, not `.` and not starting with `..`. -/
def isName : List Char → Bool
  | [] => false
  | ['.'] => false
  | '.' :: '.' :: _ => false
  | n => n.all fun c => c != '\\' && c != ':'

/-- The text `\s1\s2...\sn`: every segment after a separator. -/
def dirText : List (List Char) → List Char
  | [] => []
  | s :: ss => '\\' :: s ++ dirText ss

/-- The text `s1\s2\...sn\`: every segment before a separator. -/
def segText : List (List Char) → List Char
  | [] => []
  | s :: ss => s ++ '\\' :: segText ss

/-- The root of an absolute path: a drive `X:\` or the single separator `\`. -/
inductive Root where
  | drive (X : Char)
  | sep
  deriving DecidableEq

/-- The text of a root before its separator: `X:` for a drive, nothing for the
root `\`. -/
def Root.text : Root → List Char
  | Root.drive X => [X, ':']
  | Root.sep => []

/-- A drive is named by a code unit that is neither a separator nor a colon. -/
def Root.valid : Root → Bool
  | Root.drive X => X != '\\' && X != ':'
  | Root.sep => true

/-- The absolute path `R\s1\...\sn\last`; `last` may be empty. -/
def rootedPath (R : Root) (segs : List (List Char)) (last : List Char) : List Char :=
  R.text ++ '\\' :: (segText segs ++ last)

/-- A segment of a path: `.`, `..` or a name. -/
def isSeg (s : List Char) : Bool :=
  decide (s = ['.']) || decide (s = ['.', '.']) || isName s

/-- The meaning of one segment for the directory stack: an empty segment and
`.` stay, `..` goes up one level (and stays at the root), a name goes down. -/
def step (stack : List (List Char)) (s : List Char) : List (List Char) :=
  if s = [] ∨ s = ['.'] then stack
  else if s = ['.', '.'] then stack.dropLast else stack ++ [s]

/-- The directory stack that a sequence of segments leads to. -/
def resolve (segs : List (List Char)) : List (List Char) :=
  segs.foldl step []

/-- The last segment `..` of a path rooted at `\` backs up to the root: the
case in which the scan steps over the terminator. -/
def escapes (R : Root) (segs : List (List Char)) (last : List Char) : Bool :=
  decide (R = Root.sep) && decide (last = ['.', '.']) && decide ((resolve segs).dropLast = [])

/-- The canonical text of `rootedPath R segs last`, computed on segments. -/
def rootedCanon (R : Root) (segs : List (List Char)) (last : List Char) : List Char :=
  if last = ['.', '.'] then
    (if (resolve segs).dropLast = [] then R.text ++ ['\\']
      else R.text ++ dirText (resolve segs).dropLast)
  else R.text ++ dirText (resolve segs) ++ '\\' :: last

/-- Spec wording of "a trailing separator ensured": one separator is
appended unless the path is empty or already ends with one. -/
def ensureSep (p : List Char) : List Char :=
  if p = [] ∨ p.getLast? = some '\\' then p else p ++ ['\\']

/-- The path tail `..\..\ ... \..` of `n + 1` segments `..`. -/
def dotDots : Nat → List Char
  | 0 => ['.', '.']
  | n + 1 => '.' :: '.' :: '\\' :: dotDots n

/-! ## The extension functions and the wildcard loops -/

/-- The function `PathAppendW(path, append)`: the text left in `path` and the
returned flag. `PathCombineW(path, path, append)` writes its result over
`path`, and leaves `path` empty when it fails. -/
def PathAppendW (path append : List Char) : Option (List Char × Bool) :=
  let append1 := if PathIsUNCW append = true then append else append.dropWhile (· == '\\')
  (PathCombineW path append1).map fun r =>
    match r with
    | some dst => (dst, true)
    | none => ([], false)

/-- The loop of `PathFindExtensionW`: `lastpoint` is an index or `none` for
`NULL`, `i` is the index of `path`. The result is the index returned. -/
def findExtScan : Option Nat → Nat → List Char → Nat
  | lastpoint, i, [] => lastpoint.getD i
  | lastpoint, i, c :: rest =>
    if c = '\\' ∨ c = ' ' then findExtScan none (i + 1) rest
    else if c = '.' then findExtScan (some i) (i + 1) rest
    else findExtScan lastpoint (i + 1) rest

/-- The function `PathFindExtensionW(path)`: the index of the code unit that
the returned pointer points to. -/
def PathFindExtensionW (path : List Char) : Nat :=
  findExtScan none 0 path

/-- The function `PathAddExtensionW(path, ext)`: the text left in `path` and the
returned flag. -/
def PathAddExtensionW (path ext : List Char) : List Char × Bool :=
  if rd path (PathFindExtensionW path) ≠ NUL then (path, false)
  else if MAX_PATH ≤ path.length + ext.length then (path, false)
  else (path ++ ext, true)

/-- Modelled from the spec: the type `FCRET` is declared in `fc.h`, which is not
among the sources; the spec names the four outcomes Identical, Different,
CannotFind and Invalid. -/
inductive FCRET where
  | FCRET_IDENTICAL
  | FCRET_DIFFERENT
  | FCRET_CANT_FIND
  | FCRET_INVALID
  deriving DecidableEq

open FCRET

/-- The macro `IS_DOTS`: the name is `.` or `..`. -/
def IS_DOTS : List Char → Bool
  | ['.'] => true
  | ['.', '.'] => true
  | _ => false

/-- The macro `HasWildcard`. -/
def HasWildcard (filename : List Char) : Bool :=
  decide ('*' ∈ filename) || decide ('?' ∈ filename)

/-- The macro `IsExtOnly`. -/
def IsExtOnly : List Char → Bool
  | '*' :: '.' :: rest => !HasWildcard rest
  | _ => false

/-- The `switch` that folds the outcome `r` of one `FileCompare` call into
`ret`. -/
def foldRet (ret r : FCRET) : FCRET :=
  match r with
  | FCRET_IDENTICAL => ret
  | FCRET_DIFFERENT => if ret ≠ FCRET_INVALID then FCRET_DIFFERENT else ret
  | _ => FCRET_INVALID

/-- The statements `PathRemoveFileSpecW(szPath); PathAppendW(szPath, name);` of
the wildcard loops: the text left in `szPath`. Both return values are
discarded by the loops. -/
def rebuildPath (szPath name : List Char) : Option (List Char) :=
  match PathRemoveFileSpecW szPath with
  | none => none
  | some (p1, _) => (PathAppendW p1 name).map Prod.fst

/-- One call `FileCompare(&fc)`: the directory entries held by the find data
at the call (`entry1` is empty in single-wildcard mode), the two paths passed
and the outcome returned. -/
structure Call where
  entry0 : List Char
  entry1 : List Char
  file0 : List Char
  file1 : List Char
  outcome : FCRET
  deriving DecidableEq

/-- The loop of `WildcardFileCompareOneSide` over the directory entries still to
come (the entry of the find data first). `lit` is the path of the other side,
`szPath` the path buffer, `k` the number of `FileCompare` calls made so far.
The directory and the files are parameters: a listing is the list of the names
that `FindFirstFileW` and `FindNextFileW` yield, `FindNextFileW` moves to the
next name and fails after the last, leaving the find data as they are; `cmp`
is the outcome of the call number `k` of `FileCompare` on two paths. -/
def oneSideLoop (cmp : Nat → List Char → List Char → FCRET) (bWildRight : Bool)
    (lit : List Char) : List Char → FCRET → Nat → List (List Char) → Option (FCRET × List Call)
  | _, ret, _, [] => some (ret, [])
  | szPath, ret, k, name :: rest =>
    if IS_DOTS name = true then oneSideLoop cmp bWildRight lit szPath ret k rest
    else
      match rebuildPath szPath name with
      | none => none
      | some p =>
        let file0 := if bWildRight = true then lit else p
        let file1 := if bWildRight = true then p else lit
        let r := cmp k file0 file1
        match oneSideLoop cmp bWildRight lit p (foldRet ret r) (k + 1) rest with
        | none => none
        | some (ret1, calls) => some (ret1, ⟨name, [], file0, file1, r⟩ :: calls)

/-- The function `WildcardFileCompareOneSide(pFC, bWildRight)` on the listing
`entries` of the pattern: the value returned and the `FileCompare` calls made.
An empty listing is a failed `FindFirstFileW`; `wcscpy` writes outside
`szPath` when the pattern does not fit. -/
def WildcardFileCompareOneSide (cmp : Nat → List Char → List Char → FCRET)
    (file0 file1 : List Char) (bWildRight : Bool) (entries : List (List Char)) :
    Option (FCRET × List Call) :=
  match entries with
  | [] => some (FCRET_CANT_FIND, [])
  | _ =>
    if MAX_PATH ≤ (if bWildRight = true then file1 else file0).length then none
    else
      oneSideLoop cmp bWildRight (if bWildRight = true then file0 else file1)
        (if bWildRight = true then file1 else file0) FCRET_IDENTICAL 0 entries

/-- The loops `while (IS_DOTS(find0.cFileName))` and
`while (IS_DOTS(find1.cFileName))` of `WildcardFileCompareBoth`, for the entry
`cur` of the find data, the entries to come and the flag of that side: the
entry of the find data, the entries to come and the flag after the loop, and
whether the loop left by `goto quit`. -/
def skipDots : List Char → List (List Char) → Bool → List Char × List (List Char) × Bool × Bool
  | cur, [], f => if IS_DOTS cur = true then (cur, [], false, true) else (cur, [], f, false)
  | cur, n :: r, f => if IS_DOTS cur = true then skipDots n r true else (cur, n :: r, f, false)

/-- The state of `WildcardFileCompareBoth` at the label `quit`. -/
structure BothEnd where
  ret : FCRET
  f0 : Bool
  f1 : Bool
  find0 : List Char
  find1 : List Char
  calls : List Call
  deriving DecidableEq

/-- The `do` loop of `WildcardFileCompareBoth`. `cur0`, `rest0` and `cur1`,
`rest1` are the entries of the two find data and the entries to come, `sz0`
and `sz1` the path buffers, `f0` and `f1` the flags as truth values (at `quit`
one of them is `FALSE`, so that `f0 != f1` compares truth values), `k` the
number of calls made so far. The fuel bounds the number of iterations: every
iteration takes an entry of the first listing, so that one more than the
length of `rest0` is enough. -/
def bothLoop (cmp : Nat → List Char → List Char → FCRET) :
    Nat → List Char → List (List Char) → List Char → List (List Char) → List Char → List Char →
      Bool → Bool → FCRET → Nat → Option BothEnd
  | 0, _, _, _, _, _, _, _, _, _, _ => none
  | fuel + 1, cur0, rest0, cur1, rest1, sz0, sz1, f0, f1, ret, k =>
    match skipDots cur0 rest0 f0 with
    | (c0, _, _, true) => some ⟨ret, false, f1, c0, cur1, []⟩
    | (c0, r0, f0a, false) =>
      match skipDots cur1 rest1 f1 with
      | (c1, _, _, true) => some ⟨ret, f0a, false, c0, c1, []⟩
      | (c1, r1, _, false) =>
        match rebuildPath sz0 c0, rebuildPath sz1 c1 with
        | some p0, some p1 =>
          match r0, r1 with
          | n0 :: r0a, n1 :: r1a =>
            (bothLoop cmp fuel n0 r0a n1 r1a p0 p1 true true (foldRet ret (cmp k p0 p1)) (k + 1)).map
              fun e => ⟨e.ret, e.f0, e.f1, e.find0, e.find1, ⟨c0, c1, p0, p1, cmp k p0 p1⟩ :: e.calls⟩
          | n0 :: _, [] =>
            some ⟨foldRet ret (cmp k p0 p1), true, false, n0, c1, [⟨c0, c1, p0, p1, cmp k p0 p1⟩]⟩
          | [], n1 :: _ =>
            some ⟨foldRet ret (cmp k p0 p1), false, true, c0, n1, [⟨c0, c1, p0, p1, cmp k p0 p1⟩]⟩
          | [], [] =>
            some ⟨foldRet ret (cmp k p0 p1), false, false, c0, c1, [⟨c0, c1, p0, p1, cmp k p0 p1⟩]⟩
        | _, _ => none

/-- The name printed after `quit`: the entry name cut at its extension, then
`PathAddExtensionW` with the extension of the other pattern. -/
def reportName (name pattern : List Char) : List Char :=
  (PathAddExtensionW (name.take (PathFindExtensionW name))
    (pattern.drop (PathFindExtensionW pattern))).1

/-- The function `WildcardFileCompareBoth(pFC)` on the listings of the two
patterns: the value returned, the `FileCompare` calls made and the name
reported as missing, if any. `g0` and `g1` are the truth values that the
locals `f0` and `f1` hold before their first assignment. An empty listing is
a failed `FindFirstFileW`; `wcscpy` writes outside `szPath0` or `szPath1` when
a pattern does not fit. -/
def WildcardFileCompareBoth (cmp : Nat → List Char → List Char → FCRET)
    (file0 file1 : List Char) (g0 g1 : Bool) (entries0 entries1 : List (List Char)) :
    Option (FCRET × List Call × Option (List Char)) :=
  match entries0, entries1 with
  | [], _ => some (FCRET_CANT_FIND, [], none)
  | _ :: _, [] => some (FCRET_CANT_FIND, [], none)
  | c0 :: r0, c1 :: r1 =>
    if MAX_PATH ≤ file0.length ∨ MAX_PATH ≤ file1.length then none
    else
    match bothLoop cmp (r0.length + 1) c0 r0 c1 r1 file0 file1 g0 g1 FCRET_IDENTICAL 0 with
    | none => none
    | some e =>
      if e.f0 ≠ e.f1 ∧ IsExtOnly file0 = true ∧ IsExtOnly file1 = true then
        some (FCRET_CANT_FIND, e.calls,
          some (if e.f0 = true then reportName e.find0 file1 else reportName e.find1 file0))
      else some (e.ret, e.calls, none)

/-! ## Plain paths and the expected course of the wildcard loops -/

/-- The starts of the plain paths: nothing (a relative path), the root `\`, the
UNC start of two separators, or a drive root `X:\`. -/
def isStart : List Char → Bool
  | [] => true
  | ['\\'] => true
  | ['\\', '\\'] => true
  | [X, ':', '\\'] => X != '\\' && X != ':'
  | _ => false

/-- The plain path that consists of a start, the directories `d1\...\dn\` and a
last segment. -/
def plainPath (start : List Char) (dirs : List (List Char)) (last : List Char) : List Char :=
  start ++ (segText dirs ++ last)

/-- The directory of a plain path: the start and `d1\...\dn`, without the
separator after `dn`. -/
def plainDir (start : List Char) (dirs : List (List Char)) : List Char :=
  start ++ (segText dirs).dropLast

/-- The last segment of a pattern: no separator, no colon and no terminator in
it. -/
def isTail (t : List Char) : Bool :=
  t.all fun c => c != '\\' && c != ':' && c != NUL

/-- The name of a directory entry: a segment name without terminator in it
that fits the array `cFileName` of `MAX_PATH` code units. -/
def isEntry (n : List Char) : Bool :=
  isName n && isTail n && decide (n.length < MAX_PATH)

/-- A plain pattern: a start, directories that are segment names and a last
segment, in a path that fits `szPath` with its terminator. -/
def isPattern (start : List Char) (dirs : List (List Char)) (last : List Char) : Bool :=
  isStart start && dirs.all isName && isTail last &&
    decide ((plainPath start dirs last).length < MAX_PATH)

/-- A listing: at least one entry, and every entry is `.`, `..` or the name of
a directory entry. -/
def isListing (entries : List (List Char)) : Bool :=
  !entries.isEmpty && entries.all fun n => IS_DOTS n || isEntry n

/-- The paths that the rebuild leaves in `szPath` for the successive entry
names, when `szPath` starts as a plain path in the directory `start d1\...\dn`:
the directory followed by the name, and the empty path when that does not
fit; after that the directory is lost. -/
def plainTrace (start : List Char) (dirs : List (List Char)) : List (List Char) → List (List Char)
  | [] => []
  | n :: rest =>
    if MAX_PATH ≤ (plainPath start dirs n).length then [] :: plainTrace [] [] rest
    else plainPath start dirs n :: plainTrace start dirs rest

/-- The calls of single-wildcard mode for the entry names and the paths built
for them, numbered from `k`. -/
def oneSideCalls (cmp : Nat → List Char → List Char → FCRET) (bWildRight : Bool)
    (lit : List Char) : Nat → List (List Char) → List (List Char) → List Call
  | k, n :: names, p :: paths =>
    ⟨n, [], if bWildRight = true then lit else p, if bWildRight = true then p else lit,
      cmp k (if bWildRight = true then lit else p) (if bWildRight = true then p else lit)⟩ ::
      oneSideCalls cmp bWildRight lit (k + 1) names paths
  | _, _, _ => []

/-- The calls of dual-wildcard mode for the paired entry names and the paths
built for them, numbered from `k`. -/
def bothCalls (cmp : Nat → List Char → List Char → FCRET) :
    Nat → List (List Char) → List (List Char) → List (List Char) → List (List Char) → List Call
  | k, n0 :: names0, n1 :: names1, p0 :: paths0, p1 :: paths1 =>
    ⟨n0, n1, p0, p1, cmp k p0 p1⟩ :: bothCalls cmp (k + 1) names0 names1 paths0 paths1
  | _, _, _, _, _ => []

/-- The outcome folded from `ret` over the outcomes of the calls. -/
def foldCalls (ret : FCRET) (calls : List Call) : FCRET :=
  (calls.map fun c => c.outcome).foldl foldRet ret

/-- The precedence of the outcomes of a run: `FCRET_INVALID` if some outcome
is neither `FCRET_IDENTICAL` nor `FCRET_DIFFERENT`, otherwise
`FCRET_DIFFERENT` if some outcome is `FCRET_DIFFERENT`, otherwise
`FCRET_IDENTICAL`. -/
def precedence (outcomes : List FCRET) : FCRET :=
  if (outcomes.any fun o => o != FCRET_IDENTICAL && o != FCRET_DIFFERENT) = true then FCRET_INVALID
  else if (outcomes.any fun o => o == FCRET_DIFFERENT) = true then FCRET_DIFFERENT
  else FCRET_IDENTICAL

/-- The entries of a listing that are not `.` or `..`. -/
def nonDots (entries : List (List Char)) : List (List Char) :=
  entries.filter fun n => !IS_DOTS n

/-! ## Unfolding the main loop -/

theorem canonLoop_nil (prev : Option Char) (out : List Char) :
    canonLoop prev [] out = some out := by
  simp [canonLoop]

theorem canonLoop_copy (prev : Option Char) (c : Char) (rest out : List Char) (hc : c ≠ '.') :
    canonLoop prev (c :: rest) out = canonLoop (some c) rest (out ++ [c]) := by
  rcases rest with _ | ⟨c1, _ | ⟨e, rest2⟩⟩ <;> simp [canonLoop, hc]

theorem canonLoop_sep (prev : Option Char) (rest out : List Char) :
    canonLoop prev ('\\' :: rest) out = canonLoop (some '\\') rest (out ++ ['\\']) :=
  canonLoop_copy prev '\\' rest out (by decide)

theorem canonLoop_dot_end (prev : Option Char) (out : List Char) :
    canonLoop prev ['.'] out = some (out ++ ['.']) := by
  simp [canonLoop]

theorem canonLoop_dot_sep (rest out : List Char) :
    canonLoop (some '\\') ('.' :: '\\' :: rest) out = canonLoop (some '\\') rest out := by
  rcases rest with _ | ⟨e, rest2⟩ <;> simp [canonLoop]

/-- A dot is copied when the code unit before it is neither a separator nor a
colon and the buffer does not end in a separator. -/
theorem canonLoop_dot_inner (p : Char) (rest out : List Char)
    (hp1 : p ≠ '\\') (hp2 : p ≠ ':') (hout : out.getLast? = some p) :
    canonLoop (some p) ('.' :: rest) out = canonLoop (some '.') rest (out ++ ['.']) := by
  cases rest with
  | nil => simp [canonLoop]
  | cons c1 rest1 =>
    rcases rest1 with _ | ⟨e, rest2⟩ <;> simp [canonLoop, hp1, hp2, hout]

/-- A dot is copied when the next code unit is neither a separator nor a dot. -/
theorem canonLoop_dot_head (prev : Option Char) (c1 : Char) (rest out : List Char)
    (h1 : c1 ≠ '\\') (h2 : c1 ≠ '.') :
    canonLoop prev ('.' :: c1 :: rest) out = canonLoop (some '.') (c1 :: rest) (out ++ ['.']) := by
  rcases rest with _ | ⟨e, rest2⟩ <;> simp [canonLoop, h1, h2]

/-- The `..` branch when the buffer ends in a separator. -/
theorem canonLoop_dotdot (prev : Option Char) (rest out : List Char) (d : Nat)
    (hout : out.getLast? = some '\\') (hb : backtrack out = some d) (hd : d ≠ 0) :
    canonLoop prev ('.' :: '.' :: rest) out = canonLoop (some '.') rest (out.take d) := by
  have hne : out ≠ [] := by
    intro h
    simp [h] at hout
  rcases rest with _ | ⟨e, rest2⟩ <;> simp [canonLoop, hout, hne, hb, hd]

/-- A run of code units without separator or colon is copied, once the code
unit before it is neither and is the last one in the buffer. -/
theorem canonLoop_run (m : List Char) :
    ∀ (p : Char) (rest out : List Char), p ≠ '\\' → p ≠ ':' → out.getLast? = some p →
      (∀ c ∈ m, c ≠ '\\' ∧ c ≠ ':') →
      canonLoop (some p) (m ++ rest) out = canonLoop (some ((p :: m).getLast (by simp))) rest (out ++ m) := by
  induction m with
  | nil => intro p rest out _ _ _ _; simp
  | cons c m ih =>
    intro p rest out hp1 hp2 hout hm
    have hc := hm c (by simp)
    have hm2 : ∀ x ∈ m, x ≠ '\\' ∧ x ≠ ':' := fun x hx => hm x (by simp [hx])
    have hlast : (out ++ [c]).getLast? = some c := by simp
    by_cases hdot : c = '.'
    · subst hdot
      rw [List.cons_append, canonLoop_dot_inner p _ out hp1 hp2 hout,
        ih '.' rest (out ++ ['.']) hc.1 hc.2 hlast hm2]
      simp [List.getLast_cons]
    · rw [List.cons_append, canonLoop_copy _ c _ out hdot,
        ih c rest (out ++ [c]) hc.1 hc.2 hlast hm2]
      simp [List.getLast_cons]

/-! ## Segment names -/

theorem isName_ne_nil {n : List Char} (h : isName n = true) : n ≠ [] := by
  intro hn
  subst hn
  simp [isName] at h

theorem isName_chars {n : List Char} (h : isName n = true) :
    ∀ c ∈ n, c ≠ '\\' ∧ c ≠ ':' := by
  have key : (n.all fun c => c != '\\' && c != ':') = true := by
    unfold isName at h
    split at h
    · simp at h
    · simp at h
    · simp at h
    · exact h
  intro c hc
  have := List.all_eq_true.mp key c hc
  simpa using this

theorem isName_head {c : Char} {m : List Char} (h : isName (c :: m) = true) :
    c ≠ '.' ∨ ∃ c1 m1, m = c1 :: m1 ∧ c1 ≠ '\\' ∧ c1 ≠ '.' := by
  by_cases hc : c = '.'
  · right
    subst hc
    rcases m with _ | ⟨c1, m1⟩
    · simp [isName] at h
    · refine ⟨c1, m1, rfl, ?_, ?_⟩
      · exact (isName_chars h c1 (by simp)).1
      · intro h1
        subst h1
        simp [isName] at h
  · exact Or.inl hc

/-- The scan copies a segment name, whatever stands before and after it. -/
theorem canonLoop_name (n : List Char) (hn : isName n = true) (prev : Option Char)
    (rest out : List Char) :
    ∃ p, canonLoop prev (n ++ rest) out = canonLoop (some p) rest (out ++ n) := by
  have hch := isName_chars hn
  rcases n with _ | ⟨c, m⟩
  · simp [isName] at hn
  · have hc := hch c (by simp)
    have hm : ∀ x ∈ m, x ≠ '\\' ∧ x ≠ ':' := fun x hx => hch x (by simp [hx])
    have hlast : (out ++ [c]).getLast? = some c := by simp
    have hrun := canonLoop_run m c rest (out ++ [c]) hc.1 hc.2 hlast hm
    refine ⟨(c :: m).getLast (by simp), ?_⟩
    rcases isName_head hn with hdot | ⟨c1, m1, hm1, h1, h2⟩
    · rw [List.cons_append, canonLoop_copy prev c _ out hdot, hrun]
      simp
    · by_cases hdot : c = '.'
      · subst hdot
        subst hm1
        rw [List.cons_append, List.cons_append, canonLoop_dot_head prev c1 _ out h1 h2,
          ← List.cons_append, hrun]
        simp
      · rw [List.cons_append, canonLoop_copy prev c _ out hdot, hrun]
        simp

theorem canonLoop_name_sep (n : List Char) (hn : isName n = true) (prev : Option Char)
    (rest out : List Char) :
    canonLoop prev (n ++ '\\' :: rest) out = canonLoop (some '\\') rest (out ++ n ++ ['\\']) := by
  obtain ⟨p, hp⟩ := canonLoop_name n hn prev ('\\' :: rest) out
  rw [hp, canonLoop_sep]

theorem canonLoop_name_end (n : List Char) (hn : isName n = true) (prev : Option Char)
    (out : List Char) :
    canonLoop prev n out = some (out ++ n) := by
  obtain ⟨p, hp⟩ := canonLoop_name n hn prev [] out
  rw [List.append_nil] at hp
  rw [hp, canonLoop_nil]

/-! ## Reading the buffer and scanning it backwards -/

theorem rd_append_right (a b : List Char) (j : Nat) :
    rd (a ++ b) (a.length + j) = rd b j := by
  unfold rd
  simp [List.getD_eq_getElem?_getD, List.getElem?_append_right]

theorem rd_append_left (a b : List Char) (j : Nat) (h : j < a.length) :
    rd (a ++ b) j = rd a j := by
  unfold rd
  simp [List.getD_eq_getElem?_getD, List.getElem?_append_left h]

theorem rd_mem (a : List Char) (j : Nat) (h : j < a.length) : rd a j ∈ a := by
  unfold rd
  rw [List.getD_eq_getElem _ _ h]
  exact List.getElem_mem h

/-- The backward scan stops at the first separator it meets. -/
theorem scanBack_eq (buf : List Char) (i : Nat) (hi : i = 0 ∨ rd buf i = '\\') :
    ∀ k, (∀ j, 1 ≤ j → j ≤ k → rd buf (i + j) ≠ '\\') → scanBack buf (i + k) = i := by
  intro k
  induction k with
  | zero =>
    intro _
    rcases hi with h0 | hsep
    · subst h0
      simp [scanBack]
    · cases i with
      | zero => simp [scanBack]
      | succ i => simp [scanBack, hsep]
  | succ k ih =>
    intro h
    have hk : rd buf (i + (k + 1)) ≠ '\\' := h (k + 1) (by omega) (le_refl _)
    have : i + (k + 1) = (i + k) + 1 := by omega
    rw [this, scanBack]
    rw [this] at hk
    simp only [hk, ne_eq, not_false_eq_true, if_true]
    exact ih fun j h1 h2 => h j h1 (by omega)

/-- The backward scan over `a ++ \ ++ n`, started on the last code unit of `n`,
stops on the separator before `n`. -/
theorem scanBack_name (a n t : List Char) (hn : ∀ c ∈ n, c ≠ '\\') :
    scanBack (a ++ '\\' :: n ++ t) (a.length + n.length) = a.length := by
  apply scanBack_eq
  · right
    have := rd_append_right a ('\\' :: n ++ t) 0
    simpa [rd] using this
  · intro j h1 h2
    have e1 : a ++ '\\' :: n ++ t = a ++ ('\\' :: (n ++ t)) := by simp
    rw [e1, rd_append_right]
    obtain ⟨j, rfl⟩ : ∃ j0, j = j0 + 1 := ⟨j - 1, by omega⟩
    have e2 : rd ('\\' :: (n ++ t)) (j + 1) = rd (n ++ t) j := by simp [rd]
    rw [e2, rd_append_left n t j (by omega)]
    exact hn _ (rd_mem n j (by omega))

/-! ## The `..` branch on the buffer -/

/-- Backing up over a name: with the buffer `a ++ \ ++ n ++ \`, not seen as a
UNC server and share, `dst` moves to the separator before `n`. -/
theorem backtrack_name (a n : List Char) (hne : n ≠ [])
    (hn : ∀ c ∈ n, c ≠ '\\' ∧ c ≠ ':')
    (hunc : PathIsUNCServerShareW (a ++ '\\' :: n ++ ['\\']) = false) :
    backtrack (a ++ '\\' :: n ++ ['\\']) = some a.length := by
  have hlen : (a ++ '\\' :: n ++ ['\\']).length = a.length + n.length + 2 := by
    simp; omega
  have hpos : 0 < n.length := List.length_pos.mpr hne
  have e1 : a ++ '\\' :: n ++ ['\\'] = a ++ ('\\' :: (n ++ ['\\'])) := by simp
  have hlast1 : rd (a ++ '\\' :: n ++ ['\\']) (a.length + n.length + 2 - 1) = '\\' := by
    have : a.length + n.length + 2 - 1 = (a ++ '\\' :: n).length + 0 := by simp; omega
    rw [this, rd_append_right]
    simp [rd]
  have hlast2 : rd (a ++ '\\' :: n ++ ['\\']) (a.length + n.length + 2 - 2) ∈ n := by
    have : a.length + n.length + 2 - 2 = a.length + ((n.length - 1) + 1) := by omega
    rw [this, e1, rd_append_right]
    have e2 : rd ('\\' :: (n ++ ['\\'])) (n.length - 1 + 1) = rd (n ++ ['\\']) (n.length - 1) := by
      simp [rd]
    rw [e2, rd_append_left n _ _ (by omega)]
    exact rd_mem n _ (by omega)
  have h2 := hn _ hlast2
  have hg : backGuard (a ++ '\\' :: n ++ ['\\']) = some (a.length + n.length) := by
    unfold backGuard
    simp only [hlen]
    rw [if_pos ⟨by omega, hlast1, Or.inl h2.1⟩, if_neg h2.2, if_pos hunc]
    simp
  unfold backtrack
  rw [hg]
  simp only [Option.map_some']
  rw [scanBack_name a n ['\\'] (fun c hc => (hn c hc).1)]

/-- When the guard leaves `dst` in place, the scan stops on the separator that
ends the buffer. -/
theorem backtrack_stay (a : List Char) (hg : backGuard (a ++ ['\\']) = some (a ++ ['\\']).length) :
    backtrack (a ++ ['\\']) = some a.length := by
  unfold backtrack
  rw [hg]
  simp only [Option.map_some', List.length_append, List.length_singleton]
  have h1 : rd (a ++ ['\\']) (a.length + 1) ≠ '\\' := by
    rw [rd_append_right]
    simp [rd, NUL]
  have h2 : rd (a ++ ['\\']) a.length = '\\' := by
    simp [rd]
  rw [scanBack]
  simp only [h1, ne_eq, not_false_eq_true, if_true]
  cases hA : a.length with
  | zero => simp [scanBack]
  | succ k =>
    rw [hA] at h2
    simp [scanBack, h2]

/-- At a drive root the guard leaves `dst` in place. -/
theorem backGuard_drive (X : Char) (hX : X ≠ ':') :
    backGuard [X, ':', '\\'] = some 3 := by
  simp [backGuard, rd, hX]

theorem backtrack_drive (X : Char) (hX : X ≠ ':') : backtrack [X, ':', '\\'] = some 2 :=
  backtrack_stay [X, ':'] (backGuard_drive X hX)

/-! ## Absolute paths, segment by segment -/

theorem getLast?_snoc (a : List Char) (c : Char) : (a ++ [c]).getLast? = some c := by
  simp

theorem dirText_append (a b : List (List Char)) : dirText (a ++ b) = dirText a ++ dirText b := by
  induction a with
  | nil => rfl
  | cons s ss ih => simp [dirText, ih]

theorem dirText_sep (st : List (List Char)) (t : List Char) :
    dirText st ++ '\\' :: t = '\\' :: segText st ++ t := by
  induction st with
  | nil => rfl
  | cons s ss ih =>
    simp only [dirText, segText, List.cons_append, List.append_assoc]
    rw [ih]
    simp

theorem segText_append (a b : List (List Char)) : segText (a ++ b) = segText a ++ segText b := by
  induction a with
  | nil => rfl
  | cons s ss ih => simp [segText, ih]

theorem isName_not_dot {n : List Char} (h : isName n = true) : n ≠ ['.'] := by
  intro hn; subst hn; simp [isName] at h

theorem isName_not_dotdot {n : List Char} (h : isName n = true) : n ≠ ['.', '.'] := by
  intro hn; subst hn; simp [isName] at h

theorem isName_no_sep {n : List Char} (h : isName n = true) : ∀ c ∈ n, c ≠ '\\' :=
  fun c hc => (isName_chars h c hc).1

theorem isName_isSeg {n : List Char} (h : isName n = true) : isSeg n = true := by
  simp [isSeg, h]

theorem isSeg_cases {s : List Char} (h : isSeg s = true) :
    s = ['.'] ∨ s = ['.', '.'] ∨ isName s = true := by
  simpa [isSeg, or_assoc] using h

theorem step_name (stack : List (List Char)) {n : List Char} (h : isName n = true) :
    step stack n = stack ++ [n] := by
  simp [step, isName_not_dot h, isName_not_dotdot h, isName_ne_nil h]

theorem step_names (stack : List (List Char)) (s : List Char)
    (hst : ∀ n ∈ stack, isName n = true) (hs : isSeg s = true) :
    ∀ n ∈ step stack s, isName n = true := by
  rcases isSeg_cases hs with h | h | h
  · subst h
    simpa [step] using hst
  · subst h
    intro n hn
    have : n ∈ stack.dropLast := by simpa [step] using hn
    exact hst n (List.mem_of_mem_dropLast this)
  · rw [step_name stack h]
    intro n hn
    rcases List.mem_append.mp hn with h1 | h1
    · exact hst n h1
    · have hn' : n = s := by simpa using h1
      rw [hn']
      exact h

theorem foldl_step_names (segs : List (List Char)) :
    ∀ stack, (∀ n ∈ stack, isName n = true) → (∀ s ∈ segs, isSeg s = true) →
      ∀ n ∈ segs.foldl step stack, isName n = true := by
  induction segs with
  | nil => intro stack hst _; simpa using hst
  | cons s ss ih =>
    intro stack hst hs
    rw [List.foldl_cons]
    exact ih _ (step_names stack s hst (hs s (by simp))) fun x hx => hs x (by simp [hx])

theorem foldl_step_of_names (ns : List (List Char)) :
    ∀ stack, (∀ n ∈ ns, isName n = true) → ns.foldl step stack = stack ++ ns := by
  induction ns with
  | nil => intro stack _; simp
  | cons s ss ih =>
    intro stack hs
    rw [List.foldl_cons, step_name stack (hs s (by simp)), ih _ fun x hx => hs x (by simp [hx])]
    simp

theorem resolve_snoc (segs : List (List Char)) (last : List Char) :
    resolve (segs ++ [last]) = step (resolve segs) last := by
  simp [resolve, List.foldl_append]

theorem resolve_of_names (ns : List (List Char)) (h : ∀ n ∈ ns, isName n = true) :
    resolve ns = ns := by
  simpa [resolve] using foldl_step_of_names ns [] h

theorem resolve_names (segs : List (List Char)) (hs : ∀ s ∈ segs, isSeg s = true) :
    ∀ n ∈ resolve segs, isName n = true :=
  foldl_step_names segs [] (by simp) hs

theorem Root.valid_drive {X : Char} (h : (Root.drive X).valid = true) : X ≠ '\\' ∧ X ≠ ':' := by
  simpa [Root.valid] using h

/-- A text that starts with one separator only is not a UNC server and share. -/
theorem not_unc_single (c : Char) (t : List Char) (hc : c ≠ '\\') :
    PathIsUNCServerShareW ('\\' :: c :: t) = false := by
  unfold PathIsUNCServerShareW
  split
  · rename_i h
    injection h with _ h2
    injection h2 with h3 _
    exact absurd h3 hc
  · rfl

theorem not_unc_drive (X : Char) (t : List Char) : PathIsUNCServerShareW (X :: ':' :: t) = false := by
  unfold PathIsUNCServerShareW
  split
  · rename_i h
    injection h with _ h2
    injection h2 with h3 _
    exact absurd h3 (by decide)
  · rfl

/-- The buffer of an absolute path at a directory is never seen as a UNC server
and share. -/
theorem not_unc_rooted (R : Root) (st : List (List Char)) (n t : List Char)
    (hst : ∀ x ∈ st, isName x = true) (hn : isName n = true) :
    PathIsUNCServerShareW ((R.text ++ dirText st) ++ '\\' :: n ++ t) = false := by
  cases R with
  | drive X => exact not_unc_drive X _
  | sep =>
    rcases st with _ | ⟨s, ss⟩
    · rcases n with _ | ⟨c, m⟩
      · exact absurd rfl (isName_ne_nil hn)
      · exact not_unc_single c _ (isName_no_sep hn c (by simp))
    · have hs : isName s = true := hst s (by simp)
      rcases s with _ | ⟨c, m⟩
      · exact absurd rfl (isName_ne_nil hs)
      · exact not_unc_single c _ (isName_no_sep hs c (by simp))

theorem backtrack_root : backtrack ['\\'] = some 0 := by decide

/-- The `..` branch when `dst` comes back to `buffer`: the root separator is
written and three code units are skipped. -/
theorem canonLoop_dotdot_reroot (prev : Option Char) (e : Char) (rest2 out : List Char)
    (hout : out.getLast? = some '\\') (hb : backtrack out = some 0) :
    canonLoop prev ('.' :: '.' :: e :: rest2) out = canonLoop (some e) rest2 ['\\'] := by
  have hne : out ≠ [] := by
    intro h
    simp [h] at hout
  simp [canonLoop, hout, hne, hb]

/-- The `..` branch when `dst` comes back to `buffer` and `..` ends the path:
the third code unit skipped is the terminator. -/
theorem canonLoop_dotdot_reroot_end (prev : Option Char) (out : List Char)
    (hout : out.getLast? = some '\\') (hb : backtrack out = some 0) :
    canonLoop prev ['.', '.'] out = none := by
  have hne : out ≠ [] := by
    intro h
    simp [h] at hout
  simp [canonLoop, hout, hne, hb]

theorem rootBuf_snoc (R : Root) (st : List (List Char)) (n : List Char) :
    R.text ++ dirText (st ++ [n]) ++ ['\\'] = (R.text ++ dirText st) ++ '\\' :: n ++ ['\\'] := by
  simp [dirText_append, dirText]

/-- The buffer after `..` at a directory: `dst` backs up to the separator before
the last name, or stays at the root when there is none. -/
theorem backtrack_rooted (R : Root) (hR : R.valid = true) (stack : List (List Char))
    (hst : ∀ n ∈ stack, isName n = true) :
    backtrack (R.text ++ dirText stack ++ ['\\']) =
      some (R.text ++ dirText stack.dropLast).length ∧
    (R.text ++ dirText stack ++ ['\\']).take (R.text ++ dirText stack.dropLast).length =
      R.text ++ dirText stack.dropLast := by
  rcases List.eq_nil_or_concat stack with h | ⟨st, n, h⟩
  · subst h
    cases R with
    | drive X => exact ⟨backtrack_drive X (Root.valid_drive hR).2, rfl⟩
    | sep => exact ⟨backtrack_root, rfl⟩
  · rw [List.concat_eq_append] at h
    subst h
    have hn : isName n = true := hst n (by simp)
    have hstn : ∀ x ∈ st, isName x = true := fun x hx => hst x (by simp [hx])
    have hb := backtrack_name (R.text ++ dirText st) n (isName_ne_nil hn) (isName_chars hn)
      (not_unc_rooted R st n ['\\'] hstn hn)
    rw [rootBuf_snoc, List.dropLast_concat]
    refine ⟨hb, ?_⟩
    rw [List.append_assoc, List.take_left]

/-- A `..` segment between separators, at a directory of an absolute path. -/
theorem canonLoop_up (R : Root) (hR : R.valid = true) (stack : List (List Char))
    (hst : ∀ n ∈ stack, isName n = true) (prev : Option Char) (rest : List Char) :
    canonLoop prev ('.' :: '.' :: '\\' :: rest) (R.text ++ dirText stack ++ ['\\']) =
      canonLoop (some '\\') rest (R.text ++ dirText stack.dropLast ++ ['\\']) := by
  obtain ⟨hb, htake⟩ := backtrack_rooted R hR stack hst
  by_cases hd : (R.text ++ dirText stack.dropLast).length = 0
  · rw [hd] at hb
    have hnil : R.text ++ dirText stack.dropLast = [] := List.length_eq_zero.mp hd
    rw [canonLoop_dotdot_reroot prev '\\' rest _ (getLast?_snoc _ _) hb, hnil]
    rfl
  · rw [canonLoop_dotdot prev ('\\' :: rest) _ _ (getLast?_snoc _ _) hb hd, htake,
      canonLoop_sep]

/-- The scan over the segments `s1\...\sn\` of an absolute path follows the
directory stack. -/
theorem canonLoop_segs (R : Root) (hR : R.valid = true) (segs : List (List Char)) :
    ∀ (stack : List (List Char)) (tail : List Char),
      (∀ n ∈ stack, isName n = true) → (∀ s ∈ segs, isSeg s = true) →
      canonLoop (some '\\') (segText segs ++ tail) (R.text ++ dirText stack ++ ['\\']) =
        canonLoop (some '\\') tail (R.text ++ dirText (segs.foldl step stack) ++ ['\\']) := by
  induction segs with
  | nil => intro stack tail _ _; rfl
  | cons s ss ih =>
    intro stack tail hst hs
    have hs1 := hs s (by simp)
    have hss : ∀ x ∈ ss, isSeg x = true := fun x hx => hs x (by simp [hx])
    have hst' := step_names stack s hst hs1
    have e : segText (s :: ss) ++ tail = s ++ '\\' :: (segText ss ++ tail) := by
      simp [segText]
    rw [List.foldl_cons, ← ih (step stack s) tail hst' hss, e]
    rcases isSeg_cases hs1 with h | h | h
    · subst h
      refine (canonLoop_dot_sep _ _).trans ?_
      simp [step]
    · subst h
      refine (canonLoop_up R hR stack hst _ _).trans ?_
      simp [step]
    · refine (canonLoop_name_sep s h _ _ _).trans ?_
      rw [step_name stack h]
      simp [dirText_append, dirText]

/-- The last segment of an absolute path. -/
theorem canonLoop_last (R : Root) (hR : R.valid = true) (stack : List (List Char))
    (hst : ∀ n ∈ stack, isName n = true) (last : List Char)
    (hl : last = [] ∨ isSeg last = true) :
    canonLoop (some '\\') last (R.text ++ dirText stack ++ ['\\']) =
      if last = ['.', '.'] then
        (if R.text ++ dirText stack.dropLast = [] then none
          else some (R.text ++ dirText stack.dropLast))
      else some (R.text ++ dirText stack ++ '\\' :: last) := by
  rcases hl with h | h
  · subst h
    simp [canonLoop_nil]
  · rcases isSeg_cases h with h | h | h
    · subst h
      rw [canonLoop_dot_end]
      simp
    · subst h
      obtain ⟨hb, htake⟩ := backtrack_rooted R hR stack hst
      rw [if_pos rfl]
      by_cases hd : (R.text ++ dirText stack.dropLast).length = 0
      · rw [hd] at hb
        have hnil : R.text ++ dirText stack.dropLast = [] := List.length_eq_zero.mp hd
        rw [canonLoop_dotdot_reroot_end _ _ (getLast?_snoc _ _) hb, if_pos hnil]
      · have hne : R.text ++ dirText stack.dropLast ≠ [] := fun h0 => hd (by rw [h0]; rfl)
        rw [canonLoop_dotdot _ [] _ _ (getLast?_snoc _ _) hb hd, htake, canonLoop_nil,
          if_neg hne]
    · rw [canonLoop_name_end last h, if_neg (isName_not_dotdot h)]
      simp

theorem canon_drive_root (X : Char) (hX : X ≠ '\\') (t : List Char) :
    PathCanonicalizeW (X :: ':' :: '\\' :: t) =
      (canonLoop (some '\\') t [X, ':', '\\']).map nakedDrive := by
  simp [PathCanonicalizeW, hX]

theorem canon_sep_root (t : List Char) :
    PathCanonicalizeW ('\\' :: t) = (canonLoop (some '\\') t ['\\']).map nakedDrive := by
  simp [PathCanonicalizeW]

/-- The root of an absolute path is copied before the main loop. -/
theorem canon_root (R : Root) (hR : R.valid = true) (t : List Char) :
    PathCanonicalizeW (R.text ++ '\\' :: t) =
      (canonLoop (some '\\') t (R.text ++ ['\\'])).map nakedDrive := by
  cases R with
  | drive X => exact canon_drive_root X (Root.valid_drive hR).1 t
  | sep => exact canon_sep_root t

theorem nakedDrive_of_length (o : List Char) (h : o.length ≠ 2) : nakedDrive o = o := by
  simp [nakedDrive, h]

theorem nakedDrive_of_last (o : List Char) (h : o.getLast? ≠ some ':') : nakedDrive o = o := by
  simp [nakedDrive, h]

/-- A text that ends with a separator, a `.` segment or a name does not end
with a colon. -/
theorem last_not_colon (a x : List Char) (hx : x = [] ∨ x = ['.'] ∨ isName x = true) :
    (a ++ '\\' :: x).getLast? ≠ some ':' := by
  rcases hx with h | h | h
  · subst h
    rw [getLast?_snoc]
    decide
  · subst h
    have : a ++ ['\\', '.'] = (a ++ ['\\']) ++ ['.'] := by simp
    rw [this, getLast?_snoc]
    decide
  · have e : a ++ '\\' :: x = (a ++ ['\\']) ++ x := by simp
    rw [e, List.getLast?_append_of_ne_nil _ (isName_ne_nil h)]
    intro hc
    exact (isName_chars h _ (List.mem_of_getLast?_eq_some hc)).2 rfl

theorem dirText_eq_nil {st : List (List Char)} (h : dirText st = []) : st = [] := by
  cases st with
  | nil => rfl
  | cons s ss => simp [dirText] at h

theorem rootBuf_eq_nil (R : Root) (st : List (List Char)) :
    R.text ++ dirText st = [] ↔ R = Root.sep ∧ st = [] := by
  constructor
  · intro h
    obtain ⟨h1, h2⟩ := List.append_eq_nil.mp h
    refine ⟨?_, dirText_eq_nil h2⟩
    cases R with
    | drive X => simp [Root.text] at h1
    | sep => rfl
  · rintro ⟨h1, h2⟩
    subst h1
    subst h2
    rfl

theorem escapes_iff (R : Root) (segs : List (List Char)) (last : List Char) :
    escapes R segs last = true ↔
      last = ['.', '.'] ∧ R.text ++ dirText (resolve segs).dropLast = [] := by
  rw [rootBuf_eq_nil]
  simp only [escapes, Bool.and_eq_true, decide_eq_true_eq]
  tauto

/-- The function `PathCanonicalizeW` on an absolute path whose segments are `.`,
`..` or names: the result computed on segments, and no result when a last `..`
backs up to the root `\`. -/
theorem canon_rooted (R : Root) (hR : R.valid = true) (segs : List (List Char))
    (last : List Char) (hs : ∀ s ∈ segs, isSeg s = true) (hl : last = [] ∨ isSeg last = true) :
    PathCanonicalizeW (rootedPath R segs last) =
      if escapes R segs last = true then none else some (rootedCanon R segs last) := by
  have hst := resolve_names segs hs
  have h0 : canonLoop (some '\\') (segText segs ++ last) (R.text ++ ['\\']) =
      canonLoop (some '\\') last (R.text ++ dirText (resolve segs) ++ ['\\']) := by
    have := canonLoop_segs R hR segs [] last (by simp) hs
    simp only [dirText, List.append_nil] at this
    exact this
  have h1 := canonLoop_last R hR (resolve segs) hst last hl
  unfold rootedPath
  rw [canon_root R hR, h0, h1]
  have hl1 : last = [] ∨ last = ['.'] ∨ last = ['.', '.'] ∨ isName last = true := by
    rcases hl with h | h
    · exact Or.inl h
    · exact Or.inr (isSeg_cases h)
  by_cases hdd : last = ['.', '.']
  · rw [if_pos hdd]
    by_cases hnil : R.text ++ dirText (resolve segs).dropLast = []
    · rw [if_pos hnil, if_pos ((escapes_iff R segs last).mpr ⟨hdd, hnil⟩)]
      rfl
    · have hesc : ¬ escapes R segs last = true := fun h => hnil ((escapes_iff R segs last).mp h).2
      rw [if_neg hnil, if_neg hesc, Option.map_some']
      unfold rootedCanon
      rw [if_pos hdd]
      rcases List.eq_nil_or_concat (resolve segs).dropLast with hd | ⟨st, n, hd⟩
      · rw [hd, if_pos rfl]
        rw [hd] at hnil
        cases R with
        | drive X => simp [nakedDrive, Root.text, dirText]
        | sep => exact absurd rfl hnil
      · rw [List.concat_eq_append] at hd
        have hn : isName n = true := by
          apply hst n
          apply List.mem_of_mem_dropLast
          rw [hd]
          simp
        rw [hd, if_neg (by simp)]
        apply congrArg some
        apply nakedDrive_of_last
        have e : R.text ++ dirText (st ++ [n]) = (R.text ++ dirText st) ++ '\\' :: n := by
          simp [dirText_append, dirText]
        rw [e]
        exact last_not_colon _ n (Or.inr (Or.inr hn))
  · have hesc : ¬ escapes R segs last = true := fun h => hdd ((escapes_iff R segs last).mp h).1
    rw [if_neg hdd, if_neg hesc, Option.map_some']
    unfold rootedCanon
    rw [if_neg hdd]
    apply congrArg some
    apply nakedDrive_of_last
    apply last_not_colon
    rcases hl1 with h | h | h | h
    · exact Or.inl h
    · exact Or.inr (Or.inl h)
    · exact absurd h hdd
    · exact Or.inr (Or.inr h)

theorem rootedPath_eq (R : Root) (st : List (List Char)) (last : List Char) :
    R.text ++ dirText st ++ '\\' :: last = rootedPath R st last := by
  unfold rootedPath
  rw [List.append_assoc, dirText_sep]
  simp

/-- The canonical text of an absolute path is again an absolute path on the
same root: its segments before the last are the names of a directory stack, and
its last segment is empty, `.` or a name. -/
theorem rootedCanon_shape (R : Root) (segs : List (List Char)) (last : List Char)
    (hs : ∀ s ∈ segs, isSeg s = true) (hl : last = [] ∨ isSeg last = true) :
    ∃ names last1, rootedCanon R segs last = rootedPath R names last1 ∧
      (∀ n ∈ names, isName n = true) ∧
      (last1 = [] ∨ last1 = ['.'] ∨ isName last1 = true) ∧
      (last1 = ['.'] ↔ last = ['.']) ∧
      (last1 = [] ↔ last = [] ∨ (last = ['.', '.'] ∧ (resolve segs).dropLast = [])) ∧
      resolve (names ++ [last1]) = resolve (segs ++ [last]) := by
  have hst : ∀ n ∈ resolve segs, isName n = true := resolve_names segs hs
  by_cases hdd : last = ['.', '.']
  · subst hdd
    rcases List.eq_nil_or_concat (resolve segs).dropLast with h | ⟨st, n, h⟩
    · refine ⟨[], [], ?_, by simp, Or.inl rfl, by simp, by simp [h], ?_⟩
      · simp [rootedCanon, h, rootedPath, segText]
      · have h0 : resolve ([] : List (List Char)) = [] := rfl
        rw [resolve_snoc, resolve_snoc]
        simp [step, h, h0]
    · rw [List.concat_eq_append] at h
      have hmem : ∀ x ∈ st ++ [n], isName x = true := by
        intro x hx
        rw [← h] at hx
        exact hst x (List.mem_of_mem_dropLast hx)
      have hn : isName n = true := hmem n (by simp)
      have hstn : ∀ x ∈ st, isName x = true := fun x hx => hmem x (by simp [hx])
      refine ⟨st, n, ?_, hstn, Or.inr (Or.inr hn), ?_, ?_, ?_⟩
      · have hne : (resolve segs).dropLast ≠ [] := by rw [h]; simp
        simp only [rootedCanon, if_true, if_neg hne, h, dirText_append, dirText]
        rw [← rootedPath_eq]
        simp
      · simp [isName_not_dot hn]
      · simp [isName_ne_nil hn, h]
      · rw [resolve_snoc, resolve_snoc, resolve_of_names st hstn, step_name st hn]
        simp [step, h]
  · have hl1 : last = [] ∨ last = ['.'] ∨ isName last = true := by
      rcases hl with h | h
      · exact Or.inl h
      · rcases isSeg_cases h with h | h | h
        · exact Or.inr (Or.inl h)
        · exact absurd h hdd
        · exact Or.inr (Or.inr h)
    refine ⟨resolve segs, last, ?_, hst, hl1, Iff.rfl, by simp [hdd], ?_⟩
    · simp only [rootedCanon, if_neg hdd]
      exact rootedPath_eq R _ _
    · rw [resolve_snoc, resolve_snoc, resolve_of_names _ hst]

theorem last_not_dotdot {last1 : List Char}
    (hl : last1 = [] ∨ last1 = ['.'] ∨ isName last1 = true) : last1 ≠ ['.', '.'] := by
  rcases hl with h | h | h
  · rw [h]; simp
  · rw [h]; simp
  · exact isName_not_dotdot h

theorem last_isSeg {last1 : List Char} (hl : last1 = [] ∨ last1 = ['.'] ∨ isName last1 = true) :
    last1 = [] ∨ isSeg last1 = true := by
  rcases hl with h | h | h
  · exact Or.inl h
  · right; rw [h]; decide
  · exact Or.inr (isName_isSeg h)

/-- An absolute path of names with a last segment that is empty, `.` or a name
is canonical: `PathCanonicalizeW` returns it unchanged. -/
theorem canon_fixed (R : Root) (hR : R.valid = true) (names : List (List Char))
    (last1 : List Char) (hn : ∀ n ∈ names, isName n = true)
    (hl : last1 = [] ∨ last1 = ['.'] ∨ isName last1 = true) :
    PathCanonicalizeW (rootedPath R names last1) = some (rootedPath R names last1) := by
  have hdd := last_not_dotdot hl
  have hesc : ¬ escapes R names last1 = true := fun h => hdd ((escapes_iff R names last1).mp h).1
  rw [canon_rooted R hR names last1 (fun s h => isName_isSeg (hn s h)) (last_isSeg hl),
    if_neg hesc]
  simp only [rootedCanon, if_neg hdd, resolve_of_names names hn]
  rw [rootedPath_eq]

theorem rootedPath_getLast (R : Root) (names : List (List Char)) (last1 : List Char)
    (hl : last1 = [] ∨ last1 = ['.'] ∨ isName last1 = true) :
    (rootedPath R names last1).getLast? = some '\\' ↔ last1 = [] := by
  constructor
  · intro h
    by_contra hne
    have hmem : '\\' ∈ last1 := by
      have e : rootedPath R names last1 = (R.text ++ '\\' :: segText names) ++ last1 := by
        simp [rootedPath]
      rw [e, List.getLast?_append_of_ne_nil _ hne] at h
      exact List.mem_of_getLast?_eq_some h
    rcases hl with h1 | h1 | h1
    · exact hne h1
    · rw [h1] at hmem
      simp at hmem
    · exact isName_no_sep h1 _ hmem rfl
  · intro h
    subst h
    have e : rootedPath R names [] = (R.text ++ dirText names) ++ ['\\'] := by
      rw [← rootedPath_eq]
    rw [e, getLast?_snoc]

theorem plain_isName {n : List Char} (hne : n ≠ [])
    (h : ∀ c ∈ n, c ≠ '\\' ∧ c ≠ ':' ∧ c ≠ '.') : isName n = true := by
  rcases n with _ | ⟨c, m⟩
  · exact absurd rfl hne
  · have hc := h c (by simp)
    have hall : ((c :: m).all fun c => c != '\\' && c != ':') = true := by
      rw [List.all_eq_true]
      intro x hx
      have := h x hx
      simp [this.1, this.2.1]
    unfold isName
    split
    · rename_i heq
      exact absurd heq (by simp)
    · rename_i heq
      injection heq with h1 _
      exact absurd h1 hc.2.2
    · rename_i heq
      injection heq with h1 _
      exact absurd h1 hc.2.2
    · exact hall

theorem uncShareScan_run (n : List Char) (hn : ∀ c ∈ n, c ≠ '\\') (seen : Bool) (rest : List Char) :
    uncShareScan seen (n ++ rest) = uncShareScan seen rest := by
  induction n with
  | nil => rfl
  | cons c m ih =>
    have hc := hn c (by simp)
    rw [List.cons_append, uncShareScan, if_neg hc]
    exact ih fun x hx => hn x (by simp [hx])

theorem unc_eq (t : List Char) :
    PathIsUNCServerShareW ('\\' :: '\\' :: t) = uncShareScan false t := by
  simp [PathIsUNCServerShareW]

/-- The text `\\server\share\..` backs up over the share. -/
theorem canon_unc_share (server share : List Char) (h1 : isName server = true)
    (h2 : isName share = true) :
    PathCanonicalizeW ('\\' :: '\\' :: (server ++ '\\' :: (share ++ ['\\', '.', '.']))) =
      some ('\\' :: '\\' :: server) := by
  have hunc : PathIsUNCServerShareW (('\\' :: '\\' :: server) ++ '\\' :: share ++ ['\\']) = false := by
    have e : ('\\' :: '\\' :: server) ++ '\\' :: share ++ ['\\'] =
        '\\' :: '\\' :: (server ++ '\\' :: (share ++ ['\\'])) := by simp
    rw [e, unc_eq, uncShareScan_run server (isName_no_sep h1)]
    simp only [uncShareScan, if_true]
    rw [uncShareScan_run share (isName_no_sep h2)]
    simp [uncShareScan]
  have hb := backtrack_name ('\\' :: '\\' :: server) share (isName_ne_nil h2) (isName_chars h2) hunc
  have hlen : ('\\' :: '\\' :: server).length ≠ 0 := by simp
  have hloop : canonLoop (some '\\') ('\\' :: (server ++ '\\' :: (share ++ ['\\', '.', '.']))) ['\\'] =
      some ('\\' :: '\\' :: server) :=
    calc canonLoop (some '\\') ('\\' :: (server ++ '\\' :: (share ++ ['\\', '.', '.']))) ['\\']
        = canonLoop (some '\\') (server ++ '\\' :: (share ++ ['\\', '.', '.'])) ['\\', '\\'] :=
          canonLoop_sep _ _ _
      _ = canonLoop (some '\\') (share ++ ['\\', '.', '.']) (['\\', '\\'] ++ server ++ ['\\']) :=
          canonLoop_name_sep server h1 _ _ _
      _ = canonLoop (some '\\') ['.', '.'] (('\\' :: '\\' :: server) ++ '\\' :: share ++ ['\\']) :=
          (canonLoop_name_sep share h2 _ _ _).trans (by simp)
      _ = canonLoop (some '.') [] ((('\\' :: '\\' :: server) ++ '\\' :: share ++ ['\\']).take
            ('\\' :: '\\' :: server).length) :=
          canonLoop_dotdot _ [] _ _ (getLast?_snoc _ _) hb hlen
      _ = some ('\\' :: '\\' :: server) := by
          rw [canonLoop_nil, List.append_assoc, List.take_left]
  have hs := List.length_pos.mpr (isName_ne_nil h1)
  rw [canon_sep_root, hloop, Option.map_some', nakedDrive_of_length _ (by simp only [List.length_cons]; omega)]

/-- The text `\\server\..` keeps the server name. -/
theorem canon_unc_server (server : List Char) (h1 : isName server = true) :
    PathCanonicalizeW ('\\' :: '\\' :: (server ++ ['\\', '.', '.'])) =
      some ('\\' :: '\\' :: server) := by
  have hpos := List.length_pos.mpr (isName_ne_nil h1)
  have hunc : PathIsUNCServerShareW (('\\' :: '\\' :: server) ++ ['\\']) = true := by
    have e : ('\\' :: '\\' :: server) ++ ['\\'] = '\\' :: '\\' :: (server ++ ['\\']) := by simp
    rw [e, unc_eq, uncShareScan_run server (isName_no_sep h1)]
    simp [uncShareScan]
  have hlen : (('\\' :: '\\' :: server) ++ ['\\']).length = server.length + 3 := by simp
  have hlast1 : rd (('\\' :: '\\' :: server) ++ ['\\']) (server.length + 3 - 1) = '\\' := by
    have : server.length + 3 - 1 = ('\\' :: '\\' :: server).length + 0 := by simp
    rw [this, rd_append_right]
    simp [rd]
  have hlast2 : rd (('\\' :: '\\' :: server) ++ ['\\']) (server.length + 3 - 2) ∈ server := by
    have e : ('\\' :: '\\' :: server) ++ ['\\'] = ['\\', '\\'] ++ (server ++ ['\\']) := by simp
    have : server.length + 3 - 2 = (['\\', '\\'] : List Char).length + (server.length - 1) := by
      simp; omega
    rw [e, this, rd_append_right, rd_append_left _ _ _ (by omega)]
    exact rd_mem _ _ (by omega)
  have hc := isName_chars h1 _ hlast2
  have hg : backGuard (('\\' :: '\\' :: server) ++ ['\\']) =
      some (('\\' :: '\\' :: server) ++ ['\\']).length := by
    unfold backGuard
    simp only [hlen]
    rw [if_pos ⟨by omega, hlast1, Or.inl hc.1⟩, if_neg hc.2, if_neg (by rw [hunc]; decide)]
  have hb := backtrack_stay ('\\' :: '\\' :: server) hg
  have hl0 : ('\\' :: '\\' :: server).length ≠ 0 := by simp
  have hloop : canonLoop (some '\\') ('\\' :: (server ++ ['\\', '.', '.'])) ['\\'] =
      some ('\\' :: '\\' :: server) :=
    calc canonLoop (some '\\') ('\\' :: (server ++ ['\\', '.', '.'])) ['\\']
        = canonLoop (some '\\') (server ++ ['\\', '.', '.']) ['\\', '\\'] := canonLoop_sep _ _ _
      _ = canonLoop (some '\\') ['.', '.'] (('\\' :: '\\' :: server) ++ ['\\']) :=
          canonLoop_name_sep server h1 _ _ _
      _ = canonLoop (some '.') [] ((('\\' :: '\\' :: server) ++ ['\\']).take
            ('\\' :: '\\' :: server).length) :=
          canonLoop_dotdot _ [] _ _ (getLast?_snoc _ _) hb hl0
      _ = some ('\\' :: '\\' :: server) := by
          rw [canonLoop_nil, List.take_left]
  rw [canon_sep_root, hloop, Option.map_some', nakedDrive_of_length _ (by simp only [List.length_cons]; omega)]

/-! ## The pieces of `PathCombineW` -/

theorem rd_last (p : List Char) (h : p ≠ []) : some (rd p (p.length - 1)) = p.getLast? := by
  have hpos := List.length_pos.mpr h
  rw [List.getLast?_eq_getElem?]
  unfold rd
  rw [List.getD_eq_getElem?_getD, List.getElem?_eq_getElem (by omega)]
  simp

theorem PathAddBackslashW_eq (p : List Char) (h : p.length < MAX_PATH) :
    PathAddBackslashW p = some (ensureSep p) := by
  unfold PathAddBackslashW ensureSep
  rw [if_neg (by omega)]
  by_cases hp : p = []
  · subst hp
    simp
  · have hlen : p.length ≠ 0 := by
      intro h0
      exact hp (List.length_eq_zero.mp h0)
    have hl := rd_last p hp
    rw [if_pos hlen]
    by_cases hsep : rd p (p.length - 1) = '\\'
    · rw [hsep] at hl
      simp [hsep, hl.symm]
    · have : p.getLast? ≠ some '\\' := by
        rw [← hl]
        intro h
        exact hsep (Option.some.inj h)
      simp [hsep, this, hp]

theorem ensureSep_length (p : List Char) : p.length ≤ (ensureSep p).length := by
  unfold ensureSep
  split <;> simp

theorem lstrcpynW_of_lt (p : List Char) (h : p.length < MAX_PATH) : lstrcpynW p MAX_PATH = p := by
  unfold lstrcpynW
  exact List.take_of_length_le (by omega)

theorem lstrcpynW_length (p : List Char) (h : MAX_PATH ≤ p.length) :
    (lstrcpynW p MAX_PATH).length = MAX_PATH - 1 := by
  unfold lstrcpynW
  rw [List.length_take]
  omega

theorem PathRemoveFileSpecW_length (p q : List Char) (m : Bool)
    (h : PathRemoveFileSpecW p = some (q, m)) : q.length ≤ p.length := by
  unfold PathRemoveFileSpecW at h
  simp only [Option.map_eq_some'] at h
  obtain ⟨fs, _, h2⟩ := h
  split at h2
  · injection h2 with h3 _
    rw [← h3, List.length_take]
    omega
  · injection h2 with h3 _
    rw [h3]

/-- With nothing known behind the terminator, the loop on the buffer is the
loop on the string. -/
theorem fileSpecScanBuf_nil (n : Nat) :
    ∀ (fs i : Nat) (rest : List Char), rest.length ≤ n →
      fileSpecScanBuf [] fs i rest = fileSpecScan fs i rest := by
  induction n using Nat.strong_induction_on with
  | _ n ih =>
    intro fs i rest hn
    rcases rest with _ | ⟨c, _ | ⟨c1, rest1⟩⟩
    · simp [fileSpecScanBuf, fileSpecScan]
    · simp [fileSpecScanBuf, fileSpecScan, fileSpecScanPast]
    · have hlen : (c1 :: rest1).length < n := by simp only [List.length_cons] at hn ⊢; omega
      have hlen1 : rest1.length < n := by simp only [List.length_cons] at hn ⊢; omega
      rw [fileSpecScanBuf, fileSpecScan]
      simp only [ih _ hlen _ _ _ (le_refl _), ih _ hlen1 _ _ _ (le_refl _)]

/-- Where the loop stays inside the string, what is behind the terminator does
not matter. -/
theorem fileSpecScanBuf_of_some (stale : List Char) (n : Nat) :
    ∀ (fs i : Nat) (rest : List Char) (r : Nat), rest.length ≤ n →
      fileSpecScan fs i rest = some r → fileSpecScanBuf stale fs i rest = some r := by
  induction n using Nat.strong_induction_on with
  | _ n ih =>
    intro fs i rest r hn h
    rcases rest with _ | ⟨c, _ | ⟨c1, rest1⟩⟩
    · simpa [fileSpecScanBuf, fileSpecScan] using h
    · rw [fileSpecScan] at h
      rw [fileSpecScanBuf]
      by_cases h1 : c = '\\'
      · simpa [h1, fileSpecScan, fileSpecScanBuf] using h
      · by_cases h2 : c = ':'
        · simp [h1, h2] at h
        · simpa [h1, h2, fileSpecScan, fileSpecScanBuf] using h
    · have hlen : (c1 :: rest1).length < n := by simp only [List.length_cons] at hn ⊢; omega
      have hlen1 : rest1.length < n := by simp only [List.length_cons] at hn ⊢; omega
      rw [fileSpecScan] at h
      rw [fileSpecScanBuf]
      by_cases h1 : c = '\\'
      · simp only [h1, if_true] at h ⊢
        exact ih _ hlen _ _ _ _ (le_refl _) h
      · by_cases h2 : c = ':'
        · simp only [h1, h2, if_false, if_true] at h ⊢
          exact ih _ hlen1 _ _ _ _ (le_refl _) h
        · simp only [h1, h2, if_false] at h ⊢
          exact ih _ hlen _ _ _ _ (le_refl _) h

/-- Inside the string, the final `filespec` is not behind the terminator. -/
theorem fileSpecScan_le (n : Nat) :
    ∀ (fs i : Nat) (rest : List Char) (r : Nat), rest.length ≤ n → fs ≤ i + rest.length →
      fileSpecScan fs i rest = some r → r ≤ i + rest.length := by
  induction n using Nat.strong_induction_on with
  | _ n ih =>
    intro fs i rest r hn hfs h
    rcases rest with _ | ⟨c, _ | ⟨c1, rest1⟩⟩
    · simp only [fileSpecScan, Option.some.injEq] at h
      omega
    · rw [fileSpecScan] at h
      by_cases h1 : c = '\\'
      · simp only [h1, if_true, fileSpecScan, Option.some.injEq] at h
        simp only [List.length_cons, List.length_nil]
        omega
      · by_cases h2 : c = ':'
        · simp [h1, h2] at h
        · simp only [h1, h2, if_false, fileSpecScan, Option.some.injEq] at h
          omega
    · have hlen : (c1 :: rest1).length < n := by simp only [List.length_cons] at hn ⊢; omega
      have hlen1 : rest1.length < n := by simp only [List.length_cons] at hn ⊢; omega
      simp only [List.length_cons] at hfs ⊢
      rw [fileSpecScan] at h
      by_cases h1 : c = '\\'
      · simp only [h1, if_true] at h
        have := ih _ hlen _ _ _ _ (le_refl _) (by simp only [List.length_cons]; omega) h
        simp only [List.length_cons] at this
        omega
      · by_cases h2 : c = ':'
        · simp only [h1, h2, if_false, if_true] at h
          have := ih _ hlen1 _ _ _ _ (le_refl _) (by split <;> omega) h
          omega
        · simp only [h1, h2, if_false] at h
          have := ih _ hlen _ _ _ _ (le_refl _) (by simp only [List.length_cons]; omega) h
          simp only [List.length_cons] at this
          omega

/-- The index at which the loop of `PathRemoveFileSpecW` starts is in the
string or at its terminator. -/
theorem fileSpec_start_le (p : List Char) :
    (if rd p (if rd p 0 = '\\' then 1 else 0) = '\\' then (if rd p 0 = '\\' then 1 else 0) + 1
      else (if rd p 0 = '\\' then 1 else 0)) ≤ p.length := by
  have hNUL : NUL ≠ '\\' := by decide
  rcases p with _ | ⟨c, _ | ⟨c1, rest⟩⟩
  · simp [rd, hNUL]
  · by_cases h : c = '\\'
    · simp [rd, h, hNUL]
    · simp [rd, h]
  · by_cases h : c = '\\'
    · simp only [rd, List.getD_cons_zero, h, if_true, List.getD_cons_succ, List.length_cons]
      split <;> omega
    · simp only [rd, List.getD_cons_zero, h, if_false, List.length_cons]
      omega

/-- Where `PathRemoveFileSpecW` stays inside the string, it does the same on
the buffer, whatever is behind the terminator. -/
theorem PathRemoveFileSpecBuf_of_some (p stale q : List Char) (m : Bool)
    (h : PathRemoveFileSpecW p = some (q, m)) :
    ∃ stale1, PathRemoveFileSpecBuf p stale = some (q, stale1, m) := by
  unfold PathRemoveFileSpecW at h
  simp only [Option.map_eq_some'] at h
  obtain ⟨fs, hscan, h2⟩ := h
  have hle : fs ≤ p.length := by
    have h0 := fileSpec_start_le p
    have := fileSpecScan_le _ _ _ _ fs (le_refl _) (by rw [List.length_drop]; omega) hscan
    rw [List.length_drop] at this
    omega
  unfold PathRemoveFileSpecBuf
  simp only [fileSpecScanBuf_of_some stale _ _ _ _ fs (le_refl _) hscan, Option.map_some',
    if_pos hle]
  split at h2
  · rename_i hne
    rw [if_pos hne]
    injection h2 with h3 h4
    exact ⟨_, by rw [h3, h4]⟩
  · rename_i hne
    rw [if_neg hne]
    injection h2 with h3 h4
    exact ⟨_, by rw [h3, h4]⟩

/-- With nothing known behind the terminator, `PathRemoveFileSpecW` on the
buffer is `PathRemoveFileSpecW` on the string. -/
theorem PathRemoveFileSpecBuf_nil (p : List Char) :
    (PathRemoveFileSpecBuf p []).map (fun r => (r.1, r.2.2)) = PathRemoveFileSpecW p := by
  cases h : PathRemoveFileSpecW p with
  | some res =>
    obtain ⟨q, m⟩ := res
    obtain ⟨stale1, h1⟩ := PathRemoveFileSpecBuf_of_some p [] q m h
    rw [h1]
    rfl
  | none =>
    unfold PathRemoveFileSpecW at h
    simp only [Option.map_eq_none'] at h
    unfold PathRemoveFileSpecBuf
    simp only [fileSpecScanBuf_nil _ _ _ _ (le_refl _), h, Option.map_none']

theorem PathRemoveFileSpecBuf_initial (p stale q stale1 : List Char) (m : Bool)
    (h : PathRemoveFileSpecBuf p stale = some (q, stale1, m)) : q <+: p := by
  unfold PathRemoveFileSpecBuf at h
  simp only [Option.map_eq_some'] at h
  obtain ⟨fs, _, h2⟩ := h
  split at h2
  · split at h2
    · injection h2 with h3 _
      rw [← h3]
      exact List.take_prefix _ _
    · injection h2 with h3 _
      rw [h3]
  · split at h2
    · injection h2 with h3 _
      rw [h3]
    · injection h2 with h3 _
      rw [h3]

theorem rd_of_length_le (p : List Char) (i : Nat) (h : p.length ≤ i) : rd p i = NUL := by
  unfold rd
  rw [List.getD_eq_getElem?_getD, List.getElem?_eq_none h]
  rfl

theorem countP_set_NUL : ∀ (l : List Char) (j : Nat), rd l j ≠ NUL →
    (l.set j NUL).countP (fun c => decide (c ≠ NUL)) + 1 =
      l.countP (fun c => decide (c ≠ NUL)) := by
  intro l
  induction l with
  | nil =>
    intro j h
    exact absurd rfl h
  | cons c l ih =>
    intro j h
    cases j with
    | zero =>
      have hc : c ≠ NUL := by simpa [rd] using h
      simp [List.countP_cons, hc]
    | succ j =>
      have h1 : rd l j ≠ NUL := by simpa [rd] using h
      have := ih j h1
      simp only [List.set_cons_succ, List.countP_cons]
      omega

/-- A call of `PathRemoveFileSpecW` that reports a change has stored a
terminator over a code unit of the text or of what is known behind it. -/
theorem PathRemoveFileSpecBuf_less (p stale q stale1 : List Char)
    (h : PathRemoveFileSpecBuf p stale = some (q, stale1, true)) :
    q.length + stale1.countP (fun c => decide (c ≠ NUL)) <
      p.length + stale.countP (fun c => decide (c ≠ NUL)) := by
  unfold PathRemoveFileSpecBuf at h
  simp only [Option.map_eq_some'] at h
  obtain ⟨fs, _, h2⟩ := h
  split at h2
  · split at h2
    · rename_i hle hne
      have hlt : fs < p.length := by
        by_contra hge
        exact hne (rd_of_length_le p fs (by omega))
      injection h2 with h3 h4
      injection h4 with h4 _
      rw [← h3, ← h4, List.length_take, List.countP_append, List.countP_cons]
      have h5 := List.countP_le_length (fun c => decide (c ≠ NUL)) (l := List.drop (fs + 1) p)
      rw [List.length_drop] at h5
      simp only [ne_eq, not_true_eq_false, decide_False, Bool.false_eq_true, if_false] at h5 ⊢
      omega
    · injection h2 with _ h4
      injection h4 with _ h5
      exact absurd h5 (by decide)
  · split at h2
    · rename_i hne
      injection h2 with h3 h4
      injection h4 with h4 _
      have := countP_set_NUL stale _ hne
      rw [← h3, ← h4]
      omega
    · injection h2 with _ h4
      injection h4 with _ h5
      exact absurd h5 (by decide)

/-- The result of the loop of `PathStripToRootW` does not depend on the fuel,
once the fuel exceeds the number of code units of the path and of the known
content behind it that are not terminators: the loop ends before the fuel
does. -/
theorem stripLoop_fuel (fuel1 : Nat) :
    ∀ (fuel2 : Nat) (p stale : List Char),
      p.length + stale.countP (fun c => decide (c ≠ NUL)) < fuel1 →
      p.length + stale.countP (fun c => decide (c ≠ NUL)) < fuel2 →
      stripLoop fuel1 p stale = stripLoop fuel2 p stale := by
  induction fuel1 with
  | zero => intro fuel2 p stale h; omega
  | succ fuel1 ih =>
    intro fuel2 p stale h1 h2
    obtain ⟨fuel2, rfl⟩ : ∃ k, fuel2 = k + 1 := ⟨fuel2 - 1, by omega⟩
    rw [stripLoop, stripLoop]
    split
    · rfl
    · cases hrem : PathRemoveFileSpecBuf p stale with
      | none => rfl
      | some res =>
        obtain ⟨p1, stale1, m⟩ := res
        cases m with
        | false => rfl
        | true =>
          have hlt := PathRemoveFileSpecBuf_less p stale p1 stale1 hrem
          simp only [if_true]
          exact ih fuel2 p1 stale1 (by omega) (by omega)

/-- The loop of `PathStripToRootW` never ends for want of fuel: with the fuel
that `PathStripToRootW` gives it, it returns what it returns with any larger
fuel. -/
theorem PathStripToRootW_fuel (p : List Char) (fuel : Nat) (h : p.length < fuel) :
    stripLoop fuel p [] = PathStripToRootW p := by
  unfold PathStripToRootW
  exact stripLoop_fuel fuel (p.length + 1) p [] (by simpa using h) (by simp)

/-- The branches of `PathCombineW` that use one of the two paths only. -/
theorem combine_dir_only (dir : List Char) (hdl : dir.length < MAX_PATH) :
    PathCombineW dir [] = (PathCanonicalizeW dir).map some := by
  unfold PathCombineW
  rw [if_pos rfl, lstrcpynW_of_lt dir hdl]

theorem combine_file_only (dir file : List Char) (hfl : file.length < MAX_PATH) (hf : file ≠ [])
    (h : dir = [] ∨ (∃ X rest, file = X :: ':' :: rest ∧ X ≠ '\\') ∨ PathIsUNCW file = true) :
    PathCombineW dir file = (PathCanonicalizeW file).map some := by
  unfold PathCombineW
  rw [if_neg hf, lstrcpynW_of_lt file hfl]
  rcases h with h | ⟨X, rest, h, hX⟩ | h
  · rw [if_pos (Or.inl h), if_pos (Or.inl h)]
  · subst h
    have hrel : PathIsRelativeW (X :: ':' :: rest) = false := by simp [PathIsRelativeW, rd]
    have h0 : rd (X :: ':' :: rest) 0 ≠ '\\' := by simpa [rd] using hX
    rw [if_pos (Or.inr hrel), if_pos (Or.inr (Or.inl h0))]
  · have hrel : PathIsRelativeW file = false := by
      rcases file with _ | ⟨c, rest⟩
      · exact absurd rfl hf
      · simp only [PathIsUNCW, rd, List.getD_cons_zero, Bool.and_eq_true, beq_iff_eq] at h
        simp [PathIsRelativeW, h.1]
    rw [if_pos (Or.inr hrel), if_pos (Or.inr (Or.inr h))]

/-- The branch of `PathCombineW` for a relative file. -/
theorem combine_join_eq (dir file : List Char) (hd : dir ≠ []) (hf : file ≠ [])
    (hrel : PathIsRelativeW file = true) :
    PathCombineW dir file =
      if MAX_PATH ≤ (ensureSep dir ++ file).length then some none
      else (PathCanonicalizeW (ensureSep dir ++ file)).map some := by
  have hfl : 0 < file.length := List.length_pos.mpr hf
  unfold PathCombineW
  rw [if_neg hf, if_neg (by simp [hd, hrel])]
  by_cases hdl : dir.length < MAX_PATH
  · rw [lstrcpynW_of_lt dir hdl, PathAddBackslashW_eq dir hdl]
    simp only [List.length_append]
  · have h1 := lstrcpynW_length dir (by omega)
    have h2 := ensureSep_length (lstrcpynW dir MAX_PATH)
    have h3 := ensureSep_length dir
    rw [PathAddBackslashW_eq _ (by rw [h1]; decide)]
    simp only [List.length_append]
    rw [if_pos (by omega), if_pos (by omega)]

/-! ## The progress of `PathRemoveFileSpecW` -/

theorem PathRemoveFileSpecW_shorter (p q : List Char)
    (h : PathRemoveFileSpecW p = some (q, true)) : q.length < p.length := by
  unfold PathRemoveFileSpecW at h
  simp only [Option.map_eq_some'] at h
  obtain ⟨fs, _, h2⟩ := h
  split at h2
  · rename_i hne
    have hlt : fs < p.length := by
      by_contra hge
      exact hne (rd_of_length_le p fs (by omega))
    injection h2 with h3 _
    rw [← h3, List.length_take]
    omega
  · injection h2 with _ h4
    exact absurd h4 (by decide)

/-! ## A root followed by `..` segments -/

theorem dotDots_eq (n : Nat) :
    dotDots n = segText (List.replicate n ['.', '.']) ++ ['.', '.'] := by
  induction n with
  | zero => rfl
  | succ n ih => simp [dotDots, List.replicate_succ, segText, ih]

theorem resolve_dotDots (n : Nat) : resolve (List.replicate n ['.', '.']) = [] := by
  induction n with
  | zero => rfl
  | succ n ih =>
    rw [List.replicate_succ', resolve_snoc, ih]
    simp [step]

/-- A root followed by `n + 1` segments `..`: from `X:\` the result is `X:\`;
from `\` the scan reads past the terminator. -/
theorem canon_root_dotDots (R : Root) (hR : R.valid = true) (n : Nat) :
    PathCanonicalizeW (R.text ++ '\\' :: dotDots n) =
      if R = Root.sep then none else some (R.text ++ ['\\']) := by
  have h := canon_rooted R hR (List.replicate n ['.', '.']) ['.', '.']
    (fun s hs => by rw [List.eq_of_mem_replicate hs]; decide) (Or.inr (by decide))
  rw [dotDots_eq]
  unfold rootedPath at h
  rw [h]
  cases R with
  | drive X => simp [escapes, rootedCanon, resolve_dotDots]
  | sep => simp [escapes, resolve_dotDots]

/-! ## The claims on `canonicalize` -/

/-- Claim C1 (as stated, refuted): `canonicalize` is not idempotent on every
input. The path `.\` canonicalizes to the empty string, and the empty string
canonicalizes to `\`. -/
theorem canonicalize_not_idempotent :
    PathCanonicalizeW (".\\".toList) = some [] ∧
      PathCanonicalizeW [] = some ("\\".toList) ∧
      (PathCanonicalizeW (".\\".toList)).bind PathCanonicalizeW ≠
        PathCanonicalizeW (".\\".toList) := by
  decide

/-- Claim C1 (amended): `canonicalize` is idempotent on absolute paths. For a
root `R` (a drive `X:\` with `X` neither separator nor colon, or `\`) and a path
`R\s1\...\sn\last` whose segments are `.`, `..` or names (the last one may be
empty), except a path rooted at `\` whose last segment `..` backs up to the
root, `canonicalize` returns a result, and `canonicalize` of that result is the
result. -/
theorem canonicalize_idempotent_rooted (R : Root) (hR : R.valid = true)
    (segs : List (List Char)) (last : List Char) (hs : ∀ s ∈ segs, isSeg s = true)
    (hl : last = [] ∨ isSeg last = true) (hesc : escapes R segs last = false) :
    PathCanonicalizeW (rootedPath R segs last) = some (rootedCanon R segs last) ∧
      PathCanonicalizeW (rootedCanon R segs last) = some (rootedCanon R segs last) := by
  constructor
  · rw [canon_rooted R hR segs last hs hl, if_neg (by simp [hesc])]
  · obtain ⟨names, last1, heq, hn, hl1, _, _, _⟩ := rootedCanon_shape R segs last hs hl
    rw [heq, canon_fixed R hR names last1 hn hl1]

/-- Claim C1, an instance: the path `C:\a\.\b\..\..\c\.` becomes `C:\c\.`, which
canonicalizes to itself. -/
theorem canonicalize_idempotent_rooted_witness :
    PathCanonicalizeW ("C:\\a\\.\\b\\..\\..\\c\\.".toList) = some ("C:\\c\\.".toList) ∧
      PathCanonicalizeW ("C:\\c\\.".toList) = some ("C:\\c\\.".toList) :=
  canonicalize_idempotent_rooted (Root.drive 'C') (by decide)
    ["a".toList, ".".toList, "b".toList, "..".toList, "..".toList, "c".toList] (".".toList)
    (by decide) (by decide) (by decide)

/-- Claim C2 (as stated, refuted): the relative path `a\..\b` canonicalizes to
`\b`, a path rooted at `\`. -/
theorem canonicalize_reroots_relative :
    PathIsRelativeW ("a\\..\\b".toList) = true ∧
      PathCanonicalizeW ("a\\..\\b".toList) = some ("\\b".toList) ∧
      PathIsRelativeW ("\\b".toList) = false := by
  decide

/-- Claim C2 (amended): on an absolute path `R\s1\...\sn\last` (`R` a drive
`X:\` or `\`) whose segments are `.`, `..` or names, except a path rooted at
`\` whose last segment `..` backs up to the root, `canonicalize` returns a path
on the same root, `R\t1\...\tm\last1` with names `t1 ... tm` and `last1` empty,
`.` or a name, and resolving the `.` and `..` segments of both paths from the
root gives the same sequence of names. -/
theorem canonicalize_same_location_rooted (R : Root) (hR : R.valid = true)
    (segs : List (List Char)) (last : List Char) (hs : ∀ s ∈ segs, isSeg s = true)
    (hl : last = [] ∨ isSeg last = true) (hesc : escapes R segs last = false) :
    ∃ names last1, PathCanonicalizeW (rootedPath R segs last) = some (rootedPath R names last1) ∧
      (∀ n ∈ names, isName n = true) ∧ (last1 = [] ∨ last1 = ['.'] ∨ isName last1 = true) ∧
      resolve (names ++ [last1]) = resolve (segs ++ [last]) := by
  obtain ⟨names, last1, heq, hn, hl1, _, _, hres⟩ := rootedCanon_shape R segs last hs hl
  refine ⟨names, last1, ?_, hn, hl1, hres⟩
  rw [canon_rooted R hR segs last hs hl, if_neg (by simp [hesc]), heq]

/-- Claim C2, an instance: the path `C:\a\..\b`. -/
theorem canonicalize_same_location_rooted_witness :
    ∃ names last1,
      PathCanonicalizeW (rootedPath (Root.drive 'C') ["a".toList, "..".toList] ("b".toList)) =
        some (rootedPath (Root.drive 'C') names last1) ∧
      (∀ n ∈ names, isName n = true) ∧ (last1 = [] ∨ last1 = ['.'] ∨ isName last1 = true) ∧
      resolve (names ++ [last1]) = resolve (["a".toList, "..".toList] ++ ["b".toList]) :=
  canonicalize_same_location_rooted (Root.drive 'C') (by decide) ["a".toList, "..".toList]
    ("b".toList) (by decide) (by decide) (by decide)

/-- Claim C3 (as stated, refuted): `\\server\share\..` canonicalizes to
`\\server`; the share is consumed. -/
theorem canonicalize_unc_drops_share :
    PathCanonicalizeW ("\\\\server\\share\\..".toList) = some ("\\\\server".toList) ∧
      PathCanonicalizeW ("\\\\server\\share\\..".toList) ≠ some ("\\\\server\\share".toList) := by
  decide

/-- Claim C3 (amended): for every server name and share name (non-empty, without
separators, dots or colons), `canonicalize` of `\\server\share\..` is
`\\server`, and `canonicalize` of `\\server\..` is `\\server`: a `..` backs up
over the share and never consumes the server name. -/
theorem canonicalize_unc_keeps_server (server share : List Char)
    (h1 : server ≠ [] ∧ ∀ c ∈ server, c ≠ '\\' ∧ c ≠ ':' ∧ c ≠ '.')
    (h2 : share ≠ [] ∧ ∀ c ∈ share, c ≠ '\\' ∧ c ≠ ':' ∧ c ≠ '.') :
    PathCanonicalizeW (['\\', '\\'] ++ server ++ ['\\'] ++ share ++ ['\\', '.', '.']) =
        some (['\\', '\\'] ++ server) ∧
      PathCanonicalizeW (['\\', '\\'] ++ server ++ ['\\', '.', '.']) =
        some (['\\', '\\'] ++ server) := by
  have hs := plain_isName h1.1 h1.2
  have hh := plain_isName h2.1 h2.2
  constructor
  · have := canon_unc_share server share hs hh
    simpa using this
  · have := canon_unc_server server hs
    simpa using this

/-- Claim C3, an instance: server `server`, share `share`. -/
theorem canonicalize_unc_keeps_server_witness :
    PathCanonicalizeW ("\\\\server\\share\\..".toList) = some ("\\\\server".toList) ∧
      PathCanonicalizeW ("\\\\server\\..".toList) = some ("\\\\server".toList) :=
  canonicalize_unc_keeps_server ("server".toList) ("share".toList) (by decide) (by decide)

/-- Claim C5 (the code at the failing input): on the path `\..` the `..` branch
resets `dst` to `buffer` and advances `src` by three code units, one more than
are left; the loop test then reads past the terminator, and no result is
defined. -/
theorem canonicalize_root_dotdot_undefined :
    PathCanonicalizeW ("\\..".toList) = none := by
  decide

/-- Claim C6 (as stated, refuted): a final `.` segment is kept. -/
theorem canonicalize_keeps_final_dot :
    PathCanonicalizeW ("C:\\a\\.".toList) = some ("C:\\a\\.".toList) := by
  decide

/-- Claim C6 (amended): on an absolute path `R\s1\...\sn\last` (`R` a drive
`X:\` or `\`) whose segments are `.`, `..` or names, except a path rooted at
`\` whose last segment `..` backs up to the root, the result of `canonicalize`
is `R\t1\...\tm\last1` where every `ti` is a name, so no `.` segment is
followed by a separator; `last1` is empty, a name or `.`, and it is `.` exactly
when the input ends with a `.` segment. -/
theorem canonicalize_drops_inner_dots (R : Root) (hR : R.valid = true)
    (segs : List (List Char)) (last : List Char) (hs : ∀ s ∈ segs, isSeg s = true)
    (hl : last = [] ∨ isSeg last = true) (hesc : escapes R segs last = false) :
    ∃ names last1, PathCanonicalizeW (rootedPath R segs last) = some (rootedPath R names last1) ∧
      (∀ n ∈ names, isName n = true ∧ n ≠ ['.']) ∧
      (last1 = [] ∨ last1 = ['.'] ∨ isName last1 = true) ∧
      (last1 = ['.'] ↔ last = ['.']) := by
  obtain ⟨names, last1, heq, hn, hl1, hdot, _, _⟩ := rootedCanon_shape R segs last hs hl
  refine ⟨names, last1, ?_, fun n h => ⟨hn n h, isName_not_dot (hn n h)⟩, hl1, hdot⟩
  rw [canon_rooted R hR segs last hs hl, if_neg (by simp [hesc]), heq]

/-- Claim C6, an instance: the path `C:\a\.\b`. -/
theorem canonicalize_drops_inner_dots_witness :
    ∃ names last1,
      PathCanonicalizeW (rootedPath (Root.drive 'C') ["a".toList, ".".toList] ("b".toList)) =
        some (rootedPath (Root.drive 'C') names last1) ∧
      (∀ n ∈ names, isName n = true ∧ n ≠ ['.']) ∧
      (last1 = [] ∨ last1 = ['.'] ∨ isName last1 = true) ∧
      (last1 = ['.'] ↔ "b".toList = ['.']) :=
  canonicalize_drops_inner_dots (Root.drive 'C') (by decide) ["a".toList, ".".toList]
    ("b".toList) (by decide) (by decide) (by decide)

/-- Claim C7 (as stated, refuted): `C:\a\` keeps its trailing separator, and the
result is not a root. -/
theorem canonicalize_keeps_trailing_separator :
    PathCanonicalizeW ("C:\\a\\".toList) = some ("C:\\a\\".toList) ∧
      ("C:\\a\\".toList).getLast? = some '\\' ∧ PathIsRootW ("C:\\a\\".toList) = false := by
  decide

/-- Claim C7 (amended): on an absolute path `R\s1\...\sn\last` (`R` a drive
`X:\` or `\`) whose segments are `.`, `..` or names, except a path rooted at
`\` whose last segment `..` backs up to the root, the result of `canonicalize`
ends in a separator exactly when the input ends in a separator (`last` is
empty) or the result is the root itself. -/
theorem canonicalize_trailing_separator (R : Root) (hR : R.valid = true)
    (segs : List (List Char)) (last : List Char) (hs : ∀ s ∈ segs, isSeg s = true)
    (hl : last = [] ∨ isSeg last = true) (hesc : escapes R segs last = false) :
    PathCanonicalizeW (rootedPath R segs last) = some (rootedCanon R segs last) ∧
      ((rootedCanon R segs last).getLast? = some '\\' ↔
        (last = [] ∨ rootedCanon R segs last = R.text ++ ['\\'])) := by
  constructor
  · rw [canon_rooted R hR segs last hs hl, if_neg (by simp [hesc])]
  · obtain ⟨names, last1, heq, _, hl1, _, hnil, _⟩ := rootedCanon_shape R segs last hs hl
    constructor
    · intro h
      rw [heq, rootedPath_getLast R names last1 hl1] at h
      rcases hnil.mp h with h1 | ⟨h1, h2⟩
      · exact Or.inl h1
      · right
        simp [rootedCanon, h1, h2]
    · intro h
      rcases h with h | h
      · rw [heq, rootedPath_getLast R names last1 hl1]
        exact hnil.mpr (Or.inl h)
      · rw [h, getLast?_snoc]

/-- Claim C7, an instance: `C:\a\..` becomes the root `C:\`. -/
theorem canonicalize_trailing_separator_witness :
    PathCanonicalizeW ("C:\\a\\..".toList) = some ("C:\\".toList) ∧
      (("C:\\".toList).getLast? = some '\\' ↔
        ("..".toList = [] ∨ "C:\\".toList = ['C', ':'] ++ ['\\'])) :=
  canonicalize_trailing_separator (Root.drive 'C') (by decide) ["a".toList] ("..".toList)
    (by decide) (by decide) (by decide)

/-! ## The claims on `combine` -/

theorem isName_replicate_a (k : Nat) : isName (List.replicate (k + 1) 'a') = true := by
  apply plain_isName
  · simp [List.replicate_succ]
  · intro c hc
    rw [List.eq_of_mem_replicate hc]
    decide

/-- Claim C9: the single-source rules of `combine`. For `dir` and `file` shorter
than `MAX_PATH`: if `file` is empty the result is `canonicalize(dir)`; if
`file` is not empty and `dir` is empty, or `file` is drive-rooted (`X:...`
with `X` not a separator) or a UNC path, the result is `canonicalize(file)`. -/
theorem combine_single_source (dir file : List Char) (hdl : dir.length < MAX_PATH)
    (hfl : file.length < MAX_PATH) :
    (file = [] → PathCombineW dir file = (PathCanonicalizeW dir).map some) ∧
      (file ≠ [] →
        (dir = [] ∨ (∃ X rest, file = X :: ':' :: rest ∧ X ≠ '\\') ∨ PathIsUNCW file = true) →
        PathCombineW dir file = (PathCanonicalizeW file).map some) := by
  constructor
  · intro h
    subst h
    exact combine_dir_only dir hdl
  · intro hf h
    exact combine_file_only dir file hfl hf h

/-- Claim C9, the instance of the spec: `combine("C:\dir", "D:\x")` is `D:\x`. -/
theorem combine_single_source_witness :
    PathCombineW ("C:\\dir".toList) ("D:\\x".toList) = some (some ("D:\\x".toList)) :=
  ((combine_single_source ("C:\\dir".toList) ("D:\\x".toList) (by decide) (by decide)).2
    (by decide) (Or.inr (Or.inl ⟨'D', "\\x".toList, rfl, by decide⟩))).trans (by decide)

theorem uncShareScan_iff (rest : List Char) :
    ∀ seen : Bool, uncShareScan seen rest = true ↔
      ((seen = true ∧ rest.count '\\' = 0) ∨ (seen = false ∧ rest.count '\\' = 1)) := by
  induction rest with
  | nil => intro seen; cases seen <;> simp [uncShareScan]
  | cons c rest ih =>
    intro seen
    by_cases hc : c = '\\'
    · subst hc
      cases seen
      · have e : uncShareScan false ('\\' :: rest) = uncShareScan true rest := by simp [uncShareScan]
        rw [e, ih true, List.count_cons_self]
        simp
      · simp [uncShareScan]
    · have e : uncShareScan seen (c :: rest) = uncShareScan seen rest := by simp [uncShareScan, hc]
      have hcount : (c :: rest).count '\\' = rest.count '\\' :=
        List.count_cons_of_ne (fun h => hc h.symm) rest
      rw [e, ih seen, hcount]

theorem uncRootScan_iff (rest : List Char) :
    ∀ seen : Bool, uncRootScan seen rest = true ↔
      ((seen = true ∧ rest.count '\\' = 0) ∨ (seen = false ∧ rest.count '\\' ≤ 1)) := by
  induction rest with
  | nil => intro seen; cases seen <;> simp [uncRootScan]
  | cons c rest ih =>
    intro seen
    by_cases hc : c = '\\'
    · subst hc
      cases seen
      · have e : uncRootScan false ('\\' :: rest) = uncRootScan true rest := by simp [uncRootScan]
        rw [e, ih true, List.count_cons_self]
        simp
      · simp [uncRootScan]
    · have e : uncRootScan seen (c :: rest) = uncRootScan seen rest := by simp [uncRootScan, hc]
      have hcount : (c :: rest).count '\\' = rest.count '\\' :=
        List.count_cons_of_ne (fun h => hc h.symm) rest
      rw [e, ih seen, hcount]

/-- Claim C20: `is_unc_server_share(p)` is true if and only if `p` begins with
two separators and the text after them contains exactly one further
separator. -/
theorem is_unc_server_share_iff (p : List Char) :
    PathIsUNCServerShareW p = true ↔
      ∃ rest, p = '\\' :: '\\' :: rest ∧ rest.count '\\' = 1 := by
  constructor
  · intro h
    unfold PathIsUNCServerShareW at h
    split at h
    · rename_i rest
      exact ⟨rest, rfl, by simpa using (uncShareScan_iff rest false).mp h⟩
    · exact absurd h (by simp)
  · rintro ⟨rest, rfl, hcount⟩
    rw [unc_eq]
    exact (uncShareScan_iff rest false).mpr (Or.inr ⟨rfl, hcount⟩)

/-- The function `PathIsRootW`, in one formula. -/
theorem PathIsRootW_iff (p : List Char) :
    PathIsRootW p = true ↔
      (p = ['\\'] ∨ (∃ rest, p = '\\' :: '\\' :: rest ∧ rest.count '\\' ≤ 1) ∨
        ∃ X, X ≠ '\\' ∧ p = [X, ':', '\\']) := by
  constructor
  · intro h
    unfold PathIsRootW at h
    split at h
    · exact absurd h (by simp)
    · rename_i c rest
      split at h
      · rename_i hc
        subst hc
        split at h
        · exact Or.inl rfl
        · rename_i c1 rest1
          split at h
          · rename_i hc1
            subst hc1
            exact Or.inr (Or.inl ⟨rest1, rfl, by simpa using (uncRootScan_iff rest1 false).mp h⟩)
          · exact absurd h (by simp)
      · rename_i hc
        split at h
        · exact Or.inr (Or.inr ⟨c, hc, rfl⟩)
        · exact absurd h (by simp)
  · rintro (h | ⟨rest, h, hcount⟩ | ⟨X, hX, h⟩)
    · subst h
      rfl
    · subst h
      simp only [PathIsRootW, if_true]
      exact (uncRootScan_iff rest false).mpr (Or.inr ⟨rfl, hcount⟩)
    · subst h
      simp [PathIsRootW, hX]

/-! ## Removing the last segment -/

theorem fileSpecScan_sep (fs i : Nat) (rest : List Char) :
    fileSpecScan fs i ('\\' :: rest) = fileSpecScan i (i + 1) rest := by
  rcases rest with _ | ⟨c1, rest1⟩ <;> simp [fileSpecScan]

theorem fileSpecScan_other (fs i : Nat) (c : Char) (rest : List Char) (h1 : c ≠ '\\')
    (h2 : c ≠ ':') : fileSpecScan fs i (c :: rest) = fileSpecScan fs (i + 1) rest := by
  rcases rest with _ | ⟨c1, rest1⟩ <;> simp [fileSpecScan, h1, h2]

theorem fileSpecScan_colon_end (fs i : Nat) : fileSpecScan fs i [':'] = none := by
  simp [fileSpecScan]

theorem fileSpecScan_colon (fs i : Nat) (c1 : Char) (rest1 : List Char) :
    fileSpecScan fs i (':' :: c1 :: rest1) =
      fileSpecScan (if c1 = '\\' then i + 2 else i + 1) (i + 2) rest1 := by
  simp [fileSpecScan]

/-- The scan of `PathRemoveFileSpecW` over a run without separator or colon
keeps `filespec`. -/
theorem fileSpecScan_run (n : List Char) (hn : ∀ c ∈ n, c ≠ '\\' ∧ c ≠ ':') :
    ∀ (fs i : Nat) (rest : List Char),
      fileSpecScan fs i (n ++ rest) = fileSpecScan fs (i + n.length) rest := by
  induction n with
  | nil => intro fs i rest; rfl
  | cons c m ih =>
    intro fs i rest
    have hc := hn c (by simp)
    rw [List.cons_append, fileSpecScan_other fs i c _ hc.1 hc.2,
      ih (fun x hx => hn x (by simp [hx]))]
    simp only [List.length_cons]
    congr 1
    omega

/-- The scan of `PathRemoveFileSpecW` returns an index whenever the text has no
colon. -/
theorem fileSpecScan_isSome (rest : List Char) (h : ':' ∉ rest) :
    ∀ fs i : Nat, (fileSpecScan fs i rest).isSome = true := by
  induction rest with
  | nil => intro fs i; rfl
  | cons c m ih =>
    intro fs i
    have hc : c ≠ ':' := fun hc => h (by simp [hc])
    have hm : ':' ∉ m := fun hm => h (by simp [hm])
    by_cases hs : c = '\\'
    · subst hs
      rw [fileSpecScan_sep]
      exact ih hm _ _
    · rw [fileSpecScan_other fs i c m hs hc]
      exact ih hm _ _

/-- The text that `PathRemoveFileSpecW` leaves is a prefix of the path, and the
returned flag tells whether it is shorter. -/
theorem PathRemoveFileSpecW_initial (p q : List Char) (m : Bool)
    (h : PathRemoveFileSpecW p = some (q, m)) : q <+: p ∧ (m = true ↔ q ≠ p) := by
  unfold PathRemoveFileSpecW at h
  simp only [Option.map_eq_some'] at h
  obtain ⟨fs, _, h2⟩ := h
  split at h2
  · rename_i hne
    have hlt : fs < p.length := by
      by_contra hge
      exact hne (rd_of_length_le p fs (by omega))
    simp only [Option.some.injEq, Prod.mk.injEq] at h2
    obtain ⟨h3, h4⟩ := h2
    subst h3
    subst h4
    refine ⟨List.take_prefix _ _, ?_⟩
    simp only [true_iff]
    intro he
    have := congrArg List.length he
    rw [List.length_take] at this
    omega
  · simp only [Option.some.injEq, Prod.mk.injEq] at h2
    obtain ⟨h3, h4⟩ := h2
    subst h3
    subst h4
    exact ⟨List.prefix_refl _, by simp⟩

theorem PathRemoveFileSpecW_isSome (p : List Char) (h : ':' ∉ p) :
    (PathRemoveFileSpecW p).isSome = true := by
  unfold PathRemoveFileSpecW
  simp only [Option.isSome_map']
  apply fileSpecScan_isSome
  intro hmem
  exact h (List.mem_of_mem_drop hmem)

theorem PathRemoveFileSpecW_sep : PathRemoveFileSpecW ['\\'] = some (['\\'], false) := by
  decide

theorem PathRemoveFileSpecW_drive (X : Char) (h1 : X ≠ '\\') (h2 : X ≠ ':') :
    PathRemoveFileSpecW [X, ':', '\\'] = some ([X, ':', '\\'], false) := by
  simp [PathRemoveFileSpecW, rd, h1, h2, fileSpecScan, NUL]

/-- The function `PathRemoveFileSpecW` cuts a UNC server and share down to the
server. -/
theorem PathRemoveFileSpecW_unc (server share : List Char)
    (h1 : ∀ c ∈ server, c ≠ '\\' ∧ c ≠ ':') (h2 : ∀ c ∈ share, c ≠ '\\' ∧ c ≠ ':') :
    PathRemoveFileSpecW ('\\' :: '\\' :: (server ++ '\\' :: share)) =
      some ('\\' :: '\\' :: server, true) := by
  have hrd : rd ('\\' :: '\\' :: (server ++ '\\' :: share)) (2 + server.length) = '\\' := by
    have := rd_append_right ('\\' :: '\\' :: server) ('\\' :: share) 0
    simp only [List.length_cons, rd] at this ⊢
    have e : server.length + 1 + 1 + 0 = 2 + server.length := by omega
    rw [e] at this
    simpa using this
  have hscan : fileSpecScan 2 2 (server ++ '\\' :: share) = some (2 + server.length) := by
    rw [fileSpecScan_run server h1, fileSpecScan_sep]
    have := fileSpecScan_run share h2 (2 + server.length) (2 + server.length + 1) []
    rw [List.append_nil] at this
    rw [this]
    rfl
  unfold PathRemoveFileSpecW
  simp only [rd, List.getD_cons_zero, if_true, List.getD_cons_succ, List.drop_succ_cons,
    List.drop_zero]
  rw [hscan]
  simp only [Option.map_some']
  rw [if_pos (by rw [show (List.getD ('\\' :: '\\' :: (server ++ '\\' :: share)) (2 + server.length) NUL) = '\\' from hrd]; decide)]
  congr 2
  have : 2 + server.length = ('\\' :: '\\' :: server).length := by simp; omega
  rw [this, ← List.cons_append, ← List.cons_append, List.take_left]

theorem getLast?_cons_of_ne (c : Char) {m : List Char} (h : m ≠ []) :
    (c :: m).getLast? = m.getLast? := by
  rcases m with _ | ⟨c1, m1⟩
  · exact absurd rfl h
  · exact List.getLast?_cons_cons

theorem getLast?_drop_of_ne (k : Nat) {p : List Char} (h : p.drop k ≠ []) :
    (p.drop k).getLast? = p.getLast? := by
  have e : p = p.take k ++ p.drop k := (List.take_append_drop k p).symm
  conv_rhs => rw [e]
  rw [List.getLast?_append_of_ne_nil _ h]

/-- The scan of `PathRemoveFileSpecW` returns an index whenever the text does
not end with a colon. -/
theorem fileSpecScan_defined (n : Nat) :
    ∀ (rest : List Char), rest.length ≤ n → rest.getLast? ≠ some ':' →
      ∀ fs i : Nat, (fileSpecScan fs i rest).isSome = true := by
  induction n with
  | zero =>
    intro rest hlen _ fs i
    have : rest = [] := List.length_eq_zero.mp (by omega)
    subst this
    rfl
  | succ n ih =>
    intro rest hlen hlast fs i
    rcases rest with _ | ⟨c, m⟩
    · rfl
    · have hm : m ≠ [] → m.getLast? ≠ some ':' := by
        intro hne
        rw [getLast?_cons_of_ne c hne] at hlast
        exact hlast
      have hmlen : m.length ≤ n := by simpa using hlen
      by_cases hs : c = '\\'
      · subst hs
        rw [fileSpecScan_sep]
        rcases m with _ | ⟨c1, m1⟩
        · rfl
        · exact ih _ hmlen (hm (by simp)) _ _
      · by_cases hc : c = ':'
        · subst hc
          rcases m with _ | ⟨c1, m1⟩
          · exact absurd rfl hlast
          · rw [fileSpecScan_colon]
            rcases m1 with _ | ⟨c2, m2⟩
            · rfl
            · have h1 : (c1 :: c2 :: m2).getLast? ≠ some ':' := hm (by simp)
              have h2 : (c2 :: m2).getLast? ≠ some ':' := by
                rw [getLast?_cons_of_ne c1 (by simp)] at h1
                exact h1
              exact ih _ (by simp only [List.length_cons] at hmlen ⊢; omega) h2 _ _
        · rw [fileSpecScan_other fs i c m hs hc]
          rcases m with _ | ⟨c1, m1⟩
          · rfl
          · exact ih _ hmlen (hm (by simp)) _ _

theorem PathRemoveFileSpecW_defined (p : List Char) (h : p.getLast? ≠ some ':') :
    (PathRemoveFileSpecW p).isSome = true := by
  unfold PathRemoveFileSpecW
  simp only [Option.isSome_map']
  by_cases hd : List.drop (if rd p (if rd p 0 = '\\' then 1 else 0) = '\\' then
      (if rd p 0 = '\\' then 1 else 0) + 1 else if rd p 0 = '\\' then 1 else 0) p = []
  · rw [hd]
    rfl
  · apply fileSpecScan_defined _ _ (le_refl _)
    intro hl
    apply h
    rw [← hl]
    exact (getLast?_drop_of_ne _ hd).symm

theorem fileSpecScan_keep (d : List Char) (hd : ∀ c ∈ d, c ≠ '\\' ∧ c ≠ ':') (fs i : Nat) :
    fileSpecScan fs i d = some fs := by
  have := fileSpecScan_run d hd fs i []
  rw [List.append_nil] at this
  rw [this]
  rfl

/-- The scan of `PathRemoveFileSpecW` over a text without colon ends at its
last separator. -/
theorem fileSpecScan_cut (u : List Char) (hu : ':' ∉ u) (d : List Char)
    (hd : ∀ c ∈ d, c ≠ '\\' ∧ c ≠ ':') :
    ∀ fs i : Nat, fileSpecScan fs i (u ++ '\\' :: d) = some (i + u.length) := by
  induction u with
  | nil =>
    intro fs i
    rw [List.nil_append, fileSpecScan_sep, fileSpecScan_keep d hd]
    rfl
  | cons c m ih =>
    intro fs i
    have hc : c ≠ ':' := fun hc => hu (by simp [hc])
    have hm : ':' ∉ m := fun hm => hu (by simp [hm])
    have e : i + (c :: m).length = i + 1 + m.length := by simp only [List.length_cons]; omega
    by_cases hs : c = '\\'
    · subst hs
      rw [List.cons_append, fileSpecScan_sep, ih hm, e]
    · rw [List.cons_append, fileSpecScan_other fs i c _ hs hc, ih hm, e]

/-! ## Plain paths -/

theorem isStart_cases {s : List Char} (h : isStart s = true) :
    s = [] ∨ s = ['\\'] ∨ s = ['\\', '\\'] ∨
      ∃ X, X ≠ '\\' ∧ X ≠ ':' ∧ s = [X, ':', '\\'] := by
  unfold isStart at h
  split at h
  · exact Or.inl rfl
  · exact Or.inr (Or.inl rfl)
  · exact Or.inr (Or.inr (Or.inl rfl))
  · rename_i X
    simp only [Bool.and_eq_true, bne_iff_ne, ne_eq] at h
    exact Or.inr (Or.inr (Or.inr ⟨X, h.1, h.2, rfl⟩))
  · exact absurd h (by simp)

/-- After a start, `PathRemoveFileSpecW` scans the rest of the path from the
index behind the start. -/
theorem PathRemoveFileSpecW_start (s t : List Char) (hs : isStart s = true)
    (ht : rd t 0 ≠ '\\') :
    PathRemoveFileSpecW (s ++ t) =
      (fileSpecScan s.length s.length t).map fun filespec =>
        if rd (s ++ t) filespec ≠ NUL then ((s ++ t).take filespec, true) else (s ++ t, false) := by
  rcases isStart_cases hs with rfl | rfl | rfl | ⟨X, h1, h2, rfl⟩
  · unfold PathRemoveFileSpecW
    simp [ht]
  · have h1 : rd ('\\' :: t) 1 = rd t 0 := by
      rcases t with _ | ⟨c, r⟩ <;> rfl
    have h0 : rd ('\\' :: t) 0 = '\\' := rfl
    unfold PathRemoveFileSpecW
    simp only [List.singleton_append, h0, if_true, h1, if_neg ht]
    rfl
  · unfold PathRemoveFileSpecW
    simp [rd]
  · have e : fileSpecScan 0 0 (X :: ':' :: '\\' :: t) = fileSpecScan 3 3 t := by
      rw [fileSpecScan_other 0 0 X _ h1 h2, fileSpecScan_colon]
      rfl
    unfold PathRemoveFileSpecW
    simp [rd, h1, e]

theorem segText_snoc (dirs : List (List Char)) (h : dirs ≠ []) :
    segText dirs = (segText dirs).dropLast ++ ['\\'] := by
  rcases List.eq_nil_or_concat dirs with h1 | ⟨ds, d, h1⟩
  · exact absurd h1 h
  · rw [List.concat_eq_append] at h1
    subst h1
    have e : segText (ds ++ [d]) = (segText ds ++ d) ++ ['\\'] := by
      rw [segText_append]
      simp [segText]
    rw [e, List.dropLast_concat]

theorem segText_no_colon (dirs : List (List Char)) (hd : ∀ d ∈ dirs, isName d = true) :
    ∀ c ∈ segText dirs, c ≠ ':' := by
  induction dirs with
  | nil => intro c hc; simp [segText] at hc
  | cons d ds ih =>
    intro c hc
    simp only [segText, List.mem_append, List.mem_cons] at hc
    rcases hc with h | h | h
    · exact (isName_chars (hd d (by simp)) c h).2
    · rw [h]; decide
    · exact ih (fun x hx => hd x (by simp [hx])) c h

theorem isTail_chars {t : List Char} (h : isTail t = true) :
    ∀ c ∈ t, c ≠ '\\' ∧ c ≠ ':' ∧ c ≠ NUL := by
  intro c hc
  unfold isTail at h
  rw [List.all_eq_true] at h
  have := h c hc
  simp only [Bool.and_eq_true, bne_iff_ne, ne_eq] at this
  exact ⟨this.1.1, this.1.2, this.2⟩

/-- The first code unit of a plain path behind its start is not a separator. -/
theorem plain_head (dirs : List (List Char)) (last : List Char)
    (hd : ∀ d ∈ dirs, isName d = true) (hl : ∀ c ∈ last, c ≠ '\\') :
    rd (segText dirs ++ last) 0 ≠ '\\' := by
  rcases dirs with _ | ⟨d, ds⟩
  · rcases last with _ | ⟨c, r⟩
    · decide
    · exact hl c (by simp)
  · have hn := hd d (by simp)
    rcases d with _ | ⟨c, r⟩
    · simp [isName] at hn
    · exact (isName_chars hn c (by simp)).1

/-- On a plain path `PathRemoveFileSpecW` leaves the directory. -/
theorem remove_plain (s : List Char) (dirs : List (List Char)) (last : List Char)
    (hs : isStart s = true) (hd : ∀ d ∈ dirs, isName d = true) (hl : isTail last = true) :
    ∃ m, PathRemoveFileSpecW (plainPath s dirs last) = some (plainDir s dirs, m) := by
  have hlc := isTail_chars hl
  have hl2 : ∀ c ∈ last, c ≠ '\\' ∧ c ≠ ':' := fun c hc => ⟨(hlc c hc).1, (hlc c hc).2.1⟩
  unfold plainPath plainDir
  rw [PathRemoveFileSpecW_start s _ hs (plain_head dirs last hd fun c hc => (hlc c hc).1)]
  by_cases hne : dirs = []
  · subst hne
    simp only [segText, List.nil_append, List.dropLast_nil, List.append_nil]
    rw [fileSpecScan_keep last hl2]
    simp only [Option.map_some']
    have hrd : rd (s ++ last) s.length = rd last 0 := by
      have := rd_append_right s last 0
      simpa using this
    rw [hrd]
    rcases last with _ | ⟨c, r⟩
    · exact ⟨false, by simp [rd]⟩
    · refine ⟨true, ?_⟩
      have hc : rd (c :: r) 0 ≠ NUL := (hlc c (by simp)).2.2
      rw [if_pos hc, List.take_left]
  · have e := segText_snoc dirs hne
    have hu : ':' ∉ (segText dirs).dropLast := by
      intro hmem
      exact segText_no_colon dirs hd ':' (List.mem_of_mem_dropLast hmem) rfl
    have e2 : segText dirs ++ last = (segText dirs).dropLast ++ '\\' :: last := by
      conv_lhs => rw [e]
      simp
    rw [e2, fileSpecScan_cut _ hu last hl2]
    simp only [Option.map_some']
    have hrd : rd (s ++ ((segText dirs).dropLast ++ '\\' :: last))
        (s.length + (segText dirs).dropLast.length) = '\\' := by
      have := rd_append_right (s ++ (segText dirs).dropLast) ('\\' :: last) 0
      simp only [List.length_append, Nat.add_zero, List.append_assoc] at this
      rw [this]
      rfl
    refine ⟨true, ?_⟩
    rw [hrd, if_pos (by decide)]
    have e3 : s.length + (segText dirs).dropLast.length = (s ++ (segText dirs).dropLast).length := by
      simp
    rw [e3, ← List.append_assoc, List.take_left]

/-- The scan copies a sequence of names with their separators, and a last
segment that is empty or a name. -/
theorem canonLoop_plain (dirs : List (List Char)) (hd : ∀ d ∈ dirs, isName d = true)
    (last : List Char) (hl : last = [] ∨ isName last = true) :
    ∀ (prev : Option Char) (out : List Char),
      canonLoop prev (segText dirs ++ last) out = some (out ++ (segText dirs ++ last)) := by
  induction dirs with
  | nil =>
    intro prev out
    rcases hl with h | h
    · subst h
      simp [segText, canonLoop_nil]
    · simp only [segText, List.nil_append]
      exact canonLoop_name_end last h prev out
  | cons d ds ih =>
    intro prev out
    have e : segText (d :: ds) ++ last = d ++ '\\' :: (segText ds ++ last) := by simp [segText]
    rw [e, canonLoop_name_sep d (hd d (by simp)), ih (fun x hx => hd x (by simp [hx]))]
    simp

theorem canon_rel (t : List Char) (hne : t ≠ []) (h0 : rd t 0 ≠ '\\') (h1 : rd t 1 ≠ ':') :
    PathCanonicalizeW t = (canonLoop none t []).map nakedDrive := by
  rcases t with _ | ⟨c0, _ | ⟨c1, r⟩⟩
  · exact absurd rfl hne
  · have h0a : c0 ≠ '\\' := h0
    simp [PathCanonicalizeW, h0a]
  · have h0a : c0 ≠ '\\' := h0
    have h1a : c1 ≠ ':' := h1
    unfold PathCanonicalizeW
    simp only [if_neg h0a]
    split
    · rename_i heq
      injection heq with h _
      exact absurd h h1a
    · rename_i heq
      injection heq with h _
      exact absurd h h1a
    · rfl

theorem nakedDrive_no_colon (o : List Char) (h : ':' ∉ o) : nakedDrive o = o :=
  nakedDrive_of_last o fun hl => h (List.mem_of_getLast?_eq_some hl)

theorem rd_no_colon (t : List Char) (h : ':' ∉ t) (j : Nat) : rd t j ≠ ':' := by
  by_cases hj : j < t.length
  · intro hc
    exact h (hc ▸ rd_mem t j hj)
  · rw [rd_of_length_le t j (by omega)]
    decide

theorem plain_no_colon (dirs : List (List Char)) (hd : ∀ d ∈ dirs, isName d = true)
    (last : List Char) (hl : last = [] ∨ isName last = true) : ':' ∉ segText dirs ++ last := by
  intro hmem
  rcases List.mem_append.mp hmem with h | h
  · exact segText_no_colon dirs hd ':' h rfl
  · rcases hl with h1 | h1
    · subst h1
      simp at h
    · exact (isName_chars h1 ':' h).2 rfl

/-- A plain path is canonical: `PathCanonicalizeW` returns it unchanged. -/
theorem canon_plain (s : List Char) (dirs : List (List Char)) (last : List Char)
    (hs : isStart s = true) (hd : ∀ d ∈ dirs, isName d = true)
    (hl : last = [] ∨ isName last = true) (hne : plainPath s dirs last ≠ []) :
    PathCanonicalizeW (plainPath s dirs last) = some (plainPath s dirs last) := by
  have hcol := plain_no_colon dirs hd last hl
  have hl3 : last = [] ∨ last = ['.'] ∨ isName last = true := by
    rcases hl with h | h
    · exact Or.inl h
    · exact Or.inr (Or.inr h)
  have hsep : ∀ c ∈ last, c ≠ '\\' := by
    rcases hl with h | h
    · subst h
      simp
    · exact isName_no_sep h
  rcases isStart_cases hs with rfl | rfl | rfl | ⟨X, h1, h2, rfl⟩
  · unfold plainPath at hne ⊢
    rw [List.nil_append] at hne ⊢
    rw [canon_rel _ hne (plain_head dirs last hd hsep) (rd_no_colon _ hcol 1),
      canonLoop_plain dirs hd last hl]
    simp only [Option.map_some', List.nil_append]
    rw [nakedDrive_no_colon _ hcol]
  · exact canon_fixed Root.sep rfl dirs last hd hl3
  · unfold plainPath
    have e : ['\\', '\\'] ++ (segText dirs ++ last) = '\\' :: ('\\' :: (segText dirs ++ last)) := rfl
    rw [e, canon_sep_root, canonLoop_sep, canonLoop_plain dirs hd last hl]
    simp only [Option.map_some']
    rw [nakedDrive_no_colon]
    · rfl
    · simp only [List.cons_append, List.nil_append, List.mem_cons, not_or]
      exact ⟨by decide, by decide, hcol⟩
  · exact canon_fixed (Root.drive X) (by simp [Root.valid, h1, h2]) dirs last hd hl3

theorem isEntry_name {n : List Char} (h : isEntry n = true) : isName n = true := by
  simp only [isEntry, Bool.and_eq_true] at h
  exact h.1.1

theorem isEntry_tail {n : List Char} (h : isEntry n = true) : isTail n = true := by
  simp only [isEntry, Bool.and_eq_true] at h
  exact h.1.2

theorem isEntry_length {n : List Char} (h : isEntry n = true) : n.length < MAX_PATH := by
  simp only [isEntry, Bool.and_eq_true, decide_eq_true_eq] at h
  exact h.2

theorem isName_relative {n : List Char} (h : isName n = true) : PathIsRelativeW n = true := by
  have hch := isName_chars h
  rcases n with _ | ⟨c, r⟩
  · simp [isName] at h
  · have h0 := (hch c (by simp)).1
    have h1 : rd r 0 ≠ ':' := by
      apply rd_no_colon
      intro hm
      exact (hch ':' (by simp [hm])).2 rfl
    simp [PathIsRelativeW, h0, h1]

theorem isName_not_unc {n : List Char} (h : isName n = true) : PathIsUNCW n = false := by
  have hch := isName_chars h
  rcases n with _ | ⟨c, r⟩
  · simp [isName] at h
  · have h0 := (hch c (by simp)).1
    simp [PathIsUNCW, rd, h0]

theorem isName_dropWhile {n : List Char} (h : isName n = true) :
    n.dropWhile (· == '\\') = n := by
  have hch := isName_chars h
  rcases n with _ | ⟨c, r⟩
  · rfl
  · have h0 := (hch c (by simp)).1
    have hb : (c == '\\') = false := by simp [h0]
    simp only [List.dropWhile, hb]

/-- A trailing separator after the directory of a plain path gives the start
and the directories with their separators. -/
theorem ensureSep_plainDir (s : List Char) (dirs : List (List Char)) (hs : isStart s = true)
    (hd : ∀ d ∈ dirs, isName d = true) (hne : plainDir s dirs ≠ []) :
    ensureSep (plainDir s dirs) = s ++ segText dirs := by
  by_cases hdirs : dirs = []
  · subst hdirs
    simp only [plainDir, segText, List.dropLast_nil, List.append_nil] at hne ⊢
    rcases isStart_cases hs with rfl | rfl | rfl | ⟨X, h1, h2, rfl⟩
    · exact absurd rfl hne
    · rfl
    · rfl
    · simp [ensureSep]
  · rcases List.eq_nil_or_concat dirs with h1 | ⟨ds, d, h1⟩
    · exact absurd h1 hdirs
    · rw [List.concat_eq_append] at h1
      subst h1
      have hdn := hd d (by simp)
      have e : segText (ds ++ [d]) = (segText ds ++ d) ++ ['\\'] := by
        rw [segText_append]
        simp [segText]
      have hlast : (s ++ (segText ds ++ d)).getLast? ≠ some '\\' := by
        rw [← List.append_assoc, List.getLast?_append_of_ne_nil _ (isName_ne_nil hdn)]
        intro hc
        exact isName_no_sep hdn _ (List.mem_of_getLast?_eq_some hc) rfl
      have hne2 : s ++ (segText ds ++ d) ≠ [] := by
        intro h
        have := congrArg List.length h
        have hpos := List.length_pos.mpr (isName_ne_nil hdn)
        simp only [List.length_append, List.length_nil] at this
        omega
      unfold plainDir
      rw [e, List.dropLast_concat]
      unfold ensureSep
      rw [if_neg (by simp only [not_or]; exact ⟨hne2, hlast⟩)]
      simp

/-- Appending an entry name to the directory of a plain path gives the plain
path of the entry when it fits, and fails with an empty path when it does
not. -/
theorem append_plain (s : List Char) (dirs : List (List Char)) (n : List Char)
    (hs : isStart s = true) (hd : ∀ d ∈ dirs, isName d = true) (hn : isEntry n = true) :
    PathAppendW (plainDir s dirs) n =
      some (if MAX_PATH ≤ (plainPath s dirs n).length then ([], false)
        else (plainPath s dirs n, true)) := by
  have hname := isEntry_name hn
  have hlen := isEntry_length hn
  have hnne := isName_ne_nil hname
  unfold PathAppendW
  simp only [isName_not_unc hname, isName_dropWhile hname, Bool.false_eq_true, if_false]
  by_cases hdir : plainDir s dirs = []
  · have hs0 : s = [] := by
      unfold plainDir at hdir
      exact (List.append_eq_nil.mp hdir).1
    have hd0 : dirs = [] := by
      by_contra hne
      have e := segText_snoc dirs hne
      unfold plainDir at hdir
      have h2 := (List.append_eq_nil.mp hdir).2
      rcases List.eq_nil_or_concat dirs with h1 | ⟨ds, d, h1⟩
      · exact hne h1
      · rw [List.concat_eq_append] at h1
        subst h1
        have e2 : segText (ds ++ [d]) = (segText ds ++ d) ++ ['\\'] := by
          rw [segText_append]
          simp [segText]
        rw [e2, List.dropLast_concat] at h2
        exact isName_ne_nil (hd d (by simp)) (List.append_eq_nil.mp h2).2
    subst hs0
    subst hd0
    have hp : plainPath [] [] n = n := by simp [plainPath, segText]
    have hc := canon_plain [] [] n rfl (by simp) (Or.inr hname) (by rw [hp]; exact hnne)
    rw [hp] at hc
    rw [hdir, combine_file_only [] n hlen hnne (Or.inl rfl), hc, hp, if_neg (by omega)]
    rfl
  · have he := ensureSep_plainDir s dirs hs hd hdir
    have hp : ensureSep (plainDir s dirs) ++ n = plainPath s dirs n := by
      rw [he]
      simp [plainPath]
    rw [combine_join_eq _ n hdir hnne (isName_relative hname), hp]
    by_cases hfit : MAX_PATH ≤ (plainPath s dirs n).length
    · rw [if_pos hfit, if_pos hfit]
      rfl
    · rw [if_neg hfit, if_neg hfit,
        canon_plain s dirs n hs hd (Or.inr hname) (by
          intro h
          have := congrArg List.length h
          have hpos := List.length_pos.mpr hnne
          simp only [plainPath, List.length_append, List.length_nil] at this
          omega)]
      rfl

/-- The rebuild of `szPath` for an entry name, on a plain path. -/
theorem rebuild_plain (s : List Char) (dirs : List (List Char)) (last n : List Char)
    (hs : isStart s = true) (hd : ∀ d ∈ dirs, isName d = true) (hl : isTail last = true)
    (hn : isEntry n = true) :
    rebuildPath (plainPath s dirs last) n =
      some (if MAX_PATH ≤ (plainPath s dirs n).length then [] else plainPath s dirs n) := by
  obtain ⟨m, hm⟩ := remove_plain s dirs last hs hd hl
  unfold rebuildPath
  rw [hm]
  simp only [append_plain s dirs n hs hd hn, Option.map_some']
  split <;> rfl

/-! ## The wildcard loops -/

theorem isName_not_dots {n : List Char} (h : isName n = true) : IS_DOTS n = false := by
  unfold IS_DOTS
  split
  · exact absurd h (by simp [isName])
  · exact absurd h (by simp [isName])
  · rfl

theorem IS_DOTS_iff (n : List Char) : IS_DOTS n = true ↔ n = ['.'] ∨ n = ['.', '.'] := by
  unfold IS_DOTS
  split <;> simp_all

theorem nonDots_cons_dots (n : List Char) (rest : List (List Char)) (h : IS_DOTS n = true) :
    nonDots (n :: rest) = nonDots rest := by
  simp [nonDots, List.filter, h]

theorem nonDots_cons (n : List Char) (rest : List (List Char)) (h : IS_DOTS n = false) :
    nonDots (n :: rest) = n :: nonDots rest := by
  simp [nonDots, List.filter, h]

theorem foldCalls_cons (ret : FCRET) (c : Call) (calls : List Call) :
    foldCalls ret (c :: calls) = foldCalls (foldRet ret c.outcome) calls := rfl

theorem oneSideLoop_nil (cmp : Nat → List Char → List Char → FCRET) (b : Bool)
    (lit sz : List Char) (ret : FCRET) (k : Nat) :
    oneSideLoop cmp b lit sz ret k [] = some (ret, []) := by
  simp [oneSideLoop]

theorem oneSideLoop_dots (cmp : Nat → List Char → List Char → FCRET) (b : Bool)
    (lit sz : List Char) (ret : FCRET) (k : Nat) (n : List Char) (rest : List (List Char))
    (h : IS_DOTS n = true) :
    oneSideLoop cmp b lit sz ret k (n :: rest) = oneSideLoop cmp b lit sz ret k rest := by
  simp [oneSideLoop, h]

theorem oneSideLoop_step (cmp : Nat → List Char → List Char → FCRET) (b : Bool)
    (lit sz : List Char) (ret : FCRET) (k : Nat) (n : List Char) (rest : List (List Char))
    (h : IS_DOTS n = false) (p : List Char) (hp : rebuildPath sz n = some p) :
    oneSideLoop cmp b lit sz ret k (n :: rest) =
      (oneSideLoop cmp b lit p
        (foldRet ret (cmp k (if b = true then lit else p) (if b = true then p else lit)))
        (k + 1) rest).map fun res =>
          (res.1, (⟨n, [], if b = true then lit else p, if b = true then p else lit,
            cmp k (if b = true then lit else p) (if b = true then p else lit)⟩ : Call) :: res.2) := by
  rw [oneSideLoop]
  simp only [h, Bool.false_eq_true, if_false, hp]
  cases oneSideLoop cmp b lit p
      (foldRet ret (cmp k (if b = true then lit else p) (if b = true then p else lit)))
      (k + 1) rest with
  | none => rfl
  | some res => rfl

theorem oneSideLoop_undefined (cmp : Nat → List Char → List Char → FCRET) (b : Bool)
    (lit sz : List Char) (ret : FCRET) (k : Nat) (n : List Char) (rest : List (List Char))
    (h : IS_DOTS n = false) (hp : rebuildPath sz n = none) :
    oneSideLoop cmp b lit sz ret k (n :: rest) = none := by
  rw [oneSideLoop]
  simp only [h, Bool.false_eq_true, if_false, hp]

/-- Whatever the paths, the loop of single-wildcard mode calls the comparator
for the entries that are not `.` or `..`, in their order, and returns the
fold of the outcomes. -/
theorem oneSideLoop_calls (cmp : Nat → List Char → List Char → FCRET) (b : Bool)
    (lit : List Char) (entries : List (List Char)) :
    ∀ (sz : List Char) (ret : FCRET) (k : Nat) (res : FCRET × List Call),
      oneSideLoop cmp b lit sz ret k entries = some res →
        res.2.map (fun c => c.entry0) = nonDots entries ∧ res.1 = foldCalls ret res.2 := by
  induction entries with
  | nil =>
    intro sz ret k res h
    rw [oneSideLoop_nil] at h
    injection h with h
    subst h
    exact ⟨rfl, rfl⟩
  | cons n rest ih =>
    intro sz ret k res h
    cases hd : IS_DOTS n with
    | true =>
      rw [oneSideLoop_dots _ _ _ _ _ _ _ _ hd] at h
      rw [nonDots_cons_dots n rest hd]
      exact ih sz ret k res h
    | false =>
      cases hp : rebuildPath sz n with
      | none =>
        rw [oneSideLoop_undefined _ _ _ _ _ _ _ _ hd hp] at h
        exact absurd h (by simp)
      | some p =>
        rw [oneSideLoop_step _ _ _ _ _ _ _ _ hd p hp] at h
        simp only [Option.map_eq_some'] at h
        obtain ⟨res1, h1, h2⟩ := h
        obtain ⟨e1, e2⟩ := ih _ _ _ res1 h1
        subst h2
        rw [nonDots_cons n rest hd]
        exact ⟨by simp [e1], by rw [foldCalls_cons]; exact e2⟩

/-- The rebuild of a plain path leaves a plain path again, the first of the
expected paths. -/
theorem rebuild_step (s : List Char) (dirs : List (List Char)) (last n : List Char)
    (hs : isStart s = true) (hd : ∀ d ∈ dirs, isName d = true) (hl : isTail last = true)
    (hn : isEntry n = true) :
    ∃ (s1 : List Char) (dirs1 : List (List Char)) (last1 : List Char),
      isStart s1 = true ∧ (∀ d ∈ dirs1, isName d = true) ∧ isTail last1 = true ∧
        rebuildPath (plainPath s dirs last) n = some (plainPath s1 dirs1 last1) ∧
        ∀ rest, plainTrace s dirs (n :: rest) =
          plainPath s1 dirs1 last1 :: plainTrace s1 dirs1 rest := by
  have h := rebuild_plain s dirs last n hs hd hl hn
  by_cases hfit : MAX_PATH ≤ (plainPath s dirs n).length
  · refine ⟨[], [], [], rfl, by simp, rfl, ?_, ?_⟩
    · rw [h, if_pos hfit]
      rfl
    · intro rest
      simp only [plainTrace, if_pos hfit]
      rfl
  · refine ⟨s, dirs, n, hs, hd, isEntry_tail hn, ?_, ?_⟩
    · rw [h, if_neg hfit]
    · intro rest
      simp only [plainTrace, if_neg hfit]

/-- The course of single-wildcard mode on a plain pattern: the loop returns,
and its calls are those for the entries that are not `.` or `..`, with the
expected paths. -/
theorem oneSideLoop_plain (cmp : Nat → List Char → List Char → FCRET) (b : Bool)
    (lit : List Char) (entries : List (List Char))
    (he : ∀ n ∈ entries, IS_DOTS n = true ∨ isEntry n = true) :
    ∀ (s : List Char) (dirs : List (List Char)) (last : List Char) (ret : FCRET) (k : Nat),
      isStart s = true → (∀ d ∈ dirs, isName d = true) → isTail last = true →
        oneSideLoop cmp b lit (plainPath s dirs last) ret k entries =
          some (foldCalls ret (oneSideCalls cmp b lit k (nonDots entries)
              (plainTrace s dirs (nonDots entries))),
            oneSideCalls cmp b lit k (nonDots entries) (plainTrace s dirs (nonDots entries))) := by
  induction entries with
  | nil =>
    intro s dirs last ret k _ _ _
    rw [oneSideLoop_nil]
    rfl
  | cons n rest ih =>
    intro s dirs last ret k hs hd hl
    have hrest : ∀ x ∈ rest, IS_DOTS x = true ∨ isEntry x = true :=
      fun x hx => he x (by simp [hx])
    cases hdots : IS_DOTS n with
    | true =>
      rw [oneSideLoop_dots _ _ _ _ _ _ _ _ hdots, nonDots_cons_dots n rest hdots]
      exact ih hrest s dirs last ret k hs hd hl
    | false =>
      have hn : isEntry n = true := by
        rcases he n (by simp) with h | h
        · rw [hdots] at h
          exact absurd h (by simp)
        · exact h
      obtain ⟨s1, dirs1, last1, hs1, hd1, hl1, hreb, htr⟩ := rebuild_step s dirs last n hs hd hl hn
      rw [oneSideLoop_step _ _ _ _ _ _ _ _ hdots _ hreb, ih hrest s1 dirs1 last1 _ _ hs1 hd1 hl1,
        nonDots_cons n rest hdots, htr]
      rfl

theorem skipDots_of_not_dots (cur : List Char) (rest : List (List Char)) (f : Bool)
    (h : IS_DOTS cur = false) : skipDots cur rest f = (cur, rest, f, false) := by
  rcases rest with _ | ⟨n, r⟩ <;> simp [skipDots, h]

/-- The loop that skips `.` and `..` stops at the first other entry, or leaves
by `goto quit` when there is none. -/
theorem skipDots_spec (rest : List (List Char)) :
    ∀ (cur : List Char) (f : Bool) (c : List Char) (r : List (List Char)) (fa q : Bool),
      skipDots cur rest f = (c, r, fa, q) →
        (q = true → nonDots (cur :: rest) = []) ∧
        (q = false → IS_DOTS c = false ∧ nonDots (cur :: rest) = c :: nonDots r ∧
          c ∈ cur :: rest ∧ (∀ x ∈ r, x ∈ rest) ∧ r.length ≤ rest.length) := by
  induction rest with
  | nil =>
    intro cur f c r fa q h
    cases hd : IS_DOTS cur with
    | true =>
      simp only [skipDots, hd, if_true, Prod.mk.injEq] at h
      obtain ⟨_, _, _, h4⟩ := h
      subst h4
      exact ⟨fun _ => by rw [nonDots_cons_dots _ _ hd]; rfl, fun h => absurd h (by simp)⟩
    | false =>
      rw [skipDots_of_not_dots _ _ _ hd] at h
      simp only [Prod.mk.injEq] at h
      obtain ⟨h1, h2, _, h4⟩ := h
      subst h1 h2 h4
      exact ⟨fun h => absurd h (by simp),
        fun _ => ⟨hd, nonDots_cons _ _ hd, by simp, by simp, le_refl _⟩⟩
  | cons n rest1 ih =>
    intro cur f c r fa q h
    cases hd : IS_DOTS cur with
    | true =>
      simp only [skipDots, hd, if_true] at h
      obtain ⟨e1, e2⟩ := ih n true c r fa q h
      rw [nonDots_cons_dots _ _ hd]
      refine ⟨e1, fun hq => ?_⟩
      obtain ⟨a1, a2, a3, a4, a5⟩ := e2 hq
      exact ⟨a1, a2, List.mem_cons_of_mem _ a3, fun x hx => List.mem_cons_of_mem _ (a4 x hx),
        by simp only [List.length_cons]; omega⟩
    | false =>
      rw [skipDots_of_not_dots _ _ _ hd] at h
      simp only [Prod.mk.injEq] at h
      obtain ⟨h1, h2, _, h4⟩ := h
      subst h1 h2 h4
      exact ⟨fun h => absurd h (by simp),
        fun _ => ⟨hd, nonDots_cons _ _ hd, by simp, by simp, le_refl _⟩⟩

theorem bothLoop_quit0 (cmp : Nat → List Char → List Char → FCRET) (fuel : Nat) (cur0 : List Char)
    (rest0 : List (List Char)) (cur1 : List Char)
    (rest1 : List (List Char)) (sz0 sz1 : List Char) (f0 f1 : Bool) (ret : FCRET) (k : Nat)
    (c0 : List Char) (r0 : List (List Char)) (fa : Bool)
    (hs : skipDots cur0 rest0 f0 = (c0, r0, fa, true)) :
    bothLoop cmp (fuel + 1) cur0 rest0 cur1 rest1 sz0 sz1 f0 f1 ret k =
      some ⟨ret, false, f1, c0, cur1, []⟩ := by
  rw [bothLoop]
  simp only [hs]

theorem bothLoop_quit1 (cmp : Nat → List Char → List Char → FCRET) (fuel : Nat) (cur0 : List Char)
    (rest0 : List (List Char)) (cur1 : List Char)
    (rest1 : List (List Char)) (sz0 sz1 : List Char) (f0 f1 : Bool) (ret : FCRET) (k : Nat)
    (c0 : List Char) (r0 : List (List Char)) (fa : Bool)
    (hs0 : skipDots cur0 rest0 f0 = (c0, r0, fa, false))
    (c1 : List Char) (r1 : List (List Char)) (fb : Bool)
    (hs1 : skipDots cur1 rest1 f1 = (c1, r1, fb, true)) :
    bothLoop cmp (fuel + 1) cur0 rest0 cur1 rest1 sz0 sz1 f0 f1 ret k =
      some ⟨ret, fa, false, c0, c1, []⟩ := by
  rw [bothLoop]
  simp only [hs0, hs1]

theorem bothLoop_undefined (cmp : Nat → List Char → List Char → FCRET) (fuel : Nat)
    (cur0 : List Char)
    (rest0 : List (List Char)) (cur1 : List Char)
    (rest1 : List (List Char)) (sz0 sz1 : List Char) (f0 f1 : Bool) (ret : FCRET) (k : Nat)
    (c0 : List Char) (r0 : List (List Char)) (fa : Bool)
    (hs0 : skipDots cur0 rest0 f0 = (c0, r0, fa, false))
    (c1 : List Char) (r1 : List (List Char)) (fb : Bool)
    (hs1 : skipDots cur1 rest1 f1 = (c1, r1, fb, false))
    (hp : rebuildPath sz0 c0 = none ∨ rebuildPath sz1 c1 = none) :
    bothLoop cmp (fuel + 1) cur0 rest0 cur1 rest1 sz0 sz1 f0 f1 ret k = none := by
  rw [bothLoop]
  simp only [hs0, hs1]
  rcases hp with hp | hp
  · rw [hp]
  · rw [hp]
    cases rebuildPath sz0 c0 <;> rfl

theorem bothLoop_step (cmp : Nat → List Char → List Char → FCRET) (fuel : Nat) (cur0 : List Char)
    (rest0 : List (List Char)) (cur1 : List Char)
    (rest1 : List (List Char)) (sz0 sz1 : List Char) (f0 f1 : Bool) (ret : FCRET) (k : Nat)
    (c0 n0 : List Char) (r0a : List (List Char)) (fa : Bool)
    (hs0 : skipDots cur0 rest0 f0 = (c0, n0 :: r0a, fa, false))
    (c1 n1 : List Char) (r1a : List (List Char)) (fb : Bool)
    (hs1 : skipDots cur1 rest1 f1 = (c1, n1 :: r1a, fb, false)) (p0 p1 : List Char)
    (hp0 : rebuildPath sz0 c0 = some p0) (hp1 : rebuildPath sz1 c1 = some p1) :
    bothLoop cmp (fuel + 1) cur0 rest0 cur1 rest1 sz0 sz1 f0 f1 ret k =
      (bothLoop cmp fuel n0 r0a n1 r1a p0 p1 true true (foldRet ret (cmp k p0 p1)) (k + 1)).map
        fun e => ⟨e.ret, e.f0, e.f1, e.find0, e.find1, ⟨c0, c1, p0, p1, cmp k p0 p1⟩ :: e.calls⟩ := by
  rw [bothLoop]
  simp only [hs0, hs1, hp0, hp1]

theorem bothLoop_end (cmp : Nat → List Char → List Char → FCRET) (fuel : Nat) (cur0 : List Char)
    (rest0 : List (List Char)) (cur1 : List Char)
    (rest1 : List (List Char)) (sz0 sz1 : List Char) (f0 f1 : Bool) (ret : FCRET) (k : Nat)
    (c0 : List Char) (r0 : List (List Char)) (fa : Bool)
    (hs0 : skipDots cur0 rest0 f0 = (c0, r0, fa, false))
    (c1 : List Char) (r1 : List (List Char)) (fb : Bool)
    (hs1 : skipDots cur1 rest1 f1 = (c1, r1, fb, false)) (p0 p1 : List Char)
    (hp0 : rebuildPath sz0 c0 = some p0) (hp1 : rebuildPath sz1 c1 = some p1)
    (hend : r0 = [] ∨ r1 = []) :
    bothLoop cmp (fuel + 1) cur0 rest0 cur1 rest1 sz0 sz1 f0 f1 ret k =
      some ⟨foldRet ret (cmp k p0 p1), !r0.isEmpty, !r1.isEmpty, r0.headD c0, r1.headD c1,
        [⟨c0, c1, p0, p1, cmp k p0 p1⟩]⟩ := by
  rw [bothLoop]
  simp only [hs0, hs1, hp0, hp1]
  rcases r0 with _ | ⟨n0, r0a⟩ <;> rcases r1 with _ | ⟨n1, r1a⟩
  · rfl
  · rfl
  · rfl
  · rcases hend with h | h <;> exact absurd h (by simp)

/-- Whatever the paths, the loop of dual-wildcard mode pairs the entries that
are not `.` or `..` by position, and returns the fold of the outcomes. -/
theorem bothLoop_calls (cmp : Nat → List Char → List Char → FCRET) (fuel : Nat) :
    ∀ (cur0 : List Char) (rest0 : List (List Char)) (cur1 : List Char)
      (rest1 : List (List Char)) (sz0 sz1 : List Char) (f0 f1 : Bool) (ret : FCRET) (k : Nat)
      (e : BothEnd),
      bothLoop cmp fuel cur0 rest0 cur1 rest1 sz0 sz1 f0 f1 ret k = some e →
        e.calls.map (fun c => (c.entry0, c.entry1)) =
            (nonDots (cur0 :: rest0)).zip (nonDots (cur1 :: rest1)) ∧
          e.ret = foldCalls ret e.calls := by
  induction fuel with
  | zero =>
    intro cur0 rest0 cur1 rest1 sz0 sz1 f0 f1 ret k e h
    rw [bothLoop] at h
    exact absurd h (by simp)
  | succ fuel ih =>
    intro cur0 rest0 cur1 rest1 sz0 sz1 f0 f1 ret k e h
    rcases hsk0 : skipDots cur0 rest0 f0 with ⟨c0, r0, fa, q0⟩
    obtain ⟨sp0a, sp0b⟩ := skipDots_spec rest0 cur0 f0 c0 r0 fa q0 hsk0
    cases q0 with
    | true =>
      rw [bothLoop_quit0 _ _ _ _ _ _ _ _ _ _ _ _ _ _ _ hsk0] at h
      injection h with h
      subst h
      rw [sp0a rfl]
      exact ⟨rfl, rfl⟩
    | false =>
      obtain ⟨_, hN0, _, _, _⟩ := sp0b rfl
      rcases hsk1 : skipDots cur1 rest1 f1 with ⟨c1, r1, fb, q1⟩
      obtain ⟨sp1a, sp1b⟩ := skipDots_spec rest1 cur1 f1 c1 r1 fb q1 hsk1
      cases q1 with
      | true =>
        rw [bothLoop_quit1 _ _ _ _ _ _ _ _ _ _ _ _ _ _ _ hsk0 _ _ _ hsk1] at h
        injection h with h
        subst h
        rw [sp1a rfl]
        exact ⟨by simp, rfl⟩
      | false =>
        obtain ⟨_, hN1, _, _, _⟩ := sp1b rfl
        rw [hN0, hN1]
        cases hp0 : rebuildPath sz0 c0 with
        | none =>
          rw [bothLoop_undefined _ _ _ _ _ _ _ _ _ _ _ _ _ _ _ hsk0 _ _ _ hsk1 (Or.inl hp0)] at h
          exact absurd h (by simp)
        | some p0 =>
          cases hp1 : rebuildPath sz1 c1 with
          | none =>
            rw [bothLoop_undefined _ _ _ _ _ _ _ _ _ _ _ _ _ _ _ hsk0 _ _ _ hsk1 (Or.inr hp1)] at h
            exact absurd h (by simp)
          | some p1 =>
            by_cases hend : r0 = [] ∨ r1 = []
            · rw [bothLoop_end _ _ _ _ _ _ _ _ _ _ _ _ _ _ _ hsk0 _ _ _ hsk1 _ _ hp0 hp1 hend] at h
              injection h with h
              subst h
              refine ⟨?_, rfl⟩
              rcases hend with h0 | h0 <;> subst h0 <;> simp [nonDots]
            · simp only [not_or] at hend
              obtain ⟨n0, r0a, hr0⟩ := List.exists_cons_of_ne_nil hend.1
              obtain ⟨n1, r1a, hr1⟩ := List.exists_cons_of_ne_nil hend.2
              subst hr0 hr1
              rw [bothLoop_step _ _ _ _ _ _ _ _ _ _ _ _ _ _ _ _ hsk0 _ _ _ _ hsk1 _ _ hp0 hp1] at h
              simp only [Option.map_eq_some'] at h
              obtain ⟨e1, h1, h2⟩ := h
              obtain ⟨a1, a2⟩ := ih _ _ _ _ _ _ _ _ _ _ e1 h1
              subst h2
              refine ⟨?_, ?_⟩
              · simp only [List.map_cons, List.zip_cons_cons, a1]
              · rw [foldCalls_cons]
                exact a2

theorem bothCalls_nil_left (cmp : Nat → List Char → List Char → FCRET) (k : Nat)
    (n1 p0 p1 : List (List Char)) : bothCalls cmp k [] n1 p0 p1 = [] := by
  simp [bothCalls]

theorem bothCalls_nil_right (cmp : Nat → List Char → List Char → FCRET) (k : Nat)
    (n0 p0 p1 : List (List Char)) : bothCalls cmp k n0 [] p0 p1 = [] := by
  rcases n0 with _ | ⟨a, l⟩ <;> simp [bothCalls]

theorem bothCalls_cons (cmp : Nat → List Char → List Char → FCRET) (k : Nat)
    (a b p q : List Char) (n0 n1 p0 p1 : List (List Char)) :
    bothCalls cmp k (a :: n0) (b :: n1) (p :: p0) (q :: p1) =
      ⟨a, b, p, q, cmp k p q⟩ :: bothCalls cmp (k + 1) n0 n1 p0 p1 := by
  simp [bothCalls]

theorem entry_of_not_dots {n : List Char} (h : IS_DOTS n = true ∨ isEntry n = true)
    (hd : IS_DOTS n = false) : isEntry n = true := by
  rcases h with h | h
  · rw [hd] at h
    exact absurd h (by simp)
  · exact h

/-- The course of dual-wildcard mode on plain patterns: the loop returns, its
calls pair the entries that are not `.` or `..` by position, with the expected
paths; for listings without `.` and `..` the flags at `quit` tell which
listing is longer, and the find data of the longer listing holds its first
unmatched entry. -/
theorem bothLoop_plain (cmp : Nat → List Char → List Char → FCRET) (fuel : Nat) :
    ∀ (cur0 : List Char) (rest0 : List (List Char)) (cur1 : List Char)
      (rest1 : List (List Char)) (s0 : List Char) (dirs0 : List (List Char)) (last0 : List Char)
      (s1 : List Char) (dirs1 : List (List Char)) (last1 : List Char)
      (f0 f1 : Bool) (ret : FCRET) (k : Nat),
      rest0.length < fuel →
      (∀ n ∈ cur0 :: rest0, IS_DOTS n = true ∨ isEntry n = true) →
      (∀ n ∈ cur1 :: rest1, IS_DOTS n = true ∨ isEntry n = true) →
      isStart s0 = true → (∀ d ∈ dirs0, isName d = true) → isTail last0 = true →
      isStart s1 = true → (∀ d ∈ dirs1, isName d = true) → isTail last1 = true →
      ∃ e, bothLoop cmp fuel cur0 rest0 cur1 rest1 (plainPath s0 dirs0 last0)
            (plainPath s1 dirs1 last1) f0 f1 ret k = some e ∧
        e.calls = bothCalls cmp k (nonDots (cur0 :: rest0)) (nonDots (cur1 :: rest1))
          (plainTrace s0 dirs0 (nonDots (cur0 :: rest0)))
          (plainTrace s1 dirs1 (nonDots (cur1 :: rest1))) ∧
        ((∀ n ∈ cur0 :: rest0, IS_DOTS n = false) → (∀ n ∈ cur1 :: rest1, IS_DOTS n = false) →
          e.f0 = decide (rest1.length < rest0.length) ∧
          e.f1 = decide (rest0.length < rest1.length) ∧
          (rest1.length < rest0.length → e.find0 = rest0.getD rest1.length []) ∧
          (rest0.length < rest1.length → e.find1 = rest1.getD rest0.length [])) := by
  induction fuel with
  | zero =>
    intro cur0 rest0 cur1 rest1 s0 dirs0 last0 s1 dirs1 last1 f0 f1 ret k hfuel
    omega
  | succ fuel ih =>
    intro cur0 rest0 cur1 rest1 s0 dirs0 last0 s1 dirs1 last1 f0 f1 ret k hfuel hc0 hc1
      hs0 hd0 hl0 hs1 hd1 hl1
    rcases hsk0 : skipDots cur0 rest0 f0 with ⟨c0, r0, fa, q0⟩
    obtain ⟨sp0a, sp0b⟩ := skipDots_spec rest0 cur0 f0 c0 r0 fa q0 hsk0
    cases q0 with
    | true =>
      refine ⟨_, bothLoop_quit0 _ _ _ _ _ _ _ _ _ _ _ _ _ _ _ hsk0, ?_, ?_⟩
      · rw [sp0a rfl, bothCalls_nil_left]
      · intro hdf0 _
        rw [skipDots_of_not_dots _ _ _ (hdf0 cur0 (by simp))] at hsk0
        simp at hsk0
    | false =>
      obtain ⟨hnd0, hN0, hmem0, hsub0, hlen0⟩ := sp0b rfl
      rcases hsk1 : skipDots cur1 rest1 f1 with ⟨c1, r1, fb, q1⟩
      obtain ⟨sp1a, sp1b⟩ := skipDots_spec rest1 cur1 f1 c1 r1 fb q1 hsk1
      cases q1 with
      | true =>
        refine ⟨_, bothLoop_quit1 _ _ _ _ _ _ _ _ _ _ _ _ _ _ _ hsk0 _ _ _ hsk1, ?_, ?_⟩
        · rw [sp1a rfl, bothCalls_nil_right]
        · intro _ hdf1
          rw [skipDots_of_not_dots _ _ _ (hdf1 cur1 (by simp))] at hsk1
          simp at hsk1
      | false =>
        obtain ⟨hnd1, hN1, hmem1, hsub1, hlen1⟩ := sp1b rfl
        have he0 := entry_of_not_dots (hc0 c0 hmem0) hnd0
        have he1 := entry_of_not_dots (hc1 c1 hmem1) hnd1
        obtain ⟨t0, e0, m0, ht0, hte0, htm0, hreb0, htr0⟩ :=
          rebuild_step s0 dirs0 last0 c0 hs0 hd0 hl0 he0
        obtain ⟨t1, e1, m1, ht1, hte1, htm1, hreb1, htr1⟩ :=
          rebuild_step s1 dirs1 last1 c1 hs1 hd1 hl1 he1
        rw [hN0, hN1, htr0, htr1, bothCalls_cons]
        by_cases hend : r0 = [] ∨ r1 = []
        · refine ⟨_, bothLoop_end _ _ _ _ _ _ _ _ _ _ _ _ _ _ _ hsk0 _ _ _ hsk1 _ _ hreb0 hreb1 hend,
            ?_, ?_⟩
          · rcases hend with h0 | h0
            · subst h0
              simp [nonDots, bothCalls_nil_left]
            · subst h0
              simp [nonDots, bothCalls_nil_right]
          · intro hdf0 hdf1
            rw [skipDots_of_not_dots _ _ _ (hdf0 cur0 (by simp))] at hsk0
            rw [skipDots_of_not_dots _ _ _ (hdf1 cur1 (by simp))] at hsk1
            simp only [Prod.mk.injEq, and_true] at hsk0 hsk1
            obtain ⟨h1, h2, _⟩ := hsk0
            obtain ⟨h3, h4, _⟩ := hsk1
            subst h1 h2 h3 h4
            simp only
            rcases rest0 with _ | ⟨n0, r0a⟩ <;> rcases rest1 with _ | ⟨n1, r1a⟩
            · simp
            · simp
            · simp
            · rcases hend with h | h <;> exact absurd h (by simp)
        · simp only [not_or] at hend
          obtain ⟨n0, r0a, hr0⟩ := List.exists_cons_of_ne_nil hend.1
          obtain ⟨n1, r1a, hr1⟩ := List.exists_cons_of_ne_nil hend.2
          subst hr0 hr1
          have hfuel1 : r0a.length < fuel := by
            simp only [List.length_cons] at hlen0
            omega
          obtain ⟨e, hrun, hcalls, hflags⟩ := ih n0 r0a n1 r1a t0 e0 m0 t1 e1 m1 true true
            (foldRet ret (cmp k (plainPath t0 e0 m0) (plainPath t1 e1 m1))) (k + 1) hfuel1
            (fun n hn => hc0 n (List.mem_cons_of_mem _ (hsub0 n hn)))
            (fun n hn => hc1 n (List.mem_cons_of_mem _ (hsub1 n hn))) ht0 hte0 htm0 ht1 hte1 htm1
          refine ⟨_, (bothLoop_step _ _ _ _ _ _ _ _ _ _ _ _ _ _ _ _ hsk0 _ _ _ _ hsk1 _ _
            hreb0 hreb1).trans (by rw [hrun]; rfl), ?_, ?_⟩
          · simp only [hcalls]
          · intro hdf0 hdf1
            rw [skipDots_of_not_dots _ _ _ (hdf0 cur0 (by simp))] at hsk0
            rw [skipDots_of_not_dots _ _ _ (hdf1 cur1 (by simp))] at hsk1
            simp only [Prod.mk.injEq, and_true] at hsk0 hsk1
            obtain ⟨h1, h2, _⟩ := hsk0
            obtain ⟨h3, h4, _⟩ := hsk1
            subst h1 h2 h3 h4
            obtain ⟨g1, g2, g3, g4⟩ := hflags (fun n hn => hdf0 n (by simp [hn]))
              (fun n hn => hdf1 n (by simp [hn]))
            simp only [List.length_cons, Nat.add_lt_add_iff_right, List.getD_cons_succ]
            exact ⟨g1, g2, g3, g4⟩

/-- The result of the loop of dual-wildcard mode does not depend on the fuel,
once the fuel exceeds the number of entries to come in the first listing: the
loop ends before the fuel does. -/
theorem bothLoop_fuel (cmp : Nat → List Char → List Char → FCRET) (fuel1 : Nat) :
    ∀ (fuel2 : Nat) (cur0 : List Char) (rest0 : List (List Char)) (cur1 : List Char)
      (rest1 : List (List Char)) (sz0 sz1 : List Char) (f0 f1 : Bool) (ret : FCRET) (k : Nat),
      rest0.length < fuel1 → rest0.length < fuel2 →
        bothLoop cmp fuel1 cur0 rest0 cur1 rest1 sz0 sz1 f0 f1 ret k =
          bothLoop cmp fuel2 cur0 rest0 cur1 rest1 sz0 sz1 f0 f1 ret k := by
  induction fuel1 with
  | zero =>
    intro fuel2 cur0 rest0 cur1 rest1 sz0 sz1 f0 f1 ret k h
    omega
  | succ fuel1 ih =>
    intro fuel2 cur0 rest0 cur1 rest1 sz0 sz1 f0 f1 ret k h1 h2
    obtain ⟨fuel2, rfl⟩ : ∃ j, fuel2 = j + 1 := ⟨fuel2 - 1, by omega⟩
    rcases hsk0 : skipDots cur0 rest0 f0 with ⟨c0, r0, fa, q0⟩
    obtain ⟨_, sp0b⟩ := skipDots_spec rest0 cur0 f0 c0 r0 fa q0 hsk0
    cases q0 with
    | true =>
      rw [bothLoop_quit0 _ _ _ _ _ _ _ _ _ _ _ _ _ _ _ hsk0,
        bothLoop_quit0 _ _ _ _ _ _ _ _ _ _ _ _ _ _ _ hsk0]
    | false =>
      obtain ⟨_, _, _, _, hlen0⟩ := sp0b rfl
      rcases hsk1 : skipDots cur1 rest1 f1 with ⟨c1, r1, fb, q1⟩
      cases q1 with
      | true =>
        rw [bothLoop_quit1 _ _ _ _ _ _ _ _ _ _ _ _ _ _ _ hsk0 _ _ _ hsk1,
          bothLoop_quit1 _ _ _ _ _ _ _ _ _ _ _ _ _ _ _ hsk0 _ _ _ hsk1]
      | false =>
        cases hp0 : rebuildPath sz0 c0 with
        | none =>
          rw [bothLoop_undefined _ _ _ _ _ _ _ _ _ _ _ _ _ _ _ hsk0 _ _ _ hsk1 (Or.inl hp0),
            bothLoop_undefined _ _ _ _ _ _ _ _ _ _ _ _ _ _ _ hsk0 _ _ _ hsk1 (Or.inl hp0)]
        | some p0 =>
          cases hp1 : rebuildPath sz1 c1 with
          | none =>
            rw [bothLoop_undefined _ _ _ _ _ _ _ _ _ _ _ _ _ _ _ hsk0 _ _ _ hsk1 (Or.inr hp1),
              bothLoop_undefined _ _ _ _ _ _ _ _ _ _ _ _ _ _ _ hsk0 _ _ _ hsk1 (Or.inr hp1)]
          | some p1 =>
            by_cases hend : r0 = [] ∨ r1 = []
            · rw [bothLoop_end _ _ _ _ _ _ _ _ _ _ _ _ _ _ _ hsk0 _ _ _ hsk1 _ _ hp0 hp1 hend,
                bothLoop_end _ _ _ _ _ _ _ _ _ _ _ _ _ _ _ hsk0 _ _ _ hsk1 _ _ hp0 hp1 hend]
            · simp only [not_or] at hend
              obtain ⟨n0, r0a, hr0⟩ := List.exists_cons_of_ne_nil hend.1
              obtain ⟨n1, r1a, hr1⟩ := List.exists_cons_of_ne_nil hend.2
              subst hr0 hr1
              simp only [List.length_cons] at hlen0
              rw [bothLoop_step _ _ _ _ _ _ _ _ _ _ _ _ _ _ _ _ hsk0 _ _ _ _ hsk1 _ _ hp0 hp1,
                bothLoop_step _ _ _ _ _ _ _ _ _ _ _ _ _ _ _ _ hsk0 _ _ _ _ hsk1 _ _ hp0 hp1,
                ih fuel2 _ _ _ _ _ _ _ _ _ _ (by omega) (by omega)]

/-! ## Stripping a path to its root -/

/-- The function `PathRemoveFileSpecW` cuts a UNC path at its last separator. -/
theorem PathRemoveFileSpecW_unc_cut (u d : List Char) (hu : ':' ∉ u)
    (h0 : rd (u ++ '\\' :: d) 0 ≠ '\\') (hd : ∀ c ∈ d, c ≠ '\\' ∧ c ≠ ':') :
    PathRemoveFileSpecW ('\\' :: '\\' :: (u ++ '\\' :: d)) = some ('\\' :: '\\' :: u, true) := by
  have e : '\\' :: '\\' :: (u ++ '\\' :: d) = ['\\', '\\'] ++ (u ++ '\\' :: d) := rfl
  have hrd : rd (['\\', '\\'] ++ (u ++ '\\' :: d)) (2 + u.length) = '\\' := by
    have := rd_append_right (['\\', '\\'] ++ u) ('\\' :: d) 0
    simp only [List.length_append, Nat.add_zero, List.append_assoc] at this
    exact this
  have hs : isStart ['\\', '\\'] = true := rfl
  rw [e, PathRemoveFileSpecW_start _ _ hs h0, fileSpecScan_cut u hu d hd]
  simp only [Option.map_some', List.length_cons, List.length_nil]
  rw [hrd, if_pos (by decide)]
  have e3 : 0 + 1 + 1 + u.length = (['\\', '\\'] ++ u).length := by simp; omega
  rw [e3, ← List.append_assoc, List.take_left]
  rfl

theorem dirText_count (subs : List (List Char)) : subs.length ≤ (dirText subs).count '\\' := by
  induction subs with
  | nil => simp [dirText]
  | cons d ds ih =>
    simp only [dirText, List.length_cons, List.cons_append, List.count_cons_self,
      List.count_append]
    omega

theorem foldCalls_invalid (calls : List Call) :
    foldCalls FCRET_INVALID calls = FCRET_INVALID := by
  induction calls with
  | nil => rfl
  | cons c cs ih =>
    rw [foldCalls_cons]
    cases c.outcome <;> exact ih

theorem foldCalls_different (calls : List Call) :
    foldCalls FCRET_DIFFERENT calls =
      if (calls.any fun c => c.outcome != FCRET_IDENTICAL && c.outcome != FCRET_DIFFERENT) = true
      then FCRET_INVALID else FCRET_DIFFERENT := by
  induction calls with
  | nil => rfl
  | cons c cs ih =>
    rw [foldCalls_cons]
    cases h : c.outcome
    · simpa [foldRet, h] using ih
    · simpa [foldRet, h] using ih
    · simp [foldRet, h, foldCalls_invalid]
    · simp [foldRet, h, foldCalls_invalid]

theorem foldCalls_identical (calls : List Call) :
    foldCalls FCRET_IDENTICAL calls =
      if (calls.any fun c => c.outcome != FCRET_IDENTICAL && c.outcome != FCRET_DIFFERENT) = true
      then FCRET_INVALID
      else if (calls.any fun c => c.outcome == FCRET_DIFFERENT) = true then FCRET_DIFFERENT
      else FCRET_IDENTICAL := by
  induction calls with
  | nil => rfl
  | cons c cs ih =>
    rw [foldCalls_cons]
    cases h : c.outcome
    · simpa [foldRet, h] using ih
    · simp [foldRet, h, foldCalls_different]
    · simp [foldRet, h, foldCalls_invalid]
    · simp [foldRet, h, foldCalls_invalid]

theorem foldCalls_precedence (calls : List Call) :
    foldCalls FCRET_IDENTICAL calls = precedence (calls.map fun c => c.outcome) := by
  have h1 : ∀ (f : FCRET → Bool) (l : List Call),
      (l.map fun c => c.outcome).any f = l.any fun c => f c.outcome := by
    intro f l
    induction l with
    | nil => rfl
    | cons c cs ih => simp only [List.map_cons, List.any_cons, ih]
  rw [foldCalls_identical]
  unfold precedence
  rw [h1, h1]

/-- The precedence of the fold: the outcome folded from `FCRET_IDENTICAL` is
`FCRET_INVALID` exactly when some call returned neither `FCRET_IDENTICAL` nor
`FCRET_DIFFERENT`; it is `FCRET_DIFFERENT` exactly when every call returned
one of these two and some call `FCRET_DIFFERENT`; it is `FCRET_IDENTICAL`
exactly when every call returned `FCRET_IDENTICAL`. -/
theorem foldCalls_law (calls : List Call) :
    (foldCalls FCRET_IDENTICAL calls = FCRET_INVALID ↔
      ∃ c ∈ calls, c.outcome ≠ FCRET_IDENTICAL ∧ c.outcome ≠ FCRET_DIFFERENT) ∧
    (foldCalls FCRET_IDENTICAL calls = FCRET_DIFFERENT ↔
      (∀ c ∈ calls, c.outcome = FCRET_IDENTICAL ∨ c.outcome = FCRET_DIFFERENT) ∧
        ∃ c ∈ calls, c.outcome = FCRET_DIFFERENT) ∧
    (foldCalls FCRET_IDENTICAL calls = FCRET_IDENTICAL ↔
      ∀ c ∈ calls, c.outcome = FCRET_IDENTICAL) := by
  rw [foldCalls_identical]
  by_cases hbad : (calls.any fun c => c.outcome != FCRET_IDENTICAL && c.outcome != FCRET_DIFFERENT)
      = true
  · rw [if_pos hbad]
    have hex : ∃ c ∈ calls, c.outcome ≠ FCRET_IDENTICAL ∧ c.outcome ≠ FCRET_DIFFERENT := by
      simpa using hbad
    obtain ⟨c, hc, h1, h2⟩ := hex
    refine ⟨⟨fun _ => ⟨c, hc, h1, h2⟩, fun _ => rfl⟩, ⟨fun h => absurd h (by decide), ?_⟩,
      ⟨fun h => absurd h (by decide), fun h => absurd (h c hc) h1⟩⟩
    rintro ⟨h, _⟩
    rcases h c hc with h | h
    · exact absurd h h1
    · exact absurd h h2
  · rw [if_neg hbad]
    have hall : ∀ c ∈ calls, c.outcome = FCRET_IDENTICAL ∨ c.outcome = FCRET_DIFFERENT := by
      intro c hc
      by_contra hcon
      simp only [not_or] at hcon
      apply hbad
      simp only [List.any_eq_true, Bool.and_eq_true, bne_iff_ne, ne_eq]
      exact ⟨c, hc, hcon.1, hcon.2⟩
    have hno : ¬ ∃ c ∈ calls, c.outcome ≠ FCRET_IDENTICAL ∧ c.outcome ≠ FCRET_DIFFERENT := by
      rintro ⟨c, hc, h1, h2⟩
      rcases hall c hc with h | h
      · exact h1 h
      · exact h2 h
    by_cases hd : (calls.any fun c => c.outcome == FCRET_DIFFERENT) = true
    · rw [if_pos hd]
      have hex : ∃ c ∈ calls, c.outcome = FCRET_DIFFERENT := by simpa using hd
      obtain ⟨c, hc, h1⟩ := hex
      refine ⟨⟨fun h => absurd h (by decide), fun h => absurd h hno⟩,
        ⟨fun _ => ⟨hall, c, hc, h1⟩, fun _ => rfl⟩,
        ⟨fun h => absurd h (by decide), fun h => ?_⟩⟩
      have := h c hc
      rw [h1] at this
      exact absurd this (by decide)
    · rw [if_neg hd]
      have hnd : ∀ c ∈ calls, c.outcome ≠ FCRET_DIFFERENT := by
        intro c hc h
        apply hd
        simp only [List.any_eq_true, beq_iff_eq]
        exact ⟨c, hc, h⟩
      refine ⟨⟨fun h => absurd h (by decide), fun h => absurd h hno⟩,
        ⟨fun h => absurd h (by decide), fun h => ?_⟩, ⟨fun _ c hc => ?_, fun _ => rfl⟩⟩
      · obtain ⟨_, c, hc, h1⟩ := h
        exact absurd h1 (hnd c hc)
      · rcases hall c hc with h | h
        · exact h
        · exact absurd h (hnd c hc)

/-! ## The two wildcard modes -/

/-- The outcome recorded for a call of single-wildcard mode is the value of
the comparator on the two paths of the call. -/
theorem oneSideLoop_outcomes (cmp : Nat → List Char → List Char → FCRET) (b : Bool)
    (lit : List Char) (entries : List (List Char)) :
    ∀ (sz : List Char) (ret : FCRET) (k : Nat) (res : FCRET × List Call),
      oneSideLoop cmp b lit sz ret k entries = some res →
        ∀ (i : Nat) (c : Call), res.2[i]? = some c → c.outcome = cmp (k + i) c.file0 c.file1 := by
  induction entries with
  | nil =>
    intro sz ret k res h i c hc
    rw [oneSideLoop_nil] at h
    injection h with h
    subst h
    simp at hc
  | cons n rest ih =>
    intro sz ret k res h i c hc
    cases hd : IS_DOTS n with
    | true =>
      rw [oneSideLoop_dots _ _ _ _ _ _ _ _ hd] at h
      exact ih sz ret k res h i c hc
    | false =>
      cases hp : rebuildPath sz n with
      | none =>
        rw [oneSideLoop_undefined _ _ _ _ _ _ _ _ hd hp] at h
        exact absurd h (by simp)
      | some p =>
        rw [oneSideLoop_step _ _ _ _ _ _ _ _ hd p hp] at h
        simp only [Option.map_eq_some'] at h
        obtain ⟨res1, h1, h2⟩ := h
        subst h2
        rcases i with _ | j
        · simp only [List.getElem?_cons_zero, Option.some.injEq] at hc
          subst hc
          rfl
        · simp only [List.getElem?_cons_succ] at hc
          have := ih _ _ _ res1 h1 j c hc
          rw [this]
          congr 1
          omega

/-- The outcome recorded for a call of dual-wildcard mode is the value of the
comparator on the two paths of the call. -/
theorem bothLoop_outcomes (cmp : Nat → List Char → List Char → FCRET) (fuel : Nat) :
    ∀ (cur0 : List Char) (rest0 : List (List Char)) (cur1 : List Char)
      (rest1 : List (List Char)) (sz0 sz1 : List Char) (f0 f1 : Bool) (ret : FCRET) (k : Nat)
      (e : BothEnd),
      bothLoop cmp fuel cur0 rest0 cur1 rest1 sz0 sz1 f0 f1 ret k = some e →
        ∀ (i : Nat) (c : Call), e.calls[i]? = some c →
          c.outcome = cmp (k + i) c.file0 c.file1 := by
  induction fuel with
  | zero =>
    intro cur0 rest0 cur1 rest1 sz0 sz1 f0 f1 ret k e h
    rw [bothLoop] at h
    exact absurd h (by simp)
  | succ fuel ih =>
    intro cur0 rest0 cur1 rest1 sz0 sz1 f0 f1 ret k e h i c hc
    rcases hsk0 : skipDots cur0 rest0 f0 with ⟨c0, r0, fa, q0⟩
    cases q0 with
    | true =>
      rw [bothLoop_quit0 _ _ _ _ _ _ _ _ _ _ _ _ _ _ _ hsk0] at h
      injection h with h
      subst h
      simp at hc
    | false =>
      rcases hsk1 : skipDots cur1 rest1 f1 with ⟨c1, r1, fb, q1⟩
      cases q1 with
      | true =>
        rw [bothLoop_quit1 _ _ _ _ _ _ _ _ _ _ _ _ _ _ _ hsk0 _ _ _ hsk1] at h
        injection h with h
        subst h
        simp at hc
      | false =>
        cases hp0 : rebuildPath sz0 c0 with
        | none =>
          rw [bothLoop_undefined _ _ _ _ _ _ _ _ _ _ _ _ _ _ _ hsk0 _ _ _ hsk1 (Or.inl hp0)] at h
          exact absurd h (by simp)
        | some p0 =>
          cases hp1 : rebuildPath sz1 c1 with
          | none =>
            rw [bothLoop_undefined _ _ _ _ _ _ _ _ _ _ _ _ _ _ _ hsk0 _ _ _ hsk1 (Or.inr hp1)] at h
            exact absurd h (by simp)
          | some p1 =>
            by_cases hend : r0 = [] ∨ r1 = []
            · rw [bothLoop_end _ _ _ _ _ _ _ _ _ _ _ _ _ _ _ hsk0 _ _ _ hsk1 _ _ hp0 hp1 hend] at h
              injection h with h
              subst h
              rcases i with _ | j
              · simp only [List.getElem?_cons_zero, Option.some.injEq] at hc
                subst hc
                rfl
              · simp at hc
            · simp only [not_or] at hend
              obtain ⟨n0, r0a, hr0⟩ := List.exists_cons_of_ne_nil hend.1
              obtain ⟨n1, r1a, hr1⟩ := List.exists_cons_of_ne_nil hend.2
              subst hr0 hr1
              rw [bothLoop_step _ _ _ _ _ _ _ _ _ _ _ _ _ _ _ _ hsk0 _ _ _ _ hsk1 _ _ hp0 hp1] at h
              simp only [Option.map_eq_some'] at h
              obtain ⟨e1, h1, h2⟩ := h
              subst h2
              rcases i with _ | j
              · simp only [List.getElem?_cons_zero, Option.some.injEq] at hc
                subst hc
                rfl
              · simp only [List.getElem?_cons_succ] at hc
                have := ih _ _ _ _ _ _ _ _ _ _ e1 h1 j c hc
                rw [this]
                congr 1
                omega

theorem isPattern_parts {s : List Char} {dirs : List (List Char)} {last : List Char}
    (h : isPattern s dirs last = true) :
    isStart s = true ∧ (∀ d ∈ dirs, isName d = true) ∧ isTail last = true ∧
      (plainPath s dirs last).length < MAX_PATH := by
  simp only [isPattern, Bool.and_eq_true, List.all_eq_true, decide_eq_true_eq] at h
  exact ⟨h.1.1.1, h.1.1.2, h.1.2, h.2⟩

theorem isListing_parts {entries : List (List Char)} (h : isListing entries = true) :
    entries ≠ [] ∧ ∀ n ∈ entries, IS_DOTS n = true ∨ isEntry n = true := by
  simp only [isListing, Bool.and_eq_true, List.all_eq_true, Bool.or_eq_true,
    Bool.not_eq_true', List.isEmpty_eq_false] at h
  exact ⟨h.1, h.2⟩

/-- Single-wildcard mode, whatever the paths: when the function returns, its
calls are those for the entries that are not `.` or `..`, in their order; the
value returned is the fold of their outcomes. -/
theorem oneSide_calls (cmp : Nat → List Char → List Char → FCRET) (file0 file1 : List Char)
    (b : Bool) (entries : List (List Char)) (ret : FCRET) (calls : List Call)
    (h : WildcardFileCompareOneSide cmp file0 file1 b entries = some (ret, calls)) :
    calls.map (fun c => c.entry0) = nonDots entries ∧
      (entries ≠ [] → ret = foldCalls FCRET_IDENTICAL calls) ∧
      ∀ (i : Nat) (c : Call), calls[i]? = some c → c.outcome = cmp i c.file0 c.file1 := by
  rcases entries with _ | ⟨n, rest⟩
  · simp only [WildcardFileCompareOneSide, Option.some.injEq, Prod.mk.injEq] at h
    obtain ⟨_, h2⟩ := h
    subst h2
    exact ⟨rfl, fun h => absurd rfl h, fun i c hc => by simp at hc⟩
  · have key : ∀ lit sz, (if MAX_PATH ≤ sz.length then none
          else oneSideLoop cmp b lit sz FCRET_IDENTICAL 0 (n :: rest)) = some (ret, calls) →
        calls.map (fun c => c.entry0) = nonDots (n :: rest) ∧
          (n :: rest ≠ [] → ret = foldCalls FCRET_IDENTICAL calls) ∧
          ∀ (i : Nat) (c : Call), calls[i]? = some c → c.outcome = cmp i c.file0 c.file1 := by
      intro lit sz h
      split at h
      · exact absurd h (by simp)
      · obtain ⟨a1, a2⟩ := oneSideLoop_calls _ _ _ _ _ _ _ _ h
        have a3 := oneSideLoop_outcomes _ _ _ _ _ _ _ _ h
        exact ⟨a1, fun _ => a2, fun i c hc => by simpa using a3 i c hc⟩
    exact key _ _ h

/-- Single-wildcard mode on a plain pattern and a listing: the function
returns, with the calls for the entries that are not `.` or `..` and the
expected paths. -/
theorem oneSide_plain (cmp : Nat → List Char → List Char → FCRET) (b : Bool)
    (lit s : List Char) (dirs : List (List Char)) (last : List Char)
    (entries : List (List Char)) (hp : isPattern s dirs last = true)
    (hl : isListing entries = true) :
    WildcardFileCompareOneSide cmp (if b = true then lit else plainPath s dirs last)
        (if b = true then plainPath s dirs last else lit) b entries =
      some (foldCalls FCRET_IDENTICAL (oneSideCalls cmp b lit 0 (nonDots entries)
          (plainTrace s dirs (nonDots entries))),
        oneSideCalls cmp b lit 0 (nonDots entries) (plainTrace s dirs (nonDots entries))) := by
  obtain ⟨hs, hd, ht, hlen⟩ := isPattern_parts hp
  obtain ⟨hne, he⟩ := isListing_parts hl
  have hrun := oneSideLoop_plain cmp b lit entries he s dirs last FCRET_IDENTICAL 0 hs hd ht
  rcases entries with _ | ⟨n, rest⟩
  · exact absurd rfl hne
  · cases b
    · simp only [WildcardFileCompareOneSide, Bool.false_eq_true, if_false]
      rw [if_neg (by omega)]
      exact hrun
    · simp only [WildcardFileCompareOneSide, if_true]
      rw [if_neg (by omega)]
      exact hrun

/-- Dual-wildcard mode, whatever the paths: when the function returns, its
calls pair the entries that are not `.` or `..` by position; if nothing is
reported the value returned is the fold of the outcomes, otherwise it is
`FCRET_CANT_FIND`. -/
theorem both_calls (cmp : Nat → List Char → List Char → FCRET) (file0 file1 : List Char)
    (g0 g1 : Bool) (l0 l1 : List (List Char)) (ret : FCRET) (calls : List Call)
    (rep : Option (List Char))
    (h : WildcardFileCompareBoth cmp file0 file1 g0 g1 l0 l1 = some (ret, calls, rep)) :
    calls.map (fun c => (c.entry0, c.entry1)) = (nonDots l0).zip (nonDots l1) ∧
      (l0 ≠ [] → l1 ≠ [] → rep = none → ret = foldCalls FCRET_IDENTICAL calls) ∧
      (rep ≠ none → ret = FCRET_CANT_FIND) ∧
      ∀ (i : Nat) (c : Call), calls[i]? = some c → c.outcome = cmp i c.file0 c.file1 := by
  rcases l0 with _ | ⟨c0, r0⟩
  · simp only [WildcardFileCompareBoth, Option.some.injEq, Prod.mk.injEq] at h
    obtain ⟨_, h2, h3⟩ := h
    subst h2 h3
    exact ⟨by simp [nonDots], fun h => absurd rfl h, fun h => absurd rfl h,
      fun i c hc => by simp at hc⟩
  · rcases l1 with _ | ⟨c1, r1⟩
    · simp only [WildcardFileCompareBoth, Option.some.injEq, Prod.mk.injEq] at h
      obtain ⟨_, h2, h3⟩ := h
      subst h2 h3
      exact ⟨by simp [nonDots], fun _ h => absurd rfl h, fun h => absurd rfl h,
        fun i c hc => by simp at hc⟩
    · simp only [WildcardFileCompareBoth] at h
      split at h
      · exact absurd h (by simp)
      · split at h
        · exact absurd h (by simp)
        · rename_i e he
          obtain ⟨a1, a2⟩ := bothLoop_calls _ _ _ _ _ _ _ _ _ _ _ _ e he
          have a3 := bothLoop_outcomes _ _ _ _ _ _ _ _ _ _ _ _ e he
          split at h
          · simp only [Option.some.injEq, Prod.mk.injEq] at h
            obtain ⟨h1, h2, h3⟩ := h
            subst h1 h2 h3
            exact ⟨a1, fun _ _ h => absurd h (by simp), fun _ => rfl,
              fun i c hc => by simpa using a3 i c hc⟩
          · simp only [Option.some.injEq, Prod.mk.injEq] at h
            obtain ⟨h1, h2, h3⟩ := h
            subst h1 h2 h3
            exact ⟨a1, fun _ _ _ => a2, fun h => absurd rfl h,
              fun i c hc => by simpa using a3 i c hc⟩

/-- Dual-wildcard mode on plain patterns and listings: the function returns;
the state `e` at `quit` has the calls that pair the entries that are not `.`
or `..` by position, with the expected paths, and the fold of their outcomes;
for listings without `.` and `..` its flags tell which listing is longer. -/
theorem both_plain (cmp : Nat → List Char → List Char → FCRET) (g0 g1 : Bool)
    (s0 : List Char) (dirs0 : List (List Char)) (last0 : List Char)
    (s1 : List Char) (dirs1 : List (List Char)) (last1 : List Char)
    (l0 l1 : List (List Char)) (hp0 : isPattern s0 dirs0 last0 = true)
    (hp1 : isPattern s1 dirs1 last1 = true) (hl0 : isListing l0 = true)
    (hl1 : isListing l1 = true) :
    ∃ e : BothEnd,
      WildcardFileCompareBoth cmp (plainPath s0 dirs0 last0) (plainPath s1 dirs1 last1)
          g0 g1 l0 l1 =
        some (if e.f0 ≠ e.f1 ∧ IsExtOnly (plainPath s0 dirs0 last0) = true ∧
            IsExtOnly (plainPath s1 dirs1 last1) = true then
          (FCRET_CANT_FIND, e.calls,
            some (if e.f0 = true then reportName e.find0 (plainPath s1 dirs1 last1)
              else reportName e.find1 (plainPath s0 dirs0 last0)))
          else (e.ret, e.calls, none)) ∧
      e.calls = bothCalls cmp 0 (nonDots l0) (nonDots l1) (plainTrace s0 dirs0 (nonDots l0))
        (plainTrace s1 dirs1 (nonDots l1)) ∧
      e.ret = foldCalls FCRET_IDENTICAL e.calls ∧
      ((∀ n ∈ l0, IS_DOTS n = false) → (∀ n ∈ l1, IS_DOTS n = false) →
        e.f0 = decide (l1.length < l0.length) ∧ e.f1 = decide (l0.length < l1.length) ∧
        (l1.length < l0.length → e.find0 = l0.getD l1.length []) ∧
        (l0.length < l1.length → e.find1 = l1.getD l0.length [])) := by
  obtain ⟨hs0, hd0, ht0, hlen0⟩ := isPattern_parts hp0
  obtain ⟨hs1, hd1, ht1, hlen1⟩ := isPattern_parts hp1
  obtain ⟨hne0, he0⟩ := isListing_parts hl0
  obtain ⟨hne1, he1⟩ := isListing_parts hl1
  rcases l0 with _ | ⟨c0, r0⟩
  · exact absurd rfl hne0
  rcases l1 with _ | ⟨c1, r1⟩
  · exact absurd rfl hne1
  obtain ⟨e, hrun, hcalls, hflags⟩ := bothLoop_plain cmp (r0.length + 1) c0 r0 c1 r1
    s0 dirs0 last0 s1 dirs1 last1 g0 g1 FCRET_IDENTICAL 0 (Nat.lt_succ_self _) he0 he1
    hs0 hd0 ht0 hs1 hd1 ht1
  have hret := (bothLoop_calls _ _ _ _ _ _ _ _ _ _ _ _ e hrun).2
  refine ⟨e, ?_, hcalls, hret, ?_⟩
  · simp only [WildcardFileCompareBoth]
    rw [if_neg (by omega), hrun]
    simp only
    split <;> rfl
  · intro hdf0 hdf1
    obtain ⟨g1, g2, g3, g4⟩ := hflags hdf0 hdf1
    simp only [List.length_cons, Nat.add_lt_add_iff_right, List.getD_cons_succ]
    exact ⟨g1, g2, g3, g4⟩

/-! ## The expected paths -/

theorem plainTrace_overflow (s : List Char) (dirs : List (List Char)) (n : List Char)
    (ys : List (List Char)) (h : MAX_PATH ≤ (plainPath s dirs n).length) :
    plainTrace s dirs (n :: ys) = [] :: plainTrace [] [] ys := by
  simp only [plainTrace, if_pos h]

theorem plainTrace_fit (s : List Char) (dirs : List (List Char)) (n : List Char)
    (ys : List (List Char)) (h : (plainPath s dirs n).length < MAX_PATH) :
    plainTrace s dirs (n :: ys) = plainPath s dirs n :: plainTrace s dirs ys := by
  simp only [plainTrace, if_neg (by omega : ¬ MAX_PATH ≤ (plainPath s dirs n).length)]

/-- As long as the paths fit, they are the plain paths of the entry names. -/
theorem plainTrace_fits (s : List Char) (dirs : List (List Char)) (xs zs : List (List Char))
    (h : ∀ x ∈ xs, (plainPath s dirs x).length < MAX_PATH) :
    plainTrace s dirs (xs ++ zs) = xs.map (plainPath s dirs) ++ plainTrace s dirs zs := by
  induction xs with
  | nil => rfl
  | cons x xs ih =>
    rw [List.cons_append, plainTrace_fit s dirs x _ (h x (by simp)),
      ih fun y hy => h y (by simp [hy])]
    rfl

/-- Without a directory the paths are the entry names themselves. -/
theorem plainTrace_bare (ys : List (List Char)) (h : ∀ y ∈ ys, y.length < MAX_PATH) :
    plainTrace [] [] ys = ys := by
  have hp : ∀ y : List Char, plainPath [] [] y = y := by
    intro y
    simp [plainPath, segText]
  have := plainTrace_fits [] [] ys [] (by
    intro x hx
    rw [hp]
    exact h x hx)
  rw [List.append_nil] at this
  rw [this]
  have hf : plainPath [] [] = id := funext hp
  simp [plainTrace, hf]

/-! ## The name reported after `quit` -/

theorem findExtScan_dot (lp : Option Nat) (i : Nat) (rest : List Char) :
    findExtScan lp i ('.' :: rest) = findExtScan (some i) (i + 1) rest := by
  simp [findExtScan]

theorem findExtScan_run (n : List Char) (hn : ∀ c ∈ n, c ≠ '\\' ∧ c ≠ ' ' ∧ c ≠ '.') :
    ∀ (lp : Option Nat) (i : Nat) (rest : List Char),
      findExtScan lp i (n ++ rest) = findExtScan lp (i + n.length) rest := by
  induction n with
  | nil => intro lp i rest; rfl
  | cons c m ih =>
    intro lp i rest
    have hc := hn c (by simp)
    rw [List.cons_append, findExtScan, if_neg (by simp [hc.1, hc.2.1]), if_neg hc.2.2,
      ih fun x hx => hn x (by simp [hx])]
    simp only [List.length_cons]
    congr 1
    omega

theorem PathFindExtensionW_stem (stem : List Char)
    (hs : ∀ c ∈ stem, c ≠ '\\' ∧ c ≠ ' ' ∧ c ≠ '.') :
    PathFindExtensionW stem = stem.length := by
  have := findExtScan_run stem hs none 0 []
  rw [List.append_nil] at this
  unfold PathFindExtensionW
  rw [this]
  simp [findExtScan]

theorem PathFindExtensionW_ext (stem x : List Char)
    (hs : ∀ c ∈ stem, c ≠ '\\' ∧ c ≠ ' ' ∧ c ≠ '.')
    (hx : ∀ c ∈ x, c ≠ '\\' ∧ c ≠ ' ' ∧ c ≠ '.') :
    PathFindExtensionW (stem ++ '.' :: x) = stem.length := by
  have h2 := findExtScan_run x hx (some (0 + stem.length)) (0 + stem.length + 1) []
  rw [List.append_nil] at h2
  unfold PathFindExtensionW
  rw [findExtScan_run stem hs, findExtScan_dot, h2]
  simp [findExtScan]

/-- The name reported for an unmatched entry `stem.x` against the pattern
`*.e`: the stem with the extension of the pattern if that fits, the stem alone
if it does not. -/
theorem reportName_eq (stem x e : List Char)
    (hs : ∀ c ∈ stem, c ≠ '\\' ∧ c ≠ ' ' ∧ c ≠ '.')
    (hx : ∀ c ∈ x, c ≠ '\\' ∧ c ≠ ' ' ∧ c ≠ '.')
    (he : ∀ c ∈ e, c ≠ '\\' ∧ c ≠ ' ' ∧ c ≠ '.') :
    reportName (stem ++ '.' :: x) ('*' :: '.' :: e) =
      if MAX_PATH ≤ stem.length + (e.length + 1) then stem else stem ++ '.' :: e := by
  have h1 := PathFindExtensionW_ext stem x hs hx
  have h2 : PathFindExtensionW ('*' :: '.' :: e) = 1 :=
    PathFindExtensionW_ext ['*'] e (by simp) he
  have h3 := PathFindExtensionW_stem stem hs
  unfold reportName
  rw [h1, h2, List.take_left]
  simp only [List.drop_succ_cons, List.drop_zero]
  unfold PathAddExtensionW
  rw [h3, rd_of_length_le stem stem.length (le_refl _), if_neg (by simp)]
  simp only [List.length_cons]
  split <;> rfl

theorem nonDots_self (l : List (List Char)) (h : ∀ n ∈ l, IS_DOTS n = false) : nonDots l = l := by
  unfold nonDots
  rw [List.filter_eq_self]
  intro n hn
  simp [h n hn]

theorem mem_nonDots (l : List (List Char)) (n : List Char) :
    n ∈ nonDots l ↔ n ∈ l ∧ n ≠ ['.'] ∧ n ≠ ['.', '.'] := by
  unfold nonDots
  rw [List.mem_filter]
  have : (!IS_DOTS n) = true ↔ n ≠ ['.'] ∧ n ≠ ['.', '.'] := by
    rw [Bool.not_eq_true', ← not_or, ← IS_DOTS_iff]
    simp
  rw [this]

/-- Dual-wildcard mode on plain patterns and listings without `.` and `..`:
the result in terms of the lengths of the two listings. -/
theorem both_dotfree (cmp : Nat → List Char → List Char → FCRET) (g0 g1 : Bool)
    (s0 : List Char) (dirs0 : List (List Char)) (last0 : List Char)
    (s1 : List Char) (dirs1 : List (List Char)) (last1 : List Char)
    (l0 l1 : List (List Char)) (hp0 : isPattern s0 dirs0 last0 = true)
    (hp1 : isPattern s1 dirs1 last1 = true) (hl0 : isListing l0 = true)
    (hl1 : isListing l1 = true) (hdf0 : ∀ n ∈ l0, IS_DOTS n = false)
    (hdf1 : ∀ n ∈ l1, IS_DOTS n = false) :
    WildcardFileCompareBoth cmp (plainPath s0 dirs0 last0) (plainPath s1 dirs1 last1)
        g0 g1 l0 l1 =
      some (if l0.length ≠ l1.length ∧ IsExtOnly (plainPath s0 dirs0 last0) = true ∧
          IsExtOnly (plainPath s1 dirs1 last1) = true then
        (FCRET_CANT_FIND,
          bothCalls cmp 0 l0 l1 (plainTrace s0 dirs0 l0) (plainTrace s1 dirs1 l1),
          some (if l1.length < l0.length then
              reportName (l0.getD l1.length []) (plainPath s1 dirs1 last1)
            else reportName (l1.getD l0.length []) (plainPath s0 dirs0 last0)))
        else
          (precedence ((bothCalls cmp 0 l0 l1 (plainTrace s0 dirs0 l0)
              (plainTrace s1 dirs1 l1)).map fun c => c.outcome),
            bothCalls cmp 0 l0 l1 (plainTrace s0 dirs0 l0) (plainTrace s1 dirs1 l1), none)) := by
  obtain ⟨e, hrun, hcalls, hret, hflags⟩ :=
    both_plain cmp g0 g1 s0 dirs0 last0 s1 dirs1 last1 l0 l1 hp0 hp1 hl0 hl1
  obtain ⟨f0, f1, a0, a1⟩ := hflags hdf0 hdf1
  rw [nonDots_self l0 hdf0, nonDots_self l1 hdf1] at hcalls
  rw [hrun, hret, foldCalls_precedence, hcalls, f0, f1]
  congr 1
  rcases Nat.lt_trichotomy l0.length l1.length with h | h | h
  · have hn : ¬ l1.length < l0.length := by omega
    have hne : l0.length ≠ l1.length := by omega
    simp only [h, hn, hne, decide_True, decide_False, ne_eq, not_false_eq_true, true_and,
      Bool.false_eq_true, if_false, a1 h, Bool.false_eq_true, not_true_eq_false]
  · have hn1 : ¬ l1.length < l0.length := by omega
    have hn0 : ¬ l0.length < l1.length := by omega
    simp [h, hn0, hn1]
  · have hn : ¬ l0.length < l1.length := by omega
    have hne : l0.length ≠ l1.length := by omega
    simp only [h, hn, hne, decide_True, decide_False, ne_eq, not_false_eq_true, true_and,
      if_true, a0 h]
    simp

/-! ## Long names -/

theorem isName_of_head (c : Char) (m : List Char) (hc : c ≠ '.')
    (h : ∀ x ∈ c :: m, x ≠ '\\' ∧ x ≠ ':') : isName (c :: m) = true := by
  have hall : ((c :: m).all fun c => c != '\\' && c != ':') = true := by
    rw [List.all_eq_true]
    intro x hx
    have := h x hx
    simp [this.1, this.2]
  unfold isName
  split
  · rename_i heq
    exact absurd heq (by simp)
  · rename_i heq
    injection heq with h1 _
    exact absurd h1 hc
  · rename_i heq
    injection heq with h1 _
    exact absurd h1 hc
  · exact hall

theorem isTail_of_chars (t : List Char) (h : ∀ x ∈ t, x ≠ '\\' ∧ x ≠ ':' ∧ x ≠ NUL) :
    isTail t = true := by
  unfold isTail
  rw [List.all_eq_true]
  intro x hx
  have := h x hx
  simp [this.1, this.2.1, this.2.2]

theorem isEntry_of_head (c : Char) (m : List Char) (hc : c ≠ '.')
    (h : ∀ x ∈ c :: m, x ≠ '\\' ∧ x ≠ ':' ∧ x ≠ NUL) (hlen : (c :: m).length < MAX_PATH) :
    isEntry (c :: m) = true := by
  unfold isEntry
  rw [isName_of_head c m hc fun x hx => ⟨(h x hx).1, (h x hx).2.1⟩, isTail_of_chars _ h]
  simpa using hlen

theorem isListing_pair (n m : List Char) (hn : isEntry n = true) (hm : isEntry m = true) :
    isListing [n, m] = true := by
  simp [isListing, hn, hm]

theorem plainDir_single (d : List Char) : plainDir [] [d] = d := by
  simp [plainDir, segText]

theorem plainPath_single (d t : List Char) : plainPath [] [d] t = d ++ '\\' :: t := by
  simp [plainPath, segText]

theorem long_name : isEntry (List.replicate 100 'b') = true := by
  rw [List.replicate_succ 'b' 99]
  apply isEntry_of_head
  · decide
  · intro x hx
    rw [← List.replicate_succ] at hx
    rw [List.eq_of_mem_replicate hx]
    decide
  · simp only [List.length_cons, List.length_replicate]
    decide

theorem long_pattern : isPattern [] [List.replicate 200 'a'] ['*'] = true := by
  have h1 : isName (List.replicate 200 'a') = true := isName_replicate_a 199
  simp only [isPattern, isStart, List.all_cons, List.all_nil, h1, Bool.and_true, Bool.true_and,
    Bool.and_eq_true, decide_eq_true_eq]
  refine ⟨by decide, ?_⟩
  rw [plainPath_single, List.length_append, List.length_replicate]
  decide

theorem long_listing : isListing [List.replicate 100 'b', ['y']] = true :=
  isListing_pair _ _ long_name (by decide)

theorem long_nonDots :
    nonDots [List.replicate 100 'b', ['y']] = [List.replicate 100 'b', ['y']] := by
  apply nonDots_self
  intro n hn
  simp only [List.mem_cons, List.mem_singleton, List.not_mem_nil, or_false] at hn
  rcases hn with h | h
  · rw [h]
    exact isName_not_dots (isEntry_name long_name)
  · rw [h]
    rfl

theorem long_overflow :
    MAX_PATH ≤ (plainPath [] [List.replicate 200 'a'] (List.replicate 100 'b')).length := by
  rw [plainPath_single, List.length_append, List.length_replicate, List.length_cons,
    List.length_replicate]
  decide

theorem long_trace :
    plainTrace [] [List.replicate 200 'a'] [List.replicate 100 'b', ['y']] = [[], ['y']] := by
  rw [plainTrace_overflow _ _ _ _ long_overflow, plainTrace_bare _ (by
    intro y hy
    simp only [List.mem_singleton] at hy
    rw [hy]
    decide)]

theorem long_plainPath :
    plainPath [] [List.replicate 200 'a'] ['*'] = List.replicate 200 'a' ++ "\\*".toList :=
  plainPath_single _ _

/-- Dual-wildcard mode on plain patterns and listings returns, with the calls
that pair the entries that are not `.` or `..` by position. -/
theorem both_plain_some (cmp : Nat → List Char → List Char → FCRET) (g0 g1 : Bool)
    (s0 : List Char) (dirs0 : List (List Char)) (last0 : List Char)
    (s1 : List Char) (dirs1 : List (List Char)) (last1 : List Char)
    (l0 l1 : List (List Char)) (hp0 : isPattern s0 dirs0 last0 = true)
    (hp1 : isPattern s1 dirs1 last1 = true) (hl0 : isListing l0 = true)
    (hl1 : isListing l1 = true) :
    ∃ ret rep, WildcardFileCompareBoth cmp (plainPath s0 dirs0 last0) (plainPath s1 dirs1 last1)
        g0 g1 l0 l1 =
      some (ret, bothCalls cmp 0 (nonDots l0) (nonDots l1) (plainTrace s0 dirs0 (nonDots l0))
        (plainTrace s1 dirs1 (nonDots l1)), rep) ∧
      (rep = none → ret = precedence ((bothCalls cmp 0 (nonDots l0) (nonDots l1)
        (plainTrace s0 dirs0 (nonDots l0)) (plainTrace s1 dirs1 (nonDots l1))).map
          fun c => c.outcome)) ∧
      (rep ≠ none → ret = FCRET_CANT_FIND) := by
  obtain ⟨e, hrun, hcalls, hret, _⟩ :=
    both_plain cmp g0 g1 s0 dirs0 last0 s1 dirs1 last1 l0 l1 hp0 hp1 hl0 hl1
  rw [hret, foldCalls_precedence, hcalls] at hrun
  split at hrun
  · exact ⟨_, _, hrun, fun h => absurd h (by simp), fun _ => rfl⟩
  · exact ⟨_, _, hrun, fun _ => rfl, fun h => absurd rfl h⟩

/-- Dual-wildcard mode on plain patterns and listings: the value returned is the
precedence of the outcomes unless a name is reported as missing, which is
done for two extension-only patterns only; the value is then
`FCRET_CANT_FIND`. -/
theorem both_plain_report (cmp : Nat → List Char → List Char → FCRET) (g0 g1 : Bool)
    (s0 : List Char) (dirs0 : List (List Char)) (last0 : List Char)
    (s1 : List Char) (dirs1 : List (List Char)) (last1 : List Char)
    (l0 l1 : List (List Char)) (hp0 : isPattern s0 dirs0 last0 = true)
    (hp1 : isPattern s1 dirs1 last1 = true) (hl0 : isListing l0 = true)
    (hl1 : isListing l1 = true) :
    ∃ ret rep, WildcardFileCompareBoth cmp (plainPath s0 dirs0 last0) (plainPath s1 dirs1 last1)
        g0 g1 l0 l1 =
      some (ret, bothCalls cmp 0 (nonDots l0) (nonDots l1) (plainTrace s0 dirs0 (nonDots l0))
        (plainTrace s1 dirs1 (nonDots l1)), rep) ∧
      (rep = none → ret = precedence ((bothCalls cmp 0 (nonDots l0) (nonDots l1)
        (plainTrace s0 dirs0 (nonDots l0)) (plainTrace s1 dirs1 (nonDots l1))).map
          fun c => c.outcome)) ∧
      (rep ≠ none → ret = FCRET_CANT_FIND ∧ IsExtOnly (plainPath s0 dirs0 last0) = true ∧
        IsExtOnly (plainPath s1 dirs1 last1) = true) := by
  obtain ⟨e, hrun, hcalls, hret, _⟩ :=
    both_plain cmp g0 g1 s0 dirs0 last0 s1 dirs1 last1 l0 l1 hp0 hp1 hl0 hl1
  rw [hret, foldCalls_precedence, hcalls] at hrun
  split at hrun
  · rename_i hc
    exact ⟨_, _, hrun, fun h => absurd h (by simp), fun _ => ⟨rfl, hc.2.1, hc.2.2⟩⟩
  · exact ⟨_, _, hrun, fun _ => rfl, fun h => absurd rfl h⟩

/-- The function `PathAppendW` reports failure on the directory of a plain
path exactly when the directory followed by the entry name does not fit. -/
theorem append_fails_iff (s : List Char) (dirs : List (List Char)) (n : List Char)
    (hs : isStart s = true) (hd : ∀ d ∈ dirs, isName d = true) (hn : isEntry n = true) :
    PathAppendW (plainDir s dirs) n = some ([], false) ↔
      MAX_PATH ≤ (plainPath s dirs n).length := by
  rw [append_plain s dirs n hs hd hn]
  by_cases h : MAX_PATH ≤ (plainPath s dirs n).length
  · simp [h]
  · simp [h]

/-- The expected paths around an entry whose path does not fit: the plain
paths before it, the empty path for it, the bare names after it. -/
theorem plainTrace_failure (s : List Char) (dirs : List (List Char)) (xs : List (List Char))
    (n : List Char) (ys : List (List Char))
    (hx : ∀ x ∈ xs, (plainPath s dirs x).length < MAX_PATH)
    (hn : MAX_PATH ≤ (plainPath s dirs n).length) (hy : ∀ y ∈ ys, y.length < MAX_PATH) :
    plainTrace s dirs (xs ++ n :: ys) = xs.map (plainPath s dirs) ++ [] :: ys := by
  rw [plainTrace_fits s dirs xs _ hx, plainTrace_overflow s dirs n ys hn, plainTrace_bare ys hy]

/-! ## The claims on the wildcard loops -/

/-- Claim C16 (as stated, refuted): the pattern is a directory of 200 letters
`a` followed by `\*`, the listing has an entry of 100 letters `b` and the entry
`y`. Appending the first entry to the directory reports failure and leaves an
empty path; the comparator is invoked for that entry all the same, with the
empty path, and for the entry after it, and the result is `FCRET_IDENTICAL`. -/
theorem rebuild_failure_is_ignored :
    PathAppendW (List.replicate 200 'a') (List.replicate 100 'b') = some ([], false) ∧
      WildcardFileCompareOneSide (fun _ _ _ => FCRET_IDENTICAL)
          (List.replicate 200 'a' ++ "\\*".toList) ['x'] false
          [List.replicate 100 'b', ['y']] =
        some (FCRET_IDENTICAL,
          [⟨List.replicate 100 'b', [], [], ['x'], FCRET_IDENTICAL⟩,
            ⟨['y'], [], ['y'], ['x'], FCRET_IDENTICAL⟩]) := by
  obtain ⟨hs, hd, _, _⟩ := isPattern_parts long_pattern
  constructor
  · have h := (append_fails_iff [] [List.replicate 200 'a'] _ hs hd long_name).mpr long_overflow
    rw [plainDir_single] at h
    exact h
  · have h := oneSide_plain (fun _ _ _ => FCRET_IDENTICAL) false ['x'] []
      [List.replicate 200 'a'] ['*'] _ long_pattern long_listing
    simp only [Bool.false_eq_true, if_false] at h
    rw [long_plainPath, long_nonDots, long_trace] at h
    exact h

/-- Claim C16 (amended): a failed rebuild does not abort the loops. For plain
patterns and listings, single-wildcard mode returns the precedence of the
outcomes of its calls, one for every entry that is not `.` or `..`;
dual-wildcard mode makes one call for every pair of such entries and returns
the precedence of their outcomes, unless it reports a name as missing, which
it does for two extension-only patterns only: it then returns
`FCRET_CANT_FIND`. The paths passed are the expected paths: `PathAppendW`
reports failure exactly when the directory followed by the entry name does
not fit `MAX_PATH`, the path passed for that entry is then empty, and the
paths for the entries after it are the bare entry names. -/
theorem failed_rebuild_does_not_abort (cmp : Nat → List Char → List Char → FCRET)
    (b g0 g1 : Bool) (lit : List Char)
    (s0 : List Char) (dirs0 : List (List Char)) (last0 : List Char)
    (s1 : List Char) (dirs1 : List (List Char)) (last1 : List Char)
    (l0 l1 : List (List Char)) (hp0 : isPattern s0 dirs0 last0 = true)
    (hp1 : isPattern s1 dirs1 last1 = true) (hl0 : isListing l0 = true)
    (hl1 : isListing l1 = true) :
    (WildcardFileCompareOneSide cmp (if b = true then lit else plainPath s0 dirs0 last0)
          (if b = true then plainPath s0 dirs0 last0 else lit) b l0 =
        some (precedence ((oneSideCalls cmp b lit 0 (nonDots l0)
            (plainTrace s0 dirs0 (nonDots l0))).map fun c => c.outcome),
          oneSideCalls cmp b lit 0 (nonDots l0) (plainTrace s0 dirs0 (nonDots l0))) ∧
      (oneSideCalls cmp b lit 0 (nonDots l0) (plainTrace s0 dirs0 (nonDots l0))).map
          (fun c => c.entry0) = nonDots l0) ∧
    (∃ ret rep, WildcardFileCompareBoth cmp (plainPath s0 dirs0 last0)
          (plainPath s1 dirs1 last1) g0 g1 l0 l1 =
        some (ret, bothCalls cmp 0 (nonDots l0) (nonDots l1) (plainTrace s0 dirs0 (nonDots l0))
          (plainTrace s1 dirs1 (nonDots l1)), rep) ∧
      (rep = none → ret = precedence ((bothCalls cmp 0 (nonDots l0) (nonDots l1)
        (plainTrace s0 dirs0 (nonDots l0)) (plainTrace s1 dirs1 (nonDots l1))).map
          fun c => c.outcome)) ∧
      (rep ≠ none → ret = FCRET_CANT_FIND ∧ IsExtOnly (plainPath s0 dirs0 last0) = true ∧
        IsExtOnly (plainPath s1 dirs1 last1) = true) ∧
      (bothCalls cmp 0 (nonDots l0) (nonDots l1) (plainTrace s0 dirs0 (nonDots l0))
          (plainTrace s1 dirs1 (nonDots l1))).map (fun c => (c.entry0, c.entry1)) =
        (nonDots l0).zip (nonDots l1)) ∧
    (∀ n, isEntry n = true →
      (PathAppendW (plainDir s0 dirs0) n = some ([], false) ↔
        MAX_PATH ≤ (plainPath s0 dirs0 n).length)) ∧
    (∀ (xs : List (List Char)) (n : List Char) (ys : List (List Char)),
      (∀ x ∈ xs, (plainPath s0 dirs0 x).length < MAX_PATH) →
      MAX_PATH ≤ (plainPath s0 dirs0 n).length → (∀ y ∈ ys, y.length < MAX_PATH) →
        plainTrace s0 dirs0 (xs ++ n :: ys) = xs.map (plainPath s0 dirs0) ++ [] :: ys) := by
  obtain ⟨hs, hd, _, _⟩ := isPattern_parts hp0
  have h1 := oneSide_plain cmp b lit s0 dirs0 last0 l0 hp0 hl0
  obtain ⟨ret, rep, h2, h3, h4⟩ :=
    both_plain_report cmp g0 g1 s0 dirs0 last0 s1 dirs1 last1 l0 l1 hp0 hp1 hl0 hl1
  refine ⟨⟨?_, (oneSide_calls _ _ _ _ _ _ _ h1).1⟩, ⟨ret, rep, h2, h3, h4,
    (both_calls _ _ _ _ _ _ _ _ _ _ h2).1⟩, fun n hn => append_fails_iff s0 dirs0 n hs hd hn,
    fun xs n ys hx hn hy => plainTrace_failure s0 dirs0 xs n ys hx hn hy⟩
  rw [h1, foldCalls_precedence]

/-- Claim C16, an instance: for the pattern of 200 letters `a` followed by `\*`
and the entries of 100 letters `b` and `y`, single-wildcard mode calls the
comparator with the empty path for the first entry and with the bare name `y`
for the second. -/
theorem failed_rebuild_does_not_abort_witness :
    isPattern [] [List.replicate 200 'a'] ['*'] = true ∧
      isListing [List.replicate 100 'b', ['y']] = true ∧
      WildcardFileCompareOneSide (fun _ _ _ => FCRET_DIFFERENT)
          (plainPath [] [List.replicate 200 'a'] ['*']) ['x'] false
          [List.replicate 100 'b', ['y']] =
        some (FCRET_DIFFERENT,
          [⟨List.replicate 100 'b', [], [], ['x'], FCRET_DIFFERENT⟩,
            ⟨['y'], [], ['y'], ['x'], FCRET_DIFFERENT⟩]) :=
  ⟨long_pattern, long_listing, by
    have h := (failed_rebuild_does_not_abort (fun _ _ _ => FCRET_DIFFERENT) false false false
      ['x'] [] [List.replicate 200 'a'] ['*'] [] [List.replicate 200 'a'] ['*']
      [List.replicate 100 'b', ['y']] [List.replicate 100 'b', ['y']]
      long_pattern long_pattern long_listing long_listing).1.1
    simp only [Bool.false_eq_true, if_false] at h
    rw [long_nonDots, long_trace] at h
    exact h⟩

/-- When the loop of `PathStripToRootW` succeeds, the text it leaves is a root
and an initial part of the path. -/
theorem stripLoop_spec (fuel : Nat) :
    ∀ (p stale r : List Char), stripLoop fuel p stale = some (r, true) →
      PathIsRootW r = true ∧ r <+: p := by
  induction fuel with
  | zero =>
    intro p stale r h
    simp [stripLoop] at h
  | succ fuel ih =>
    intro p stale r h
    rw [stripLoop] at h
    split at h
    · rename_i hroot
      simp only [Option.some.injEq, Prod.mk.injEq, and_true] at h
      subst h
      exact ⟨hroot, List.prefix_refl _⟩
    · split at h
      · exact absurd h (by simp)
      · rename_i p1 stale1 m hrem
        split at h
        · obtain ⟨h1, h2⟩ := ih p1 stale1 r h
          exact ⟨h1, h2.trans (PathRemoveFileSpecBuf_initial p stale p1 stale1 m hrem)⟩
        · simp at h

/-! ## The claims on roots, on removing segments and on buffer bounds -/

/-- Claim C12 (violated by the code): for `dir` of 259 letters `a`, shorter than
`MAX_PATH`, and `file = x`, `combine` copies `dir` to its working buffer
unchanged and calls `add_trailing_separator` on it, which returns the 259
letters followed by a separator: a text of length `MAX_PATH`, which does not
fit the buffer of `MAX_PATH` code units with its terminator. -/
theorem add_trailing_separator_fills_buffer :
    (List.replicate 259 'a').length < MAX_PATH ∧
      PathIsRelativeW ['x'] = true ∧
      lstrcpynW (List.replicate 259 'a') MAX_PATH = List.replicate 259 'a' ∧
      PathAddBackslashW (List.replicate 259 'a') = some (List.replicate 259 'a' ++ ['\\']) ∧
      (List.replicate 259 'a' ++ ['\\']).length = MAX_PATH ∧
      PathCombineW (List.replicate 259 'a') ['x'] = some none := by
  have hlen : (List.replicate 259 'a').length = 259 := List.length_replicate 259 'a'
  have hlt : (List.replicate 259 'a').length < MAX_PATH := by rw [hlen]; decide
  have hne : List.replicate 259 'a' ≠ [] := by
    intro h
    have := congrArg List.length h
    rw [hlen] at this
    exact absurd this (by decide)
  have hlast : (List.replicate 259 'a').getLast? ≠ some '\\' := by
    intro h
    have := List.eq_of_mem_replicate (List.mem_of_getLast?_eq_some h)
    exact absurd this (by decide)
  have hes : ensureSep (List.replicate 259 'a') = List.replicate 259 'a' ++ ['\\'] := by
    unfold ensureSep
    rw [if_neg (by simp only [not_or]; exact ⟨hne, hlast⟩)]
  refine ⟨hlt, by decide, lstrcpynW_of_lt _ hlt, ?_, ?_, ?_⟩
  · rw [PathAddBackslashW_eq _ hlt, hes]
  · rw [List.length_append, hlen]
    rfl
  · rw [combine_join_eq _ ['x'] hne (by simp) (by decide), hes, if_pos]
    simp only [List.length_append, hlen, List.length_singleton]
    decide

/-- Claim C17 (as stated, refuted): `\\server\share` is a root for `is_root`,
yet `remove_last_segment` cuts it to `\\server` and reports a change. -/
theorem remove_last_segment_cuts_unc_root :
    PathIsRootW ("\\\\server\\share".toList) = true ∧
      PathRemoveFileSpecW ("\\\\server\\share".toList) = some ("\\\\server".toList, true) := by
  decide

/-- Claim C17 (amended): for every path `p` that does not end in a colon,
`remove_last_segment` returns a prefix `q` of `p` and a flag that is true
exactly when `q` differs from `p`; the roots `\` and `X:\` (`X` neither
separator nor colon) are returned unchanged with the flag false; a UNC root
`\\server\share` (no separator or colon in the two names, the server name not
empty) is cut to `\\server` with the flag true. -/
theorem remove_last_segment_spec (p : List Char) (hp : p.getLast? ≠ some ':') :
    ∃ q changed, PathRemoveFileSpecW p = some (q, changed) ∧ q <+: p ∧
      (changed = true ↔ q ≠ p) ∧
      ((p = ['\\'] ∨ ∃ X, X ≠ '\\' ∧ X ≠ ':' ∧ p = [X, ':', '\\']) → changed = false) ∧
      ∀ server share : List Char, server ≠ [] → (∀ c ∈ server, c ≠ '\\' ∧ c ≠ ':') →
        (∀ c ∈ share, c ≠ '\\' ∧ c ≠ ':') → p = '\\' :: '\\' :: (server ++ '\\' :: share) →
          q = '\\' :: '\\' :: server ∧ changed = true := by
  have hsome := PathRemoveFileSpecW_defined p hp
  obtain ⟨⟨q, changed⟩, hq⟩ := Option.isSome_iff_exists.mp hsome
  obtain ⟨hpre, hiff⟩ := PathRemoveFileSpecW_initial p q changed hq
  refine ⟨q, changed, hq, hpre, hiff, ?_, ?_⟩
  · rintro (h | ⟨X, h1, h2, h⟩)
    · subst h
      rw [PathRemoveFileSpecW_sep] at hq
      simp only [Option.some.injEq, Prod.mk.injEq] at hq
      exact hq.2.symm
    · subst h
      rw [PathRemoveFileSpecW_drive X h1 h2] at hq
      simp only [Option.some.injEq, Prod.mk.injEq] at hq
      exact hq.2.symm
  · intro server share hne h1 h2 h
    subst h
    have h0 : rd (server ++ '\\' :: share) 0 ≠ '\\' := by
      rcases server with _ | ⟨c, r⟩
      · exact absurd rfl hne
      · exact (h1 c (by simp)).1
    rw [PathRemoveFileSpecW_unc_cut server share (fun hm => (h1 ':' hm).2 rfl) h0 h2] at hq
    simp only [Option.some.injEq, Prod.mk.injEq] at hq
    exact ⟨hq.1.symm, hq.2.symm⟩

/-- Claim C17, an instance: `\\srv\data` does not end in a colon; it is cut to
`\\srv`, with the flag true. -/
theorem remove_last_segment_spec_witness :
    ("\\\\srv\\data".toList).getLast? ≠ some ':' ∧
      PathRemoveFileSpecW ("\\\\srv\\data".toList) = some ("\\\\srv".toList, true) :=
  ⟨by decide, by
    obtain ⟨q, changed, h1, _, _, _, h5⟩ :=
      remove_last_segment_spec ("\\\\srv\\data".toList) (by decide)
    obtain ⟨e1, e2⟩ := h5 ("srv".toList) ("data".toList) (by decide) (by decide) (by decide) rfl
    rw [h1, e1, e2]
    rfl⟩

/-- The second pass of `strip_to_root` on `C:foo`: the first pass cuts the path
to `C:`; the second steps over the new terminator into the text `oo` that is
still in the buffer, ends at the old terminator and reports no change, so
that `strip_to_root` fails and leaves `C:`. -/
theorem strip_to_root_stale_text :
    PathRemoveFileSpecBuf ("C:foo".toList) [] =
        some ("C:".toList, ['o', 'o', NUL], true) ∧
      PathRemoveFileSpecBuf ("C:".toList) ['o', 'o', NUL] =
        some ("C:".toList, ['o', 'o', NUL], false) ∧
      PathStripToRootW ("C:foo".toList) = some ("C:".toList, false) := by
  decide

/-- Claim C18 (violated by the code): on the bare drive `C:`, which is not a
root, `remove_last_segment` steps over the terminator of the string and reads
what follows the string in memory, of which nothing is known; so does
`strip_to_root`. -/
theorem strip_to_root_reads_past_end :
    PathIsRootW ("C:".toList) = false ∧ PathRemoveFileSpecW ("C:".toList) = none ∧
      PathRemoveFileSpecBuf ("C:".toList) [] = none ∧
      PathStripToRootW ("C:".toList) = none := by
  decide

/-- Claim C19 (as stated, refuted): a UNC prefix without a share, `\\server`,
is a root for `is_root`. -/
theorem is_root_unc_server : PathIsRootW ("\\\\server".toList) = true := by
  decide

/-- Claim C19 (amended): `is_root(p)` is true if and only if `p` is exactly `\`,
or `p` begins with two separators and the text after them contains at most
one further separator, or `p` is exactly `X:\` with `X` not a separator. -/
theorem is_root_iff (p : List Char) :
    PathIsRootW p = true ↔
      (p = ['\\'] ∨ (∃ rest, p = '\\' :: '\\' :: rest ∧ rest.count '\\' ≤ 1) ∨
        ∃ X, X ≠ '\\' ∧ p = [X, ':', '\\']) :=
  PathIsRootW_iff p

/-- Claim C19, instances: `\\server\share` is a root, `\\server\share\dir` and
`C:\a` are not. -/
theorem is_root_iff_witness :
    PathIsRootW ("\\\\server\\share".toList) = true ∧
      ¬ PathIsRootW ("\\\\server\\share\\dir".toList) = true ∧
      ¬ PathIsRootW ("C:\\a".toList) = true :=
  ⟨(is_root_iff _).mpr (Or.inr (Or.inl ⟨"server\\share".toList, rfl, by decide⟩)),
    by decide, by decide⟩

/-- The precedence of a list of outcomes, case by case. -/
theorem precedence_law (os : List FCRET) :
    (precedence os = FCRET_INVALID ↔
      ∃ o ∈ os, o ≠ FCRET_IDENTICAL ∧ o ≠ FCRET_DIFFERENT) ∧
    (precedence os = FCRET_DIFFERENT ↔
      (∀ o ∈ os, o = FCRET_IDENTICAL ∨ o = FCRET_DIFFERENT) ∧ FCRET_DIFFERENT ∈ os) ∧
    (precedence os = FCRET_IDENTICAL ↔ ∀ o ∈ os, o = FCRET_IDENTICAL) := by
  unfold precedence
  by_cases hbad : (os.any fun o => o != FCRET_IDENTICAL && o != FCRET_DIFFERENT) = true
  · rw [if_pos hbad]
    have hex : ∃ o ∈ os, o ≠ FCRET_IDENTICAL ∧ o ≠ FCRET_DIFFERENT := by simpa using hbad
    obtain ⟨o, ho, h1, h2⟩ := hex
    refine ⟨⟨fun _ => ⟨o, ho, h1, h2⟩, fun _ => rfl⟩, ⟨fun h => absurd h (by decide), ?_⟩,
      ⟨fun h => absurd h (by decide), fun h => absurd (h o ho) h1⟩⟩
    rintro ⟨h, _⟩
    rcases h o ho with h | h
    · exact absurd h h1
    · exact absurd h h2
  · rw [if_neg hbad]
    have hall : ∀ o ∈ os, o = FCRET_IDENTICAL ∨ o = FCRET_DIFFERENT := by
      intro o ho
      by_contra hcon
      simp only [not_or] at hcon
      apply hbad
      simp only [List.any_eq_true, Bool.and_eq_true, bne_iff_ne, ne_eq]
      exact ⟨o, ho, hcon.1, hcon.2⟩
    have hno : ¬ ∃ o ∈ os, o ≠ FCRET_IDENTICAL ∧ o ≠ FCRET_DIFFERENT := by
      rintro ⟨o, ho, h1, h2⟩
      rcases hall o ho with h | h
      · exact h1 h
      · exact h2 h
    by_cases hd : (os.any fun o => o == FCRET_DIFFERENT) = true
    · rw [if_pos hd]
      have hex : FCRET_DIFFERENT ∈ os := by simpa using hd
      refine ⟨⟨fun h => absurd h (by decide), fun h => absurd h hno⟩,
        ⟨fun _ => ⟨hall, hex⟩, fun _ => rfl⟩,
        ⟨fun h => absurd h (by decide), fun h => absurd (h _ hex) (by decide)⟩⟩
    · rw [if_neg hd]
      have hnd : FCRET_DIFFERENT ∉ os := by
        intro h
        apply hd
        simp only [List.any_eq_true, beq_iff_eq]
        exact ⟨_, h, rfl⟩
      refine ⟨⟨fun h => absurd h (by decide), fun h => absurd h hno⟩,
        ⟨fun h => absurd h (by decide), fun h => absurd h.2 hnd⟩, ⟨fun _ o ho => ?_, fun _ => rfl⟩⟩
      rcases hall o ho with h | h
      · exact h
      · exact absurd (h ▸ ho) hnd

/-- Claim C14 (as stated, refuted): the only pair outcome is `FCRET_CANT_FIND`,
none is `FCRET_INVALID`, and the aggregate is `FCRET_INVALID`. -/
theorem fold_cannot_find_is_invalid :
    WildcardFileCompareOneSide (fun _ _ _ => FCRET_CANT_FIND) ("ref.txt".toList)
        ("*.txt".toList) true ["x.txt".toList] =
      some (FCRET_INVALID,
        [⟨"x.txt".toList, [], "ref.txt".toList, "x.txt".toList, FCRET_CANT_FIND⟩]) := by
  decide

/-- Claim C14 (amended): the fold precedence. For plain patterns and listings,
single-wildcard mode returns the precedence of the outcomes of its calls, and
so does dual-wildcard mode when it reports nothing; the outcome of a call is
the value of the comparator on its two paths. Whatever the patterns, a run
that returns, on listings that are not empty, returns that precedence. The
precedence is `FCRET_INVALID` exactly when some outcome is neither
`FCRET_IDENTICAL` nor `FCRET_DIFFERENT`, otherwise `FCRET_DIFFERENT` exactly
when some outcome is `FCRET_DIFFERENT`, otherwise `FCRET_IDENTICAL`. -/
theorem fold_precedence (cmp : Nat → List Char → List Char → FCRET)
    (b g0 g1 : Bool) (lit : List Char)
    (s0 : List Char) (dirs0 : List (List Char)) (last0 : List Char)
    (s1 : List Char) (dirs1 : List (List Char)) (last1 : List Char)
    (l0 l1 : List (List Char)) (hp0 : isPattern s0 dirs0 last0 = true)
    (hp1 : isPattern s1 dirs1 last1 = true) (hl0 : isListing l0 = true)
    (hl1 : isListing l1 = true) :
    (WildcardFileCompareOneSide cmp (if b = true then lit else plainPath s0 dirs0 last0)
          (if b = true then plainPath s0 dirs0 last0 else lit) b l0 =
        some (precedence ((oneSideCalls cmp b lit 0 (nonDots l0)
            (plainTrace s0 dirs0 (nonDots l0))).map fun c => c.outcome),
          oneSideCalls cmp b lit 0 (nonDots l0) (plainTrace s0 dirs0 (nonDots l0))) ∧
      ∀ (i : Nat) (c : Call),
        (oneSideCalls cmp b lit 0 (nonDots l0) (plainTrace s0 dirs0 (nonDots l0)))[i]? = some c →
          c.outcome = cmp i c.file0 c.file1) ∧
    (∃ ret calls rep, WildcardFileCompareBoth cmp (plainPath s0 dirs0 last0)
          (plainPath s1 dirs1 last1) g0 g1 l0 l1 = some (ret, calls, rep) ∧
      (rep = none → ret = precedence (calls.map fun c => c.outcome)) ∧
      ∀ (i : Nat) (c : Call), calls[i]? = some c → c.outcome = cmp i c.file0 c.file1) ∧
    (∀ (file0 file1 : List Char) (entries : List (List Char)) (ret : FCRET) (calls : List Call),
      entries ≠ [] →
      WildcardFileCompareOneSide cmp file0 file1 b entries = some (ret, calls) →
        ret = precedence (calls.map fun c => c.outcome)) ∧
    (∀ (file0 file1 : List Char) (e0 e1 : List (List Char)) (ret : FCRET) (calls : List Call),
      e0 ≠ [] → e1 ≠ [] →
      WildcardFileCompareBoth cmp file0 file1 g0 g1 e0 e1 = some (ret, calls, none) →
        ret = precedence (calls.map fun c => c.outcome)) ∧
    ∀ os : List FCRET,
      (precedence os = FCRET_INVALID ↔
        ∃ o ∈ os, o ≠ FCRET_IDENTICAL ∧ o ≠ FCRET_DIFFERENT) ∧
      (precedence os = FCRET_DIFFERENT ↔
        (∀ o ∈ os, o = FCRET_IDENTICAL ∨ o = FCRET_DIFFERENT) ∧ FCRET_DIFFERENT ∈ os) ∧
      (precedence os = FCRET_IDENTICAL ↔ ∀ o ∈ os, o = FCRET_IDENTICAL) := by
  have h1 := oneSide_plain cmp b lit s0 dirs0 last0 l0 hp0 hl0
  obtain ⟨ret, rep, h2, h3, _⟩ :=
    both_plain_some cmp g0 g1 s0 dirs0 last0 s1 dirs1 last1 l0 l1 hp0 hp1 hl0 hl1
  refine ⟨⟨?_, (oneSide_calls _ _ _ _ _ _ _ h1).2.2⟩,
    ⟨ret, _, rep, h2, h3, (both_calls _ _ _ _ _ _ _ _ _ _ h2).2.2.2⟩, ?_, ?_, precedence_law⟩
  · rw [h1, foldCalls_precedence]
  · intro file0 file1 entries ret calls hne h
    rw [← foldCalls_precedence]
    exact (oneSide_calls _ _ _ _ _ _ _ h).2.1 hne
  · intro file0 file1 e0 e1 ret calls hne0 hne1 h
    rw [← foldCalls_precedence]
    exact (both_calls _ _ _ _ _ _ _ _ _ _ h).2.1 hne0 hne1 rfl

/-- Claim C14, the instance of the spec: the literal `ref.txt` against `*.txt`
over the entries `x.txt` and `y.txt`, both comparing identical, aggregates to
`FCRET_IDENTICAL`. -/
theorem fold_precedence_witness :
    WildcardFileCompareOneSide (fun _ _ _ => FCRET_IDENTICAL) ("ref.txt".toList)
        ("*.txt".toList) true ["x.txt".toList, "y.txt".toList] =
      some (FCRET_IDENTICAL,
        [⟨"x.txt".toList, [], "ref.txt".toList, "x.txt".toList, FCRET_IDENTICAL⟩,
          ⟨"y.txt".toList, [], "ref.txt".toList, "y.txt".toList, FCRET_IDENTICAL⟩]) :=
  ((fold_precedence (fun _ _ _ => FCRET_IDENTICAL) true false false ("ref.txt".toList)
    [] [] ("*.txt".toList) [] [] ("*.txt".toList) ["x.txt".toList, "y.txt".toList]
    ["x.txt".toList, "y.txt".toList] (by decide) (by decide) (by decide) (by decide)).1.1).trans
    (by decide)

/-- Claim C15: the dot-entry skip and the positional pairing. For plain
patterns and listings, single-wildcard mode returns with exactly one call for
every entry that is not `.` or `..`, in listing order; dual-wildcard mode
returns with one call for every position of the two lists of such entries: the
call number `i` pairs the entries number `i`, and the number of calls is the
smaller of the two counts. Whatever the patterns, a run that returns has made
exactly these calls. The entries `.` and `..` are in none of them. -/
theorem dot_skip_and_pairing (cmp : Nat → List Char → List Char → FCRET)
    (b g0 g1 : Bool) (lit : List Char)
    (s0 : List Char) (dirs0 : List (List Char)) (last0 : List Char)
    (s1 : List Char) (dirs1 : List (List Char)) (last1 : List Char)
    (l0 l1 : List (List Char)) (hp0 : isPattern s0 dirs0 last0 = true)
    (hp1 : isPattern s1 dirs1 last1 = true) (hl0 : isListing l0 = true)
    (hl1 : isListing l1 = true) :
    (∃ ret calls, WildcardFileCompareOneSide cmp
          (if b = true then lit else plainPath s0 dirs0 last0)
          (if b = true then plainPath s0 dirs0 last0 else lit) b l0 = some (ret, calls) ∧
      calls.map (fun c => c.entry0) = nonDots l0) ∧
    (∃ ret calls rep, WildcardFileCompareBoth cmp (plainPath s0 dirs0 last0)
          (plainPath s1 dirs1 last1) g0 g1 l0 l1 = some (ret, calls, rep) ∧
      calls.map (fun c => (c.entry0, c.entry1)) = (nonDots l0).zip (nonDots l1) ∧
      calls.length = min (nonDots l0).length (nonDots l1).length) ∧
    (∀ (file0 file1 : List Char) (entries : List (List Char)) (ret : FCRET) (calls : List Call),
      WildcardFileCompareOneSide cmp file0 file1 b entries = some (ret, calls) →
        calls.map (fun c => c.entry0) = nonDots entries) ∧
    (∀ (file0 file1 : List Char) (e0 e1 : List (List Char)) (ret : FCRET) (calls : List Call)
      (rep : Option (List Char)),
      WildcardFileCompareBoth cmp file0 file1 g0 g1 e0 e1 = some (ret, calls, rep) →
        calls.map (fun c => (c.entry0, c.entry1)) = (nonDots e0).zip (nonDots e1)) ∧
    ∀ (l : List (List Char)) (n : List Char),
      n ∈ nonDots l ↔ n ∈ l ∧ n ≠ ['.'] ∧ n ≠ ['.', '.'] := by
  have h1 := oneSide_plain cmp b lit s0 dirs0 last0 l0 hp0 hl0
  obtain ⟨ret, rep, h2, _, _⟩ :=
    both_plain_some cmp g0 g1 s0 dirs0 last0 s1 dirs1 last1 l0 l1 hp0 hp1 hl0 hl1
  have hz := (both_calls _ _ _ _ _ _ _ _ _ _ h2).1
  refine ⟨⟨_, _, h1, (oneSide_calls _ _ _ _ _ _ _ h1).1⟩, ⟨ret, _, rep, h2, hz, ?_⟩,
    fun file0 file1 entries ret calls h => (oneSide_calls _ _ _ _ _ _ _ h).1,
    fun file0 file1 e0 e1 ret calls rep h => (both_calls _ _ _ _ _ _ _ _ _ _ h).1, mem_nonDots⟩
  have := congrArg List.length hz
  rw [List.length_map, List.length_zip] at this
  exact this

/-- Claim C15, an instance: the left listing `.`, `a`, `..`, `b` and the right
listing `x`, `.`, `y`, `z` give two calls: `a` with `x`, then `b` with `y`. -/
theorem dot_skip_and_pairing_witness :
    ∃ ret calls rep, WildcardFileCompareBoth (fun _ _ _ => FCRET_IDENTICAL) ("d\\*".toList)
        ("e\\*".toList) false false [".".toList, "a".toList, "..".toList, "b".toList]
        ["x".toList, ".".toList, "y".toList, "z".toList] = some (ret, calls, rep) ∧
      calls.map (fun c => (c.entry0, c.entry1)) =
        [("a".toList, "x".toList), ("b".toList, "y".toList)] := by
  obtain ⟨ret, calls, rep, h, hz, _⟩ := (dot_skip_and_pairing (fun _ _ _ => FCRET_IDENTICAL)
    false false false [] [] ["d".toList] ("*".toList) [] ["e".toList] ("*".toList)
    [".".toList, "a".toList, "..".toList, "b".toList]
    ["x".toList, ".".toList, "y".toList, "z".toList] (by decide) (by decide) (by decide)
    (by decide)).2.1
  exact ⟨ret, calls, rep, h, hz.trans (by decide)⟩

theorem plainPath_bare (t : List Char) : plainPath [] [] t = t := by
  simp [plainPath, segText]

/-- The name of 255 letters `b` with the extension `.c` is the name of a
directory entry. -/
theorem long_ext_name : isEntry (List.replicate 255 'b' ++ ".c".toList) = true := by
  have hb : ∀ x ∈ List.replicate 255 'b' ++ ".c".toList, x ≠ '\\' ∧ x ≠ ':' ∧ x ≠ NUL := by
    intro x hx
    rcases List.mem_append.mp hx with h | h
    · rw [List.eq_of_mem_replicate h]
      decide
    · have h2 : x = '.' ∨ x = 'c' := by simpa using h
      rcases h2 with h2 | h2 <;> rw [h2] <;> decide
  have e : List.replicate 255 'b' ++ ".c".toList =
      'b' :: (List.replicate 254 'b' ++ ".c".toList) := by
    rw [List.replicate_succ 'b' 254]
    rfl
  rw [e] at hb ⊢
  apply isEntry_of_head _ _ (by decide) hb
  simp only [List.length_cons, List.length_append, List.length_replicate]
  decide

/-- Claim C13 (as stated, refuted): left pattern `*.c` over `a.c` and a name of
255 letters `b` with the extension `.c`, right pattern `*.html` over `a.html`.
Both patterns are extension-only and the left listing still has an entry; the
name reported is the 255 letters alone, not the name with the extension
`.html`, which has `MAX_PATH` code units and does not fit. -/
theorem desync_report_without_extension :
    WildcardFileCompareBoth (fun _ _ _ => FCRET_IDENTICAL) ("*.c".toList) ("*.html".toList)
        false false ["a.c".toList, List.replicate 255 'b' ++ ".c".toList] ["a.html".toList] =
      some (FCRET_CANT_FIND,
        [⟨"a.c".toList, "a.html".toList, "a.c".toList, "a.html".toList, FCRET_IDENTICAL⟩],
        some (List.replicate 255 'b')) ∧
      (List.replicate 255 'b' ++ ".html".toList).length = MAX_PATH := by
  constructor
  · have hl0 : isListing ["a.c".toList, List.replicate 255 'b' ++ ".c".toList] = true :=
      isListing_pair _ _ (by decide) long_ext_name
    have hdf0 : ∀ n ∈ ["a.c".toList, List.replicate 255 'b' ++ ".c".toList],
        IS_DOTS n = false := by
      intro n hn
      simp only [List.mem_cons, List.mem_singleton, List.not_mem_nil, or_false] at hn
      rcases hn with h | h
      · rw [h]
        rfl
      · rw [h]
        exact isName_not_dots (isEntry_name long_ext_name)
    have h := both_dotfree (fun _ _ _ => FCRET_IDENTICAL) false false [] [] ("*.c".toList)
      [] [] ("*.html".toList) _ ["a.html".toList] (by decide) (by decide) hl0 (by decide) hdf0
      (by decide)
    rw [plainPath_bare, plainPath_bare, if_pos ⟨by decide, by decide, by decide⟩,
      if_pos (by decide)] at h
    have hrep : reportName (["a.c".toList, List.replicate 255 'b' ++ ".c".toList].getD
        ["a.html".toList].length []) ("*.html".toList) = List.replicate 255 'b' := by
      have := reportName_eq (List.replicate 255 'b') ['c'] ("html".toList)
        (by
          intro c hc
          rw [List.eq_of_mem_replicate hc]
          decide) (by decide) (by decide)
      rw [List.length_replicate, if_pos (by decide)] at this
      exact this
    have ht0 : plainTrace [] [] ["a.c".toList, List.replicate 255 'b' ++ ".c".toList] =
        ["a.c".toList, List.replicate 255 'b' ++ ".c".toList] := by
      apply plainTrace_bare
      intro y hy
      simp only [List.mem_cons, List.mem_singleton, List.not_mem_nil, or_false] at hy
      rcases hy with h | h
      · rw [h]
        decide
      · rw [h]
        exact isEntry_length long_ext_name
    have ht1 : plainTrace [] [] ["a.html".toList] = ["a.html".toList] := by decide
    rw [hrep, ht0, ht1, bothCalls_cons, bothCalls_nil_right] at h
    exact h
  · rw [List.length_append, List.length_replicate]
    rfl

/-- Claim C13 (amended): the desynchronization of dual-wildcard mode, for plain
patterns and listings without `.` and `..`. When both patterns are
extension-only and the listings differ in length, the function returns
`FCRET_CANT_FIND` and reports a name made from the first unmatched entry of
the longer listing and the pattern of the other side; otherwise it reports
nothing and returns the precedence of the outcomes. The name reported for an
entry `stem.x` and a pattern `*.e` (no separator, space or dot in `stem`, `x`
and `e`) is `stem.e` when that fits `MAX_PATH`, and `stem` alone when it does
not. -/
theorem desync_report (cmp : Nat → List Char → List Char → FCRET) (g0 g1 : Bool)
    (s0 : List Char) (dirs0 : List (List Char)) (last0 : List Char)
    (s1 : List Char) (dirs1 : List (List Char)) (last1 : List Char)
    (l0 l1 : List (List Char)) (hp0 : isPattern s0 dirs0 last0 = true)
    (hp1 : isPattern s1 dirs1 last1 = true) (hl0 : isListing l0 = true)
    (hl1 : isListing l1 = true) (hdf0 : ∀ n ∈ l0, IS_DOTS n = false)
    (hdf1 : ∀ n ∈ l1, IS_DOTS n = false) :
    WildcardFileCompareBoth cmp (plainPath s0 dirs0 last0) (plainPath s1 dirs1 last1)
        g0 g1 l0 l1 =
      some (if l0.length ≠ l1.length ∧ IsExtOnly (plainPath s0 dirs0 last0) = true ∧
          IsExtOnly (plainPath s1 dirs1 last1) = true then
        (FCRET_CANT_FIND,
          bothCalls cmp 0 l0 l1 (plainTrace s0 dirs0 l0) (plainTrace s1 dirs1 l1),
          some (if l1.length < l0.length then
              reportName (l0.getD l1.length []) (plainPath s1 dirs1 last1)
            else reportName (l1.getD l0.length []) (plainPath s0 dirs0 last0)))
        else
          (precedence ((bothCalls cmp 0 l0 l1 (plainTrace s0 dirs0 l0)
              (plainTrace s1 dirs1 l1)).map fun c => c.outcome),
            bothCalls cmp 0 l0 l1 (plainTrace s0 dirs0 l0) (plainTrace s1 dirs1 l1), none)) ∧
    ∀ stem x e : List Char, (∀ c ∈ stem, c ≠ '\\' ∧ c ≠ ' ' ∧ c ≠ '.') →
      (∀ c ∈ x, c ≠ '\\' ∧ c ≠ ' ' ∧ c ≠ '.') → (∀ c ∈ e, c ≠ '\\' ∧ c ≠ ' ' ∧ c ≠ '.') →
        reportName (stem ++ '.' :: x) ('*' :: '.' :: e) =
          if MAX_PATH ≤ stem.length + (e.length + 1) then stem else stem ++ '.' :: e :=
  ⟨both_dotfree cmp g0 g1 s0 dirs0 last0 s1 dirs1 last1 l0 l1 hp0 hp1 hl0 hl1 hdf0 hdf1,
    reportName_eq⟩

/-- Claim C13, the instance of the spec: left `*.cpp` over `a.cpp` and `b.cpp`,
right `*.h` over `a.h`: the result is `FCRET_CANT_FIND` and the name reported
is `b.h`. -/
theorem desync_report_witness :
    WildcardFileCompareBoth (fun _ _ _ => FCRET_IDENTICAL) ("*.cpp".toList) ("*.h".toList)
        false false ["a.cpp".toList, "b.cpp".toList] ["a.h".toList] =
      some (FCRET_CANT_FIND,
        [⟨"a.cpp".toList, "a.h".toList, "a.cpp".toList, "a.h".toList, FCRET_IDENTICAL⟩],
        some ("b.h".toList)) :=
  ((desync_report (fun _ _ _ => FCRET_IDENTICAL) false false [] [] ("*.cpp".toList)
    [] [] ("*.h".toList) ["a.cpp".toList, "b.cpp".toList] ["a.h".toList]
    (by decide) (by decide) (by decide) (by decide) (by decide) (by decide)).1).trans (by decide)

/-! ## The extension of a path -/

/-- Whatever is scanned first, the scan of `PathFindExtensionW` goes on behind
it with some value of `lastpoint`. -/
theorem findExtScan_any (a : List Char) :
    ∀ (lp : Option Nat) (i : Nat) (rest : List Char),
      ∃ lp1, findExtScan lp i (a ++ rest) = findExtScan lp1 (i + a.length) rest := by
  induction a with
  | nil => intro lp i rest; exact ⟨lp, rfl⟩
  | cons c m ih =>
    intro lp i rest
    have e : i + (c :: m).length = i + 1 + m.length := by simp only [List.length_cons]; omega
    rw [List.cons_append, findExtScan, e]
    split
    · exact ih none (i + 1) rest
    · split
      · exact ih (some i) (i + 1) rest
      · exact ih lp (i + 1) rest

theorem findExtScan_reset (lp : Option Nat) (i : Nat) (c : Char) (rest : List Char)
    (hc : c = '\\' ∨ c = ' ') : findExtScan lp i (c :: rest) = findExtScan none (i + 1) rest := by
  rw [findExtScan, if_pos hc]

theorem findExtScan_clean (t : List Char) (ht : ∀ c ∈ t, c ≠ '\\' ∧ c ≠ ' ' ∧ c ≠ '.')
    (lp : Option Nat) (i : Nat) : findExtScan lp i t = lp.getD (i + t.length) := by
  have := findExtScan_run t ht lp i []
  rw [List.append_nil] at this
  rw [this]
  simp [findExtScan]

/-- The index returned for a path with a `.` that has no `.`, separator or space
behind it is the index of that `.`. -/
theorem PathFindExtensionW_dot (a b : List Char)
    (hb : ∀ c ∈ b, c ≠ '\\' ∧ c ≠ ' ' ∧ c ≠ '.') :
    PathFindExtensionW (a ++ '.' :: b) = a.length := by
  unfold PathFindExtensionW
  obtain ⟨lp1, h⟩ := findExtScan_any a none 0 ('.' :: b)
  rw [h, findExtScan_dot, findExtScan_clean b hb]
  simp

/-- The index returned for a path without a `.` behind its last separator or
space is the index of the terminator. -/
theorem PathFindExtensionW_none (a t : List Char)
    (ha : a = [] ∨ a.getLast? = some '\\' ∨ a.getLast? = some ' ')
    (ht : ∀ c ∈ t, c ≠ '\\' ∧ c ≠ ' ' ∧ c ≠ '.') :
    PathFindExtensionW (a ++ t) = (a ++ t).length := by
  unfold PathFindExtensionW
  rcases ha with ha | ha
  · subst ha
    rw [List.nil_append, findExtScan_clean t ht]
    simp
  · have hne : a ≠ [] := by
      intro h
      subst h
      simp at ha
    rcases List.eq_nil_or_concat a with h1 | ⟨m, c, h1⟩
    · exact absurd h1 hne
    · rw [List.concat_eq_append] at h1
      subst h1
      have hc : c = '\\' ∨ c = ' ' := by
        rw [getLast?_snoc] at ha
        rcases ha with h | h
        · exact Or.inl (Option.some.inj h)
        · exact Or.inr (Option.some.inj h)
      have e : m ++ [c] ++ t = m ++ c :: t := by simp
      obtain ⟨lp1, h⟩ := findExtScan_any m none 0 (c :: t)
      rw [e, h, findExtScan_reset lp1 _ c t hc, findExtScan_clean t ht]
      simp only [Option.getD_none, List.length_append, List.length_cons]
      omega

/-- Every path has a last `.` behind its last separator or space, or none. -/
theorem extension_cases (p : List Char) :
    (∃ a b, p = a ++ '.' :: b ∧ ∀ c ∈ b, c ≠ '\\' ∧ c ≠ ' ' ∧ c ≠ '.') ∨
      ∃ a t, p = a ++ t ∧ (a = [] ∨ a.getLast? = some '\\' ∨ a.getLast? = some ' ') ∧
        ∀ c ∈ t, c ≠ '\\' ∧ c ≠ ' ' ∧ c ≠ '.' := by
  induction p with
  | nil => exact Or.inr ⟨[], [], rfl, Or.inl rfl, by simp⟩
  | cons c r ih =>
    rcases ih with ⟨a, b, h, hb⟩ | ⟨a, t, h, ha, ht⟩
    · exact Or.inl ⟨c :: a, b, by rw [h]; rfl, hb⟩
    · by_cases hne : a = []
      · subst hne
        rw [List.nil_append] at h
        subst h
        by_cases hs : c = '\\' ∨ c = ' '
        · refine Or.inr ⟨[c], r, rfl, Or.inr ?_, ht⟩
          rcases hs with hs | hs
          · exact Or.inl (by rw [hs]; rfl)
          · exact Or.inr (by rw [hs]; rfl)
        · simp only [not_or] at hs
          by_cases hd : c = '.'
          · subst hd
            exact Or.inl ⟨[], r, rfl, ht⟩
          · refine Or.inr ⟨[], c :: r, rfl, Or.inl rfl, ?_⟩
            intro x hx
            rcases List.mem_cons.mp hx with hx | hx
            · rw [hx]
              exact ⟨hs.1, hs.2, hd⟩
            · exact ht x hx
      · refine Or.inr ⟨c :: a, t, by rw [h]; rfl, Or.inr ?_, ht⟩
        rw [getLast?_cons_of_ne c hne]
        rcases ha with ha | ha
        · exact absurd ha hne
        · exact ha

/-- The code unit at the index that `PathFindExtensionW` returns is the
terminator exactly when the index is the length of the path. -/
theorem rd_extension (p : List Char) :
    rd p (PathFindExtensionW p) ≠ NUL ↔ PathFindExtensionW p ≠ p.length := by
  rcases extension_cases p with ⟨a, b, h, hb⟩ | ⟨a, t, h, ha, ht⟩
  · subst h
    rw [PathFindExtensionW_dot a b hb]
    have hrd : rd (a ++ '.' :: b) a.length = '.' := by
      have := rd_append_right a ('.' :: b) 0
      simpa using this
    rw [hrd]
    constructor
    · intro _
      simp
    · intro _
      decide
  · subst h
    rw [PathFindExtensionW_none a t ha ht, rd_of_length_le _ _ (le_refl _)]
    simp

theorem PathAddExtensionW_eq (p ext : List Char) :
    PathAddExtensionW p ext =
      if PathFindExtensionW p ≠ p.length ∨ MAX_PATH ≤ p.length + ext.length then (p, false)
      else (p ++ ext, true) := by
  unfold PathAddExtensionW
  by_cases h1 : PathFindExtensionW p ≠ p.length
  · rw [if_pos ((rd_extension p).mpr h1), if_pos (Or.inl h1)]
  · rw [if_neg (fun h => h1 ((rd_extension p).mp h))]
    by_cases h2 : MAX_PATH ≤ p.length + ext.length
    · rw [if_pos h2, if_pos (Or.inr h2)]
    · rw [if_neg h2, if_neg (by simp only [not_or]; exact ⟨h1, h2⟩)]

/-! ## The claims on the trailing separator and on extensions -/

theorem PathAddBackslashW_full (p : List Char) (h : MAX_PATH ≤ p.length) :
    PathAddBackslashW p = none := by
  unfold PathAddBackslashW
  rw [if_pos h]

theorem ensureSep_twice (p : List Char) : ensureSep (ensureSep p) = ensureSep p := by
  unfold ensureSep
  by_cases h : p = [] ∨ p.getLast? = some '\\'
  · rw [if_pos h, if_pos h]
  · rw [if_neg h, if_pos (Or.inr (getLast?_snoc p '\\'))]

/-- Below the last length that `PathAddBackslashW` accepts, a second call
changes nothing. -/
theorem PathAddBackslashW_twice (p : List Char) (h : p.length + 1 < MAX_PATH) :
    (PathAddBackslashW p).bind PathAddBackslashW = PathAddBackslashW p := by
  have hlen : (ensureSep p).length < MAX_PATH := by
    unfold ensureSep
    split
    · omega
    · rw [List.length_append, List.length_singleton]
      exact h
  rw [PathAddBackslashW_eq p (by omega), Option.some_bind, PathAddBackslashW_eq _ hlen,
    ensureSep_twice]

/-- Claim C21 (violated by the code): for the path of 259 letters `a`, shorter
than `MAX_PATH`, `add_trailing_separator` does not fail: it returns the path
followed by a separator, a text of `MAX_PATH` code units; applied to that
result it fails, so that applying it twice is not applying it once. -/
theorem add_trailing_separator_twice_fails :
    (List.replicate 259 'a').length < MAX_PATH ∧
      PathAddBackslashW (List.replicate 259 'a') = some (List.replicate 259 'a' ++ ['\\']) ∧
      (List.replicate 259 'a' ++ ['\\']).length = MAX_PATH ∧
      (PathAddBackslashW (List.replicate 259 'a')).bind PathAddBackslashW = none := by
  have hlen : (List.replicate 259 'a').length = 259 := List.length_replicate 259 'a'
  have hlt : (List.replicate 259 'a').length < MAX_PATH := by rw [hlen]; decide
  have hne : List.replicate 259 'a' ≠ [] := by
    intro h
    have := congrArg List.length h
    rw [hlen] at this
    exact absurd this (by decide)
  have hlast : (List.replicate 259 'a').getLast? ≠ some '\\' := by
    intro h
    have := List.eq_of_mem_replicate (List.mem_of_getLast?_eq_some h)
    exact absurd this (by decide)
  have hes : ensureSep (List.replicate 259 'a') = List.replicate 259 'a' ++ ['\\'] := by
    unfold ensureSep
    rw [if_neg (by simp only [not_or]; exact ⟨hne, hlast⟩)]
  have hl2 : (List.replicate 259 'a' ++ ['\\']).length = MAX_PATH := by
    rw [List.length_append, hlen]
    rfl
  have h1 : PathAddBackslashW (List.replicate 259 'a') =
      some (List.replicate 259 'a' ++ ['\\']) := by
    rw [PathAddBackslashW_eq _ hlt, hes]
  refine ⟨hlt, h1, hl2, ?_⟩
  rw [h1, Option.some_bind]
  exact PathAddBackslashW_full _ (by rw [hl2])

/-- Claim C22: `find_extension`. If `p` is `a`, a `.` and a text `b` without `.`,
separator or space, the index returned is that of this `.`, the last one
behind the last separator or space. If `p` is `a` followed by a text `t`
without `.`, separator or space, where `a` is empty or ends with a separator
or a space, the index returned is the length of `p`. Every path is of one of
the two forms, and the index returned is the length of `p` exactly for the
second. -/
theorem find_extension_spec (p : List Char) :
    (∀ a b : List Char, p = a ++ '.' :: b → (∀ c ∈ b, c ≠ '\\' ∧ c ≠ ' ' ∧ c ≠ '.') →
      PathFindExtensionW p = a.length) ∧
    (∀ a t : List Char, p = a ++ t →
      (a = [] ∨ a.getLast? = some '\\' ∨ a.getLast? = some ' ') →
      (∀ c ∈ t, c ≠ '\\' ∧ c ≠ ' ' ∧ c ≠ '.') → PathFindExtensionW p = p.length) ∧
    ((∃ a b, p = a ++ '.' :: b ∧ ∀ c ∈ b, c ≠ '\\' ∧ c ≠ ' ' ∧ c ≠ '.') ∨
      ∃ a t, p = a ++ t ∧ (a = [] ∨ a.getLast? = some '\\' ∨ a.getLast? = some ' ') ∧
        ∀ c ∈ t, c ≠ '\\' ∧ c ≠ ' ' ∧ c ≠ '.') ∧
    (PathFindExtensionW p = p.length ↔
      ∃ a t, p = a ++ t ∧ (a = [] ∨ a.getLast? = some '\\' ∨ a.getLast? = some ' ') ∧
        ∀ c ∈ t, c ≠ '\\' ∧ c ≠ ' ' ∧ c ≠ '.') := by
  have hA : ∀ a b : List Char, p = a ++ '.' :: b → (∀ c ∈ b, c ≠ '\\' ∧ c ≠ ' ' ∧ c ≠ '.') →
      PathFindExtensionW p = a.length := by
    intro a b h hb
    rw [h]
    exact PathFindExtensionW_dot a b hb
  have hB : ∀ a t : List Char, p = a ++ t →
      (a = [] ∨ a.getLast? = some '\\' ∨ a.getLast? = some ' ') →
      (∀ c ∈ t, c ≠ '\\' ∧ c ≠ ' ' ∧ c ≠ '.') → PathFindExtensionW p = p.length := by
    intro a t h ha ht
    rw [h]
    exact PathFindExtensionW_none a t ha ht
  refine ⟨hA, hB, extension_cases p, ?_, ?_⟩
  · intro h
    rcases extension_cases p with ⟨a, b, h1, hb⟩ | hcase
    · have h2 := hA a b h1 hb
      rw [h] at h2
      have := congrArg List.length h1
      rw [List.length_append, List.length_cons] at this
      omega
    · exact hcase
  · rintro ⟨a, t, h, ha, ht⟩
    exact hB a t h ha ht

/-- Claim C22, the instances of the spec: `a.b c` has no extension, the index
returned is its length 5; `a b.c` has the extension `.c`, at index 3. -/
theorem find_extension_spec_witness :
    PathFindExtensionW ("a.b c".toList) = 5 ∧ PathFindExtensionW ("a b.c".toList) = 3 :=
  ⟨(find_extension_spec ("a.b c".toList)).2.1 ("a.b ".toList) ("c".toList) rfl
      (Or.inr (Or.inr (by decide))) (by decide),
    (find_extension_spec ("a b.c".toList)).1 ("a b".toList) ("c".toList) rfl (by decide)⟩

/-- Claim C23: `add_extension(p, ext)` fails if and only if `p` has an extension
(the index that `find_extension` returns is not the length of `p`) or `p`
followed by `ext` does not fit `MAX_PATH` code units with its terminator; when
it fails `p` is unchanged, when it succeeds the result is `p` followed by
`ext`. -/
theorem add_extension_spec (p ext : List Char) :
    ((PathAddExtensionW p ext).2 = false ↔
      (PathFindExtensionW p ≠ p.length ∨ MAX_PATH ≤ p.length + ext.length)) ∧
    ((PathAddExtensionW p ext).2 = false → (PathAddExtensionW p ext).1 = p) ∧
    ((PathAddExtensionW p ext).2 = true → (PathAddExtensionW p ext).1 = p ++ ext) := by
  rw [PathAddExtensionW_eq]
  by_cases h : PathFindExtensionW p ≠ p.length ∨ MAX_PATH ≤ p.length + ext.length
  · rw [if_pos h]
    exact ⟨⟨fun _ => h, fun _ => rfl⟩, fun _ => rfl, fun h2 => absurd h2 (by simp)⟩
  · rw [if_neg h]
    exact ⟨⟨fun h2 => absurd h2 (by simp), fun h2 => absurd h2 h⟩,
      fun h2 => absurd h2 (by simp), fun _ => rfl⟩

/-- Claim C23, instances: `b.c` has an extension and is left unchanged; `b` gets
the extension `.h`. -/
theorem add_extension_spec_witness :
    (PathAddExtensionW ("b.c".toList) (".h".toList)).1 = "b.c".toList ∧
      (PathAddExtensionW ("b".toList) (".h".toList)).1 = "b.h".toList :=
  ⟨(add_extension_spec ("b.c".toList) (".h".toList)).2.1 (by decide),
    (add_extension_spec ("b".toList) (".h".toList)).2.2 (by decide)⟩

/-- Claim C24: the round trip of adding and finding an extension. For a path `p`
without extension and an extension `.e` (no `.`, separator or space in `e`)
such that `p.e` fits `MAX_PATH` code units with its terminator, `add_extension`
succeeds with `p.e`; on `p.e` the index that `find_extension` returns is not
the length, and the text from that index on is `.e`. -/
theorem extension_round_trip (p e : List Char) (hp : PathFindExtensionW p = p.length)
    (he : ∀ c ∈ e, c ≠ '\\' ∧ c ≠ ' ' ∧ c ≠ '.')
    (hfit : p.length + (e.length + 1) < MAX_PATH) :
    PathAddExtensionW p ('.' :: e) = (p ++ '.' :: e, true) ∧
      PathFindExtensionW (p ++ '.' :: e) ≠ (p ++ '.' :: e).length ∧
      (p ++ '.' :: e).drop (PathFindExtensionW (p ++ '.' :: e)) = '.' :: e := by
  have h1 := PathFindExtensionW_dot p e he
  refine ⟨?_, ?_, ?_⟩
  · rw [PathAddExtensionW_eq, if_neg]
    simp only [not_or, List.length_cons]
    exact ⟨by simp [hp], by omega⟩
  · rw [h1, List.length_append, List.length_cons]
    omega
  · rw [h1, List.drop_left]

/-- Claim C24, an instance: `C:\dir\file` with the extension `.ext`. -/
theorem extension_round_trip_witness :
    PathAddExtensionW ("C:\\dir\\file".toList) (".ext".toList) =
        ("C:\\dir\\file.ext".toList, true) ∧
      PathFindExtensionW ("C:\\dir\\file.ext".toList) ≠ ("C:\\dir\\file.ext".toList).length ∧
      ("C:\\dir\\file.ext".toList).drop (PathFindExtensionW ("C:\\dir\\file.ext".toList)) =
        ".ext".toList :=
  extension_round_trip ("C:\\dir\\file".toList) ("ext".toList) (by decide) (by decide)
    (by decide)

/-! ## The length of the canonical text -/

/-- One iteration of the main loop of `PathCanonicalizeW` leaves a shorter text
to read, and does not write more than it reads. -/
theorem canonLoop_step (prev : Option Char) (c : Char) (rest out o : List Char)
    (h : canonLoop prev (c :: rest) out = some o) :
    ∃ (prev1 : Option Char) (src1 out1 : List Char), canonLoop prev1 src1 out1 = some o ∧
      src1.length < (c :: rest).length ∧
      out1.length + src1.length ≤ out.length + (c :: rest).length := by
  by_cases hc : c = '.'
  · subst hc
    rcases rest with _ | ⟨c1, rest1⟩
    · rw [canonLoop_dot_end] at h
      exact ⟨none, [], out ++ ['.'], by rw [canonLoop_nil]; exact h, by simp, by simp⟩
    · by_cases h1 : c1 = '\\' ∧ (prev = none ∨ prev = some '\\' ∨ prev = some ':')
      · have e : canonLoop prev ('.' :: c1 :: rest1) out = canonLoop (some c1) rest1 out := by
          rcases rest1 with _ | ⟨e, rest2⟩ <;> simp [canonLoop, h1]
        rw [e] at h
        exact ⟨_, _, _, h, by simp only [List.length_cons]; omega,
          by simp only [List.length_cons]; omega⟩
      · by_cases h2 : c1 = '.' ∧ out ≠ [] ∧ out.getLast? = some '\\'
        · obtain ⟨h2a, h2b, h2c⟩ := h2
          subst h2a
          cases hb : backtrack out with
          | none =>
            have e : canonLoop prev ('.' :: '.' :: rest1) out = none := by
              rcases rest1 with _ | ⟨e, rest2⟩ <;> simp [canonLoop, h2b, h2c, hb]
            rw [e] at h
            exact absurd h (by simp)
          | some d =>
            by_cases hd : d = 0
            · subst hd
              rcases rest1 with _ | ⟨e, rest2⟩
              · rw [canonLoop_dotdot_reroot_end prev out h2c hb] at h
                exact absurd h (by simp)
              · rw [canonLoop_dotdot_reroot prev e rest2 out h2c hb] at h
                refine ⟨_, _, _, h, by simp only [List.length_cons]; omega, ?_⟩
                simp only [List.length_cons, List.length_nil]
                omega
            · rw [canonLoop_dotdot prev rest1 out d h2c hb hd] at h
              refine ⟨_, _, _, h, by simp only [List.length_cons]; omega, ?_⟩
              simp only [List.length_take, List.length_cons]
              omega
        · have e : canonLoop prev ('.' :: c1 :: rest1) out =
              canonLoop (some '.') (c1 :: rest1) (out ++ ['.']) := by
            rcases rest1 with _ | ⟨e, rest2⟩ <;> simp [canonLoop, h1, h2]
          rw [e] at h
          exact ⟨_, _, _, h, by simp only [List.length_cons]; omega,
            by simp only [List.length_cons, List.length_append, List.length_nil]; omega⟩
  · rw [canonLoop_copy prev c rest out hc] at h
    exact ⟨_, _, _, h, by simp only [List.length_cons]; omega,
      by simp only [List.length_cons, List.length_append, List.length_nil]; omega⟩

/-- The main loop of `PathCanonicalizeW` does not write more than it reads. -/
theorem canonLoop_length (n : Nat) :
    ∀ (src : List Char), src.length ≤ n → ∀ (prev : Option Char) (out o : List Char),
      canonLoop prev src out = some o → o.length ≤ out.length + src.length := by
  induction n with
  | zero =>
    intro src hlen prev out o h
    have : src = [] := List.length_eq_zero.mp (by omega)
    subst this
    rw [canonLoop_nil] at h
    injection h with h
    rw [← h]
    simp
  | succ n ih =>
    intro src hlen prev out o h
    rcases src with _ | ⟨c, rest⟩
    · rw [canonLoop_nil] at h
      injection h with h
      rw [← h]
      simp
    · obtain ⟨prev1, src1, out1, h1, h2, h3⟩ := canonLoop_step prev c rest out o h
      have := ih src1 (by omega) prev1 out1 o h1
      omega

theorem nakedDrive_length (o : List Char) : (nakedDrive o).length ≤ o.length + 1 := by
  unfold nakedDrive
  split <;> simp

/-- Wherever `PathCanonicalizeW` stays inside its input, the text it leaves is
at most one code unit longer than the input. -/
theorem canon_length (p o : List Char) (h : PathCanonicalizeW p = some o) :
    o.length ≤ p.length + 1 := by
  have key : ∀ (prev : Option Char) (src out : List Char),
      (canonLoop prev src out).map nakedDrive = some o → out.length + src.length ≤ p.length →
        o.length ≤ p.length + 1 := by
    intro prev src out h1 h2
    simp only [Option.map_eq_some'] at h1
    obtain ⟨o1, h3, h4⟩ := h1
    have := canonLoop_length src.length src (le_refl _) prev out o1 h3
    have hn := nakedDrive_length o1
    rw [h4] at hn
    omega
  unfold PathCanonicalizeW at h
  split at h
  · injection h with h
    rw [← h]
    simp
  · rename_i c0 rest0
    split at h
    · exact key _ _ _ h (by simp only [List.length_cons, List.length_nil]; omega)
    · split at h
      · exact key _ _ _ h (by simp only [List.length_cons, List.length_nil]; omega)
      · exact key _ _ _ h (by simp only [List.length_cons, List.length_nil]; omega)
      · exact key _ _ _ h (by simp only [List.length_cons, List.length_nil]; omega)

/-! ## The claims on the rebuilt paths and on the length of the canonical text -/

/-- An entry name that starts with `..` is taken for the segment `..`: the path
rebuilt for the entry `..foo` of the directory `C:\d` is `C:foo`. -/
theorem rebuild_dotdot_name :
    rebuildPath ("C:\\d\\*".toList) ("..foo".toList) = some ("C:foo".toList) := by
  decide

/-- Claim C26 (violated by the code): on the relative path `a\..` the scan of
`canonicalize` backs up to the start of the buffer and then skips three code
units where only `..` is left: it steps over the terminator of the input and
goes on reading, and writing, with what follows the string. -/
theorem canonicalize_relative_dotdot_undefined :
    PathCanonicalizeW ("a\\..".toList) = none := by
  decide

end Fc
